import Mathlib

/-!
Verification of the tape-based reverse-mode AD engine (package `ad`,
file `tape.go`, and the elemental registry in `elemental.go`).

The embedding is shallow: Go float64 cells are modelled as exact rationals,
pointers (`*float64`) as indices into a growing memory list (`heap`), and the
global tape as an explicit state record threaded through the primitives.
Slice reallocation is idealized away: a cell keeps its address forever, which
matches Go behaviour as long as no stale pointer into a reallocated backing
array is used (the recorder never does).  Go panics are modelled as `Except`
errors; where a panic is irrelevant to every claim (indexing an absent list
element) the usual `getD`/`set` total conventions are used.
-/

namespace AD

/-- Gradient of an elemental: value and parameters to partial derivatives.
Mirrors `ElementalGradientFunc` of the source. -/
abbrev EGrad := ℚ → List ℚ → List ℚ

/-- The mathematical library functions that occur inside the registered
gradient bodies (`math.Log`, `math.Sin`, `math.Cos`), kept abstract. -/
structure MathEnv where
  log : ℚ → ℚ
  sin : ℚ → ℚ
  cos : ℚ → ℚ

/-- Function identity, the key of the elemental registry (in Go the address
of the function implementation). -/
inductive FuncId where
  | fSqrt | fExp | fLog | fPow | fSin | fCos | fTan
  | fUser (n : Nat)
deriving DecidableEq, Repr

/-- The elemental registry as built by `init` in the source: the seven
builtin registrations, everything else unregistered. -/
def builtinElementals (M : MathEnv) : FuncId → Option EGrad
  | .fSqrt => some (fun value _ => [0.5 / value])
  | .fExp  => some (fun value _ => [value])
  | .fLog  => some (fun _ params => [1 / params.getD 0 0])
  | .fPow  => some (fun value params => [value * M.log (params.getD 0 0)])
  | .fSin  => some (fun _ params => [M.cos (params.getD 0 0)])
  | .fCos  => some (fun _ params => [-(M.sin (params.getD 0 0))])
  | .fTan  => some (fun value _ => [1 + value * value])
  | .fUser _ => none

/-- Environment resolving a function identity to its callable forward
implementation and to the registry of gradients. -/
structure FuncEnv where
  impl : FuncId → List ℚ → ℚ
  grad : FuncId → Option EGrad

/-- `ElementalGradient` of the source: registry lookup. -/
def ElementalGradient (env : FuncEnv) (f : FuncId) : Option EGrad := env.grad f

-- Record types (the `const` block of tape.go).
def typDummy : Nat := 0
def typAssignment : Nat := 1
def typArithmetic : Nat := 2
def typElemental : Nat := 3
def typCall : Nat := 4

-- Arithmetic operations.
def OpNeg : Nat := 0
def OpAdd : Nat := 1
def OpSub : Nat := 2
def OpMul : Nat := 3
def OpDiv : Nat := 4

/-- A tape record: type, opcode, first place index, first value index. -/
structure Rec where
  typ : Nat
  op : Nat
  p : Nat
  v : Nat
deriving DecidableEq, Repr

def emptyRec : Rec := { typ := typDummy, op := 0, p := 0, v := 0 }

/-- An elemental entry: argument count and gradient. -/
structure Elem where
  n : Nat
  g : EGrad

/-- Counter frame pushed at `Setup`. -/
structure Counters where
  n : Nat
  r : Nat
  p : Nat
  v : Nat
  e : Nat
deriving DecidableEq, Repr

def emptyCounters : Counters := { n := 0, r := 0, p := 0, v := 0, e := 0 }

/-- The tape (struct `oneGlobalTape`) together with the ambient memory the
cells live in.  `heap` holds every float64 cell in allocation order; a
pointer is an index into it.  `values` holds, per value-store slot, the
address of the heap cell backing that slot (the slot `tape.values[k]` of the
source is the cell `heap[values[k]]` here). -/
structure Tape where
  heap : List ℚ
  records : List Rec
  places : List Nat
  values : List Nat
  elementals : List Elem
  cstack : List Counters
  adj : List Nat
  adv : List ℚ

/-- Dereference a cell. -/
def readMem (h : List ℚ) (p : Nat) : ℚ := h.getD p 0

/-- Write through a cell pointer. -/
def writeMem (h : List ℚ) (p : Nat) (q : ℚ) : List ℚ := h.set p q

/-- `init` of tape.go: the tape starts with one Dummy record. -/
def initTape : Tape :=
  { heap := [], records := [emptyRec], places := [], values := [],
    elementals := [], cstack := [], adj := [], adv := [] }

/-- `Value` adds value v to the memory and returns the location. -/
def Value (v : ℚ) (t : Tape) : Tape × Nat :=
  ({ t with heap := t.heap ++ [v], values := t.values ++ [t.heap.length] },
   t.heap.length)

/-- `push` pushes a counter frame recording current array lengths. -/
def push (n : Nat) (t : Tape) : Tape :=
  { t with cstack := t.cstack ++
      [{ n := n, r := t.records.length, p := t.places.length,
         v := t.values.length, e := t.elementals.length }] }

/-- `register` stores the locations of the function parameters. -/
def register (x : List Nat) (t : Tape) : Tape :=
  { t with places := t.places ++ x }

/-- `Setup` sets up the tape for the forward pass: push a frame, append a
fresh result-slot cell, then the parameter places. -/
def Setup (x : List Nat) (t : Tape) : Tape :=
  let t1 := push x.length t
  let pv := Value 0 t1
  register x { pv.1 with places := pv.1.places ++ [pv.2] }

/-- The topmost counter frame (the source indexes `cstack[len-1]`, panicking
on an empty stack; no claim exercises that case). -/
def topFrame (t : Tape) : Counters := t.cstack.getLastD emptyCounters

/-- `Return`: the returned value goes into the first place of the frame. -/
def Return (px : Nat) (t : Tape) : Tape × ℚ :=
  ({ t with places := t.places.set (topFrame t).p px }, readMem t.heap px)

/-- `Arithmetic` encodes an arithmetic operation, runs it eagerly and
returns the result location.  A bad opcode panics (`Except.error`, carrying
the tape state at the panic). -/
def Arithmetic (op : Nat) (px : List Nat) (t : Tape) : Except Tape (Tape × Nat) :=
  let pv := Value 0 t
  let p := pv.2
  let r : Rec := { typ := typArithmetic, op := op, p := pv.1.places.length, v := 0 }
  let t2 := { pv.1 with places := pv.1.places ++ p :: px,
                        records := pv.1.records ++ [r] }
  let x0 := readMem t2.heap (px.getD 0 0)
  let x1 := readMem t2.heap (px.getD 1 0)
  if op = OpNeg then .ok ({ t2 with heap := writeMem t2.heap p (-x0) }, p)
  else if op = OpAdd then .ok ({ t2 with heap := writeMem t2.heap p (x0 + x1) }, p)
  else if op = OpSub then .ok ({ t2 with heap := writeMem t2.heap p (x0 - x1) }, p)
  else if op = OpMul then .ok ({ t2 with heap := writeMem t2.heap p (x0 * x1) }, p)
  else if op = OpDiv then .ok ({ t2 with heap := writeMem t2.heap p (x0 / x1) }, p)
  else .error t2

/-- One loop of `ParallelAssignment` registration: per cell, append the
place and save the current cell value into a fresh value-store slot. -/
def saveCells (ps : List Nat) (t : Tape) : Tape :=
  match ps with
  | [] => t
  | p :: rest =>
      let q := readMem t.heap p
      saveCells rest
        { t with places := t.places ++ [p],
                 values := t.values ++ [t.heap.length],
                 heap := t.heap ++ [q] }

/-- The run loop of `ParallelAssignment`:
`*p[i] = tape.values[len(tape.values)-len(p)+i]`, in order. -/
def prunLoop (ps : List Nat) (i k : Nat) (t : Tape) : Tape :=
  match ps with
  | [] => t
  | p :: rest =>
      let q := readMem t.heap (t.values.getD (t.values.length - k + i) 0)
      prunLoop rest (i + 1) k { t with heap := writeMem t.heap p q }

/-- `ParallelAssignment` encodes a parallel assignment: the first half of
`ppx` are the targets, the second half the sources. -/
def ParallelAssignment (ppx : List Nat) (t : Tape) : Tape :=
  let k := ppx.length / 2
  let ps := ppx.take k
  let pxs := ppx.drop k
  let r : Rec := { typ := typAssignment, op := k,
                   p := t.places.length, v := t.values.length }
  let t1 := saveCells ps t
  let t2 := saveCells pxs t1
  let t3 := { t2 with records := t2.records ++ [r] }
  prunLoop ps 0 k t3

/-- `Assignment` encodes a single-value assignment (specialized fast path:
only the target value is saved). -/
def Assignment (p px : Nat) (t : Tape) : Tape :=
  let r : Rec := { typ := typAssignment, op := 1,
                   p := t.places.length, v := t.values.length }
  let q := readMem t.heap p
  let t1 := { t with places := t.places ++ [p, px],
                     values := t.values ++ [t.heap.length],
                     heap := t.heap ++ [q],
                     records := t.records ++ [r] }
  { t1 with heap := writeMem t1.heap p (readMem t1.heap px) }

/-- The argument-saving loop of `Elemental`: copy argument values to the
tape memory. -/
def saveVals (pxs : List Nat) (t : Tape) : Tape :=
  match pxs with
  | [] => t
  | p :: rest =>
      let q := readMem t.heap p
      saveVals rest
        { t with values := t.values ++ [t.heap.length],
                 heap := t.heap ++ [q] }

/-- `Elemental` encodes a call to the elemental f.  With f unregistered the
source panics after having already allocated the result cell; the error
carries that state. -/
def Elemental (env : FuncEnv) (f : FuncId) (px : List Nat) (t : Tape) :
    Except Tape (Tape × Nat) :=
  let pv := Value 0 t
  let p := pv.2
  match ElementalGradient env f with
  | none => .error pv.1
  | some g =>
    let r : Rec := { typ := typElemental, op := pv.1.elementals.length,
                     p := pv.1.places.length, v := pv.1.values.length }
    let e : Elem := { n := px.length, g := g }
    let t2 := { pv.1 with places := pv.1.places ++ p :: px }
    let t3 := saveVals px t2
    let t4 := { t3 with elementals := t3.elementals ++ [e],
                        records := t3.records ++ [r] }
    let fv := env.impl f (px.map (readMem t4.heap))
    .ok ({ t4 with heap := writeMem t4.heap p fv }, p)

/-- `Called`: true iff the last record on the tape is a Call record. -/
def Called (t : Tape) : Bool := (t.records.getLastD emptyRec).typ == typCall

/-- The left-hand-side allocation loop of `variadic`. -/
def allocZeros (k : Nat) (t : Tape) : Tape × List Nat :=
  match k with
  | 0 => (t, [])
  | Nat.succ m =>
      let pv := Value 0 t
      let rest := allocZeros m pv.1
      (rest.1, pv.2 :: rest.2)

/-- `variadic` wraps variadic arguments into a slice of fresh value-store
cells assigned from the actual arguments. -/
def variadic (px : List Nat) (t : Tape) : Tape × List Nat :=
  let v0 := t.values.length
  let al := allocZeros px.length t
  let t1 := ParallelAssignment (al.2 ++ px) al.1
  (t1, al.1.values.drop v0)

/-- `Enter` copies the actual parameters (already on top of the place log)
to the formal parameters. -/
def Enter (px : List Nat) (t : Tape) : Tape :=
  let p0 := t.places.length - px.length
  ParallelAssignment (px ++ (t.places.drop p0).take px.length) t

/-- `Call` wraps a call to a differentiated subfunction: push the actual
parameter places, append a Call marker, run the wrapped closure, then
neutralize the marker to Dummy.  The closure is modelled as an arbitrary
tape transformer receiving the variadic slice. -/
def Call (f : List Nat → Tape → Tape) (narg : Nat) (px : List Nat) (t : Tape) :
    Tape × Nat :=
  let va := if narg < px.length then variadic (px.drop narg) t else (t, [])
  let t1 := { va.1 with places := va.1.places ++ px.take narg }
  let icall := t1.records.length
  let t2 := { t1 with records := t1.records ++
      [{ typ := typCall, op := 0, p := 0, v := 0 }] }
  let t3 := f va.2 t2
  let rUpd := { t3.records.getD icall emptyRec with typ := typDummy }
  let t4 := { t3 with records := t3.records.set icall rUpd }
  (t4, t4.places.getD (topFrame t4).p 0)

/-- Building the adjoint index: scan the places of the frame, mapping each
distinct cell (by pointer equality) to a fresh compact adjoint slot and
aliased cells to the shared slot. -/
def buildIndex : List Nat → Nat → List Nat → List ℚ → (Nat → Option Nat) →
    List Nat × List ℚ
  | [], _, adj, adv, _ => (adj, adv)
  | p :: rest, i, adj, adv, m =>
    match m p with
    | some j => buildIndex rest (i + 1) (adj.set i j) adv m
    | none =>
        buildIndex rest (i + 1) (adj.set i adv.length) (adv ++ [0])
          (fun q => if q = p then some adv.length else m q)

/-- An ascending loop `for i := 0; i != k; i++`, folding over the state. -/
def foldRange {σ : Type} (k : Nat) (f : Nat → σ → σ) (s : σ) : σ :=
  (List.range k).foldl (fun a i => f i a) s

/-- The backward interpretation of one record, acting on memory and the
adjoint buffer.  A live Call marker (or any unknown record type or opcode)
is a fatal invariant violation: the source panics, modelled as an error. -/
def walkStep (places values : List Nat) (elems : List Elem) (adj : List Nat)
    (r : Rec) (s : List ℚ × List ℚ) : Except Unit (List ℚ × List ℚ) :=
  let heap := s.1
  let adv := s.2
  if r.typ = typDummy then .ok s
  else if r.typ = typAssignment then
    if r.op = 1 then
      -- restore the previous value, then move the adjoint to the rhs
      let heap1 := writeMem heap (places.getD r.p 0)
        (readMem heap (values.getD r.v 0))
      let a := adv.getD (adj.getD r.p 0) 0
      let adv1 := adv.set (adj.getD r.p 0) 0
      let adv2 := adv1.set (adj.getD (r.p + 1) 0)
        (adv1.getD (adj.getD (r.p + 1) 0) 0 + a)
      .ok (heap1, adv2)
    else
      let k := r.op
      -- restore the previous values
      let heap1 := foldRange k (fun i h => writeMem h (places.getD (r.p + i) 0)
        (readMem h (values.getD (r.v + i) 0))) heap
      -- save the adjoints into the value store (re-used as scratch)
      let heap2 := foldRange k (fun i h => writeMem h (values.getD (r.v + i) 0)
        (adv.getD (adj.getD (r.p + i) 0) 0)) heap1
      -- clear the adjoints of the left-hand sides
      let adv1 := foldRange k (fun i a => a.set (adj.getD (r.p + i) 0) 0) adv
      -- accumulate into the right-hand sides
      let adv2 := foldRange k (fun i a => a.set (adj.getD (r.p + k + i) 0)
        (a.getD (adj.getD (r.p + k + i) 0) 0 +
          readMem heap2 (values.getD (r.v + i) 0))) adv1
      .ok (heap2, adv2)
  else if r.typ = typArithmetic then
    let a := adv.getD (adj.getD r.p 0) 0
    if r.op = OpNeg then
      .ok (heap, adv.set (adj.getD (r.p + 1) 0)
        (adv.getD (adj.getD (r.p + 1) 0) 0 - a))
    else if r.op = OpAdd then
      let adv1 := adv.set (adj.getD (r.p + 1) 0)
        (adv.getD (adj.getD (r.p + 1) 0) 0 + a)
      .ok (heap, adv1.set (adj.getD (r.p + 2) 0)
        (adv1.getD (adj.getD (r.p + 2) 0) 0 + a))
    else if r.op = OpSub then
      let adv1 := adv.set (adj.getD (r.p + 1) 0)
        (adv.getD (adj.getD (r.p + 1) 0) 0 + a)
      .ok (heap, adv1.set (adj.getD (r.p + 2) 0)
        (adv1.getD (adj.getD (r.p + 2) 0) 0 - a))
    else if r.op = OpMul then
      let ax := a * readMem heap (places.getD (r.p + 2) 0)
      let ay := a * readMem heap (places.getD (r.p + 1) 0)
      let adv1 := adv.set (adj.getD (r.p + 1) 0)
        (adv.getD (adj.getD (r.p + 1) 0) 0 + ax)
      .ok (heap, adv1.set (adj.getD (r.p + 2) 0)
        (adv1.getD (adj.getD (r.p + 2) 0) 0 + ay))
    else if r.op = OpDiv then
      let ax := a / readMem heap (places.getD (r.p + 2) 0)
      let ay := -ax * readMem heap (places.getD r.p 0)
      let adv1 := adv.set (adj.getD (r.p + 1) 0)
        (adv.getD (adj.getD (r.p + 1) 0) 0 + ax)
      .ok (heap, adv1.set (adj.getD (r.p + 2) 0)
        (adv1.getD (adj.getD (r.p + 2) 0) 0 + ay))
    else .error ()
  else if r.typ = typElemental then
    let a := adv.getD (adj.getD r.p 0) 0
    let e := elems.getD r.op { n := 0, g := fun _ _ => [] }
    let d := e.g (readMem heap (places.getD r.p 0))
      ((List.range e.n).map (fun i => readMem heap (values.getD (r.v + i) 0)))
    .ok (heap, foldRange e.n (fun i (adv1 : List ℚ) => adv1.set (adj.getD (r.p + 1 + i) 0)
      (adv1.getD (adj.getD (r.p + 1 + i) 0) 0 + a * d.getD i 0)) adv)
  else .error ()

/-- The reverse walk over a list of records given top-first. -/
def backwardWalk (places values : List Nat) (elems : List Elem)
    (adj : List Nat) : List Rec → List ℚ × List ℚ →
    Except Unit (List ℚ × List ℚ)
  | [], s => .ok s
  | r :: rest, s =>
    match walkStep places values elems adj r s with
    | .error e => .error e
    | .ok s1 => backwardWalk places values elems adj rest s1

/-- `backward` runs the backward pass on the tape: grow the adjoint index
to the place log, build the index for the current frame, seed `adv[adj[0]]`
with 1 (the source seeds index 0, not the frame result index), then walk
the records of the frame in reverse. -/
def backward (t : Tape) : Except Unit Tape :=
  let c := topFrame t
  let adj0 := t.adj ++ List.replicate (t.places.length - t.adj.length) 0
  let ba := buildIndex (t.places.drop c.p) c.p adj0 t.adv (fun _ => none)
  let adj := ba.1
  let adv1 := ba.2.set (adj.getD 0 0) 1
  match backwardWalk t.places t.values t.elementals adj
      ((t.records.drop c.r).reverse) (t.heap, adv1) with
  | .error _ => .error ()
  | .ok s => .ok { t with heap := s.1, adj := adj, adv := s.2 }

/-- `partials` collects the partial derivatives: places 1 to c.n after the
frame base are the parameters. -/
def partials (t : Tape) : List ℚ :=
  let c := topFrame t
  (List.range c.n).map (fun i => t.adv.getD (t.adj.getD (c.p + i + 1) 0) 0)

/-- `Pop` deallocates the current tape fragment: records, places, values and
elementals are truncated to the frame snapshot and the frame is dropped.
The adjoint index and the adjoint buffer are left untouched. -/
def Pop (t : Tape) : Tape :=
  let c := topFrame t
  { t with records := t.records.take c.r, places := t.places.take c.p,
           values := t.values.take c.v, elementals := t.elementals.take c.e,
           cstack := t.cstack.dropLast }

/-- `Gradient`: backward pass, collect the partial derivatives, pop. -/
def Gradient (t : Tape) : Except Unit (Tape × List ℚ) :=
  match backward t with
  | .error _ => .error ()
  | .ok t1 => .ok (Pop t1, partials t1)

/-! Scenario definitions used by the claims. -/

/-- The gradient-function table of the specification (section 6), written
from the spec formulas, to be compared with the registrations built from the
source. -/
def specGradTable (M : MathEnv) : FuncId → Option EGrad
  | .fSqrt => some (fun v _ => [0.5 / v])
  | .fExp  => some (fun v _ => [v])
  | .fLog  => some (fun _ a => [1 / a.getD 0 0])
  | .fPow  => some (fun v a => [v * M.log (a.getD 0 0)])
  | .fSin  => some (fun _ a => [M.cos (a.getD 0 0)])
  | .fCos  => some (fun _ a => [-(M.sin (a.getD 0 0))])
  | .fTan  => some (fun v _ => [1 + v ^ 2])
  | .fUser _ => none

/-- Allocate one caller-owned parameter cell holding x, set up the tape,
record one arithmetic operation with both operand cells equal to the
parameter cell, return its result, and run the backward pass. -/
def aliasRun (op : Nat) (x : ℚ) : Except Unit (Tape × List ℚ) :=
  let t1 := { initTape with heap := [x] }
  let t2 := Setup [0] t1
  match Arithmetic op [0, 0] t2 with
  | .error _ => .error ()
  | .ok pr => Gradient (Return pr.2 pr.1).1

/-- The gradient delivered by `aliasRun`. -/
def aliasGrad (op : Nat) (x : ℚ) : Except Unit (List ℚ) :=
  (aliasRun op x).map (fun r => r.2)

/-- Nested differentiation scenario: an outer frame is set up on parameter
a, and within it two inner evaluations are each set up, run (b*b and c*c)
and differentiated.  Returns the two inner gradients. -/
def nestedSeedScenario : Except Unit (List ℚ × List ℚ) :=
  let t1 := { initTape with heap := [(2 : ℚ), 5, 7] }
  let tO := Setup [0] t1
  let tI := Setup [1] tO
  match Arithmetic OpMul [1, 1] tI with
  | .error _ => .error ()
  | .ok pr =>
    match Gradient (Return pr.2 pr.1).1 with
    | .error _ => .error ()
    | .ok r1 =>
      let tI2 := Setup [2] r1.1
      match Arithmetic OpMul [2, 2] tI2 with
      | .error _ => .error ()
      | .ok pr2 =>
        match Gradient (Return pr2.2 pr2.1).1 with
        | .error _ => .error ()
        | .ok r2 => .ok (r1.2, r2.2)

/-- Sequential writes through a list of cell pointers. -/
def writeList (h : List ℚ) : List Nat → List ℚ → List ℚ
  | [], _ => h
  | _, [] => h
  | p :: ps, q :: qs => writeList (writeMem h p q) ps qs

/-! A deep embedding of straight-line recorded programs, used to quantify
over well-formed forward sequences: a command refers to cells through
references (parameter index or the result cell of an earlier
result-producing command), and the runner invokes the recorder primitives
above.  An abstract reference semantics over symbolic cells, with the
adjoint kept as a map keyed by cell rather than by compact slot, serves as
the specification the concrete tape machine is proved to agree with. -/

/-- A reference to a cell available to the recorded computation. -/
inductive Ref where
  | rpar (i : Nat)
  | rres (k : Nat)
deriving DecidableEq, Repr

/-- One recorded step of a forward evaluation. -/
inductive Cmd where
  | cvalue (q : ℚ)
  | carith (op : Nat) (args : List Ref)
  | cassign (tgt src : Ref)
  | cpassign (tgts srcs : List Ref)
  | celem (f : FuncId) (args : List Ref)

/-- The number of result cells a command produces. -/
def results : Cmd → Nat
  | .cvalue _ => 1
  | .carith _ _ => 1
  | .celem _ _ => 1
  | .cassign _ _ => 0
  | .cpassign _ _ => 0

/-- Resolve a reference to a concrete cell address. -/
def resolve (params ρ : List Nat) : Ref → Nat
  | .rpar i => params.getD i 0
  | .rres k => ρ.getD k 0

/-- Run one command against the tape through the recorder primitives. -/
def runCmd (env : FuncEnv) (params : List Nat) (c : Cmd) (t : Tape)
    (ρ : List Nat) : Except Tape (Tape × List Nat) :=
  match c with
  | .cvalue q =>
      let pv := Value q t
      .ok (pv.1, ρ ++ [pv.2])
  | .carith op args =>
      match Arithmetic op (args.map (resolve params ρ)) t with
      | .error e => .error e
      | .ok pr => .ok (pr.1, ρ ++ [pr.2])
  | .cassign tgt src =>
      .ok (Assignment (resolve params ρ tgt) (resolve params ρ src) t, ρ)
  | .cpassign tgts srcs =>
      .ok (ParallelAssignment ((tgts ++ srcs).map (resolve params ρ)) t, ρ)
  | .celem f args =>
      match Elemental env f (args.map (resolve params ρ)) t with
      | .error e => .error e
      | .ok pr => .ok (pr.1, ρ ++ [pr.2])

/-- Run a command list. -/
def runProg (env : FuncEnv) (params : List Nat) :
    List Cmd → Tape → List Nat → Except Tape (Tape × List Nat)
  | [], t, ρ => .ok (t, ρ)
  | c :: rest, t, ρ =>
      match runCmd env params c t ρ with
      | .error e => .error e
      | .ok pr => runProg env params rest pr.1 pr.2

/-- The caller-owned parameter cells: with the parameter vector allocated
first in an empty memory, parameter i lives at address i. -/
def paramAddrs (n : Nat) : List Nat := List.range n

/-- The tape ready for a top-level forward evaluation of parameters xs. -/
def setupTape (xs : List ℚ) : Tape :=
  Setup (paramAddrs xs.length) { initTape with heap := xs }

/-- A complete well-formed forward sequence: Setup, the commands, Return of
the cell named by r, then the backward pass. -/
def evalProg (env : FuncEnv) (xs : List ℚ) (P : List Cmd) (r : Ref) :
    Except Unit (Tape × List ℚ) :=
  match runProg env (paramAddrs xs.length) P (setupTape xs) [] with
  | .error _ => .error ()
  | .ok pr =>
      Gradient (Return (resolve (paramAddrs xs.length) pr.2 r) pr.1).1

/-- The gradient of a complete forward sequence. -/
def evalGrad (env : FuncEnv) (xs : List ℚ) (P : List Cmd) (r : Ref) :
    Except Unit (List ℚ) :=
  (evalProg env xs P r).map (fun pr => pr.2)

/-- Well-formedness of a reference against n parameters and K results. -/
def refWF (n K : Nat) : Ref → Prop
  | .rpar i => i < n
  | .rres k => k < K

/-- Well-formedness of one command. -/
def cmdWF (env : FuncEnv) (n K : Nat) : Cmd → Prop
  | .cvalue _ => True
  | .carith op args =>
      ((op = OpNeg ∧ args.length = 1) ∨
        ((op = OpAdd ∨ op = OpSub ∨ op = OpMul ∨ op = OpDiv) ∧
          args.length = 2)) ∧
      ∀ a ∈ args, refWF n K a
  | .cassign tgt src => refWF n K tgt ∧ refWF n K src
  | .cpassign tgts srcs =>
      tgts.length = srcs.length ∧ ∀ a ∈ tgts ++ srcs, refWF n K a
  | .celem f args => (env.grad f).isSome ∧ ∀ a ∈ args, refWF n K a

/-- Well-formedness of a command list starting from K results. -/
def progWF (env : FuncEnv) (n : Nat) : Nat → List Cmd → Prop
  | _, [] => True
  | K, c :: rest => cmdWF env n K c ∧ progWF env n (K + results c) rest

/-- The number of results a command list produces. -/
def numResults : List Cmd → Nat
  | [] => 0
  | c :: rest => results c + numResults rest

/-- A symbolic cell of the reference semantics: a parameter cell or the
result cell of the k-th result-producing command. -/
inductive Cell where
  | pcell (i : Nat)
  | rcell (k : Nat)
deriving DecidableEq, Repr

/-- The symbolic cell a reference denotes. -/
def toCell : Ref → Cell
  | .rpar i => .pcell i
  | .rres k => .rcell k

/-- The concrete address of a symbolic cell. -/
def addrOf (ρ : List Nat) : Cell → Nat
  | .pcell i => i
  | .rcell k => ρ.getD k 0

/-- Validity of a symbolic cell. -/
def validCell (n K : Nat) : Cell → Prop
  | .pcell i => i < n
  | .rcell k => k < K

/-- A cell-keyed store of the reference semantics. -/
abbrev CellMap := Cell → ℚ

/-- Pointwise update of a cell-keyed store. -/
def cupd (h : CellMap) (c : Cell) (q : ℚ) : CellMap :=
  fun d => if d = c then q else h d

/-- Sequential cell-keyed writes, later writes winning. -/
def cupdSeq (h : CellMap) : List Cell → List ℚ → CellMap
  | [], _ => h
  | _, [] => h
  | c :: cs, q :: qs => cupdSeq (cupd h c q) cs qs

/-- Sequentially clear the adjoints of a list of cells. -/
def zeroSeq (ad : CellMap) : List Cell → CellMap
  | [] => ad
  | c :: cs => zeroSeq (cupd ad c 0) cs

/-- Sequentially accumulate values into the adjoints of a list of cells. -/
def addSeq (ad : CellMap) : List Cell → List ℚ → CellMap
  | [], _ => ad
  | _, [] => ad
  | c :: cs, q :: qs => addSeq (cupd ad c (ad c + q)) cs qs

/-- Sequentially accumulate a scaled gradient into the adjoints of the
argument cells of an elemental. -/
def addScaled (a : ℚ) (ad : CellMap) : List Cell → List ℚ → CellMap
  | [], _ => ad
  | c :: cs, ds => addScaled a (cupd ad c (ad c + a * ds.headD 0)) cs ds.tail

/-- The reference trace of one record: an assignment with its saved target
pre-values, an arithmetic operation, or an elemental call with its saved
argument values. -/
inductive AAct where
  | aassign (tgts srcs : List Cell) (saved : List ℚ)
  | aarith (op : Nat) (resc : Cell) (args : List Cell)
  | aelem (g : EGrad) (resc : Cell) (args : List Cell) (saved : List ℚ)

/-- Forward evaluation of an arithmetic opcode (well-formed opcodes only;
the runner rejects others before this is consulted). -/
def opFwd (op : Nat) (x0 x1 : ℚ) : ℚ :=
  if op = OpNeg then -x0
  else if op = OpAdd then x0 + x1
  else if op = OpSub then x0 - x1
  else if op = OpMul then x0 * x1
  else x0 / x1

/-- One forward step of the reference semantics. -/
def astep (env : FuncEnv) (c : Cmd) :
    CellMap × Nat × List AAct → CellMap × Nat × List AAct
  | (h, K, A) =>
    match c with
    | .cvalue q => (cupd h (.rcell K) q, K + 1, A)
    | .carith op args =>
        let acs := args.map toCell
        let v := opFwd op (h (acs.getD 0 (.rcell 0))) (h (acs.getD 1 (.rcell 0)))
        (cupd h (.rcell K) v, K + 1, A ++ [.aarith op (.rcell K) acs])
    | .cassign tgt src =>
        let tc := toCell tgt
        let sc := toCell src
        (cupd h tc (h sc), K, A ++ [.aassign [tc] [sc] [h tc]])
    | .cpassign tgts srcs =>
        let tcs := tgts.map toCell
        let scs := srcs.map toCell
        (cupdSeq h tcs (scs.map h), K, A ++ [.aassign tcs scs (tcs.map h)])
    | .celem f args =>
        let acs := args.map toCell
        let g := (env.grad f).getD (fun _ _ => [])
        let vals := acs.map h
        (cupd h (.rcell K) (env.impl f vals), K + 1,
          A ++ [.aelem g (.rcell K) acs vals])

/-- Forward run of the reference semantics. -/
def arun (env : FuncEnv) : List Cmd → CellMap × Nat × List AAct →
    CellMap × Nat × List AAct
  | [], s => s
  | c :: rest, s => arun env rest (astep env c s)

/-- The backward interpretation of one reference action. -/
def aback1 (x : AAct) : CellMap × CellMap → CellMap × CellMap
  | (h, ad) =>
    match x with
    | .aassign tgts srcs saved =>
        let h1 := cupdSeq h tgts saved
        let saves := tgts.map ad
        let ad1 := zeroSeq ad tgts
        (h1, addSeq ad1 srcs saves)
    | .aarith op resc args =>
        let a := ad resc
        let a0 := args.getD 0 (.rcell 0)
        let a1 := args.getD 1 (.rcell 0)
        if op = OpNeg then (h, cupd ad a0 (ad a0 - a))
        else if op = OpAdd then
          let ad1 := cupd ad a0 (ad a0 + a)
          (h, cupd ad1 a1 (ad1 a1 + a))
        else if op = OpSub then
          let ad1 := cupd ad a0 (ad a0 + a)
          (h, cupd ad1 a1 (ad1 a1 - a))
        else if op = OpMul then
          let ax := a * h a1
          let ay := a * h a0
          let ad1 := cupd ad a0 (ad a0 + ax)
          (h, cupd ad1 a1 (ad1 a1 + ay))
        else
          let ax := a / h a1
          let ay := -ax * h resc
          let ad1 := cupd ad a0 (ad a0 + ax)
          (h, cupd ad1 a1 (ad1 a1 + ay))
    | .aelem g resc args saved =>
        let a := ad resc
        let d := g (h resc) saved
        (h, addScaled a ad args d)

/-- The backward walk of the reference semantics over a top-first list of
actions. -/
def aback : List AAct → CellMap × CellMap → CellMap × CellMap
  | [], s => s
  | x :: rest, s => aback rest (aback1 x s)

/-- The initial cell store of the reference semantics. -/
def initCells (xs : List ℚ) : CellMap :=
  fun c => match c with
  | .pcell i => xs.getD i 0
  | .rcell _ => 0

/-- The forward run of the reference semantics from the initial store. -/
def absRun (env : FuncEnv) (xs : List ℚ) (P : List Cmd) :
    CellMap × Nat × List AAct :=
  arun env P (initCells xs, 0, [])

/-- The final state of the reference backward pass: the result-cell adjoint
is seeded with 1 and the actions are walked in reverse. -/
def absBack (env : FuncEnv) (xs : List ℚ) (P : List Cmd) (r : Ref) :
    CellMap × CellMap :=
  let s := absRun env xs P
  aback s.2.2.reverse (s.1, fun c => if c = toCell r then 1 else 0)

/-- The gradient delivered by the reference semantics. -/
def absGrad (env : FuncEnv) (xs : List ℚ) (P : List Cmd) (r : Ref) : List ℚ :=
  (List.range xs.length).map (fun i => (absBack env xs P r).2 (.pcell i))

/-- First-occurrence list: the distinct members of l in order of first
occurrence (the key set of the adjoint map of the backward pass, in slot
order). -/
def firstOcc (acc : List Nat) : List Nat → List Nat
  | [] => acc
  | a :: rest => if a ∈ acc then firstOcc acc rest else firstOcc (acc ++ [a]) rest

/-- Structural description of the frame records against the reference
actions: for records R against actions A, starting at place index p0, value
index at least v0 and elemental index e0, every record has the fields, the
place window, the save-slice bounds and the cell validity the corresponding
action prescribes.  PL, VL, EL are the place log, the value-slot address
log and the elemental log of the finished forward pass; H bounds the cell
addresses; n, K, ρ give the address map of the symbolic cells. -/
def TraceStruct (n K : Nat) (ρ : List Nat) (PL VL : List Nat)
    (EL : List Elem) (H VB : Nat) :
    List Rec → List AAct → Nat → Nat → Nat → Prop
  | [], [], _, _, _ => True
  | r :: R, x :: A, p0, v0, e0 =>
    (match x with
     | .aarith op resc args =>
        r = { typ := typArithmetic, op := op, p := p0, v := 0 } ∧
        ((op = OpNeg ∧ args.length = 1) ∨
          ((op = OpAdd ∨ op = OpSub ∨ op = OpMul ∨ op = OpDiv) ∧
            args.length = 2)) ∧
        validCell n K resc ∧ (∀ c ∈ args, validCell n K c) ∧
        p0 + 1 + args.length ≤ PL.length ∧
        PL.getD p0 0 = addrOf ρ resc ∧
        (∀ j, j < args.length →
          PL.getD (p0 + 1 + j) 0 = addrOf ρ (args.getD j (.rcell 0))) ∧
        TraceStruct n K ρ PL VL EL H VB R A (p0 + 1 + args.length) v0 e0
     | .aassign tcs scs saved =>
        ∃ rv vw,
          r = { typ := typAssignment, op := tcs.length, p := p0, v := rv } ∧
          v0 ≤ rv ∧ tcs.length ≤ vw ∧ rv + vw ≤ VB ∧
          scs.length = tcs.length ∧ saved.length = tcs.length ∧
          (∀ c ∈ tcs, validCell n K c) ∧ (∀ c ∈ scs, validCell n K c) ∧
          p0 + 2 * tcs.length ≤ PL.length ∧
          (∀ j, j < tcs.length →
            PL.getD (p0 + j) 0 = addrOf ρ (tcs.getD j (.rcell 0))) ∧
          (∀ j, j < tcs.length →
            PL.getD (p0 + tcs.length + j) 0
              = addrOf ρ (scs.getD j (.rcell 0))) ∧
          (∀ j, j < tcs.length → VL.getD (rv + j) 0 < H ∧
            ∀ c, validCell n K c → VL.getD (rv + j) 0 ≠ addrOf ρ c) ∧
          TraceStruct n K ρ PL VL EL H VB R A (p0 + 2 * tcs.length) (rv + vw) e0
     | .aelem g resc args saved =>
        ∃ rv,
          r = { typ := typElemental, op := e0, p := p0, v := rv } ∧
          v0 + 1 ≤ rv ∧ rv + args.length ≤ VB ∧
          saved.length = args.length ∧
          validCell n K resc ∧ (∀ c ∈ args, validCell n K c) ∧
          e0 < EL.length ∧ (EL.getD e0 { n := 0, g := fun _ _ => [] }).n = args.length ∧
          (EL.getD e0 { n := 0, g := fun _ _ => [] }).g = g ∧
          p0 + 1 + args.length ≤ PL.length ∧
          PL.getD p0 0 = addrOf ρ resc ∧
          (∀ j, j < args.length →
            PL.getD (p0 + 1 + j) 0 = addrOf ρ (args.getD j (.rcell 0))) ∧
          (∀ j, j < args.length → VL.getD (rv + j) 0 < H ∧
            ∀ c, validCell n K c → VL.getD (rv + j) 0 ≠ addrOf ρ c) ∧
          TraceStruct n K ρ PL VL EL H VB R A (p0 + 1 + args.length)
            (rv + args.length) (e0 + 1))
  | _, _, _, _, _ => False

/-- The saved values the backward walk will read, in the current memory:
per assignment record the pre-assignment target values, per elemental
record the saved argument values. -/
def TraceSaved (heap : List ℚ) (VL : List Nat) :
    List Rec → List AAct → Prop
  | [], [] => True
  | r :: R, x :: A =>
    (match x with
     | .aarith _ _ _ => True
     | .aassign tcs _ saved =>
        ∀ j, j < tcs.length →
          readMem heap (VL.getD (r.v + j) 0) = saved.getD j 0
     | .aelem _ _ args saved =>
        ∀ j, j < args.length →
          readMem heap (VL.getD (r.v + j) 0) = saved.getD j 0) ∧
    TraceSaved heap VL R A
  | _, _ => False

/-- Total place-log width of a list of actions. -/
def pwA : List AAct → Nat
  | [] => 0
  | .aarith _ _ args :: A => 1 + args.length + pwA A
  | .aassign tcs _ _ :: A => 2 * tcs.length + pwA A
  | .aelem _ _ args _ :: A => 1 + args.length + pwA A

/-- Total elemental-log width of a list of actions. -/
def ewA : List AAct → Nat
  | [] => 0
  | .aelem _ _ _ _ :: A => 1 + ewA A
  | _ :: A => ewA A

/-- The forward-run invariant: the concrete tape and result addresses of a
partial run agree with the reference state (cell store ah, result count K,
action trace A).  Parameter cells live at addresses 0..n-1, the Setup
result cell at n, and every later allocation above n. -/
structure FInv (env : FuncEnv) (n : Nat) (xs : List ℚ) (t : Tape)
    (ρ : List Nat) (ah : CellMap) (K : Nat) (A : List AAct) : Prop where
  hρlen : ρ.length = K
  hcstack : t.cstack = [{ n := n, r := 1, p := 0, v := 0, e := 0 }]
  hadj : t.adj = []
  hadv : t.adv = []
  hheapn : n + 1 ≤ t.heap.length
  hρband : ∀ k, k < K → n + 1 ≤ ρ.getD k 0 ∧ ρ.getD k 0 < t.heap.length
  hρmono : List.Pairwise (· < ·) ρ
  hVLmono : List.Pairwise (· < ·) t.values
  hVLlt : ∀ v ∈ t.values, v < t.heap.length
  hVLne : 1 ≤ t.values.length
  hheap : ∀ c, validCell n K c → readMem t.heap (addrOf ρ c) = ah c
  hplaces : ∃ W, t.places = (n :: paramAddrs n) ++ W
  hplen : t.places.length = (n + 1) + pwA A
  helen : t.elementals.length = ewA A
  hrecords : ∃ R, t.records = emptyRec :: R ∧
    TraceStruct n K ρ t.places t.values t.elementals t.heap.length
      t.values.length R A (n + 1) 1 0 ∧
    TraceSaved t.heap t.values R A

/-! Theorems. -/

/-- C4: for every value v and argument vector a, the built-in elemental
gradient registrations compute exactly the formulas of the specification
table: sqrt gives [0.5 / v], exp gives [v], log gives [1 / a[0]], pow gives
[v * log(a[0])] (derivative with respect to the exponent only, a one-entry
list with no base derivative), sin gives [cos(a[0])], cos gives
[-sin(a[0])], and tan gives [1 + v^2]. -/
theorem builtin_gradients_match_spec (M : MathEnv) (f : FuncId) (v : ℚ)
    (a : List ℚ) :
    (builtinElementals M f).map (fun g => g v a)
      = (specGradTable M f).map (fun g => g v a) := by
  cases f <;> simp [builtinElementals, specGradTable, pow_two]

/-- C8: calling Elemental on a function with no registered gradient is
fatal: the evaluation aborts with no Elemental record appended, and the
tape is left inconsistent, the result cell having already been allocated
before the registry check. -/
theorem elemental_unregistered_fatal (env : FuncEnv) (f : FuncId)
    (px : List Nat) (t : Tape) (h : env.grad f = none) :
    Elemental env f px t = .error (Value 0 t).1 ∧
    (Value 0 t).1.values.length = t.values.length + 1 ∧
    (Value 0 t).1.heap.length = t.heap.length + 1 ∧
    (Value 0 t).1.records = t.records ∧
    (Value 0 t).1.elementals = t.elementals := by
  refine ⟨?_, ?_, ?_, rfl, rfl⟩
  · simp [Elemental, ElementalGradient, h]
  · simp [Value]
  · simp [Value]

/-- Witness for C8 at a concrete unregistered function and the fresh tape. -/
theorem elemental_unregistered_fatal_witness :
    Elemental { impl := fun _ _ => 0, grad := fun _ => none } (.fUser 0) []
        initTape = .error (Value 0 initTape).1 ∧
    (Value 0 initTape).1.values.length = initTape.values.length + 1 := by
  have h := elemental_unregistered_fatal
    { impl := fun _ _ => 0, grad := fun _ => none } (.fUser 0) [] initTape rfl
  exact ⟨h.1, h.2.1⟩

/-- C1: for every parameter value x, recording a single arithmetic
operation whose two operand cells are the same parameter cell and then
calling Gradient returns the aliased derivative: Mul yields 2x, Add yields
2, Div yields 0 for x that is not 0, and Sub yields 0. -/
theorem alias_correctness (x : ℚ) :
    aliasGrad OpMul x = .ok [2 * x] ∧
    aliasGrad OpAdd x = .ok [2] ∧
    (x ≠ 0 → aliasGrad OpDiv x = .ok [0]) ∧
    aliasGrad OpSub x = .ok [0] := by
  refine ⟨?_, ?_, fun hx => ?_, ?_⟩
  · simp [aliasGrad, aliasRun, initTape, Setup, push, register, Value,
      Arithmetic, Return, readMem, writeMem, Gradient, backward, topFrame,
      buildIndex, backwardWalk, walkStep, partials, Pop, foldRange, emptyRec,
      emptyCounters, typDummy, typAssignment, typArithmetic, typElemental,
      typCall, OpNeg, OpAdd, OpSub, OpMul, OpDiv, List.getLastD,
      List.range_succ, Except.map, mul_comm]
    ring_nf
  · simp [aliasGrad, aliasRun, initTape, Setup, push, register, Value,
      Arithmetic, Return, readMem, writeMem, Gradient, backward, topFrame,
      buildIndex, backwardWalk, walkStep, partials, Pop, foldRange, emptyRec,
      emptyCounters, typDummy, typAssignment, typArithmetic, typElemental,
      typCall, OpNeg, OpAdd, OpSub, OpMul, OpDiv, List.getLastD,
      List.range_succ, Except.map]
    norm_num
  · simp [aliasGrad, aliasRun, initTape, Setup, push, register, Value,
      Arithmetic, Return, readMem, writeMem, Gradient, backward, topFrame,
      buildIndex, backwardWalk, walkStep, partials, Pop, foldRange, emptyRec,
      emptyCounters, typDummy, typAssignment, typArithmetic, typElemental,
      typCall, OpNeg, OpAdd, OpSub, OpMul, OpDiv, List.getLastD,
      List.range_succ, Except.map]
    field_simp
  · simp [aliasGrad, aliasRun, initTape, Setup, push, register, Value,
      Arithmetic, Return, readMem, writeMem, Gradient, backward, topFrame,
      buildIndex, backwardWalk, walkStep, partials, Pop, foldRange, emptyRec,
      emptyCounters, typDummy, typAssignment, typArithmetic, typElemental,
      typCall, OpNeg, OpAdd, OpSub, OpMul, OpDiv, List.getLastD,
      List.range_succ, Except.map]

/-- Witness for C1 at x = 3. -/
theorem alias_correctness_witness :
    aliasGrad OpMul 3 = .ok [2 * 3] ∧
    aliasGrad OpAdd 3 = .ok [2] ∧
    aliasGrad OpDiv 3 = .ok [0] ∧
    aliasGrad OpSub 3 = .ok [0] := by
  obtain ⟨h1, h2, h3, h4⟩ := alias_correctness 3
  exact ⟨h1, h2, h3 (by norm_num), h4⟩

/-- C2 (code bug): the backward pass seeds `adv[adj[0]]`, not the adjoint
of the place at index frame.p of the topmost frame.  In a nested frame with
frame.p > 0 whose backward pass runs while the adjoint buffer is nonempty,
the seed lands in a stale slot and the returned gradient collapses to 0.
Here the first inner evaluation (gradient of b*b at b = 5) is differentiated
correctly because the buffer happens to be empty, while the second
(gradient of c*c at c = 7, true gradient 14) returns 0. -/
theorem nested_seed_goes_to_slot_zero : nestedSeedScenario = .ok ([10], [0]) := by
  simp [nestedSeedScenario, initTape, Setup, push, register, Value,
    Arithmetic, Return, readMem, writeMem, Gradient, backward, topFrame,
    buildIndex, backwardWalk, walkStep, partials, Pop, foldRange, emptyRec,
    emptyCounters, typDummy, typAssignment, typArithmetic, typElemental,
    typCall, OpNeg, OpAdd, OpSub, OpMul, OpDiv, List.getLastD,
    List.range_succ, Except.map]
  norm_num

/-- C3 (counterexample): after `Setup`, a forward evaluation and
`Gradient`, the four arrays records/places/values/elementals and the frame
stack are back at their pre-Setup lengths, but the adjoint index has grown
from 0 to 5 entries and the adjoint buffer from 0 to 2 entries: `Pop` does
not truncate them. -/
theorem pop_keeps_adjoints_counterexample :
    (aliasRun OpMul 3).map (fun r => (r.1.records.length, r.1.places.length,
        r.1.values.length, r.1.elementals.length, r.1.cstack.length,
        r.1.adj.length, r.1.adv.length))
      = .ok (1, 0, 0, 0, 0, 5, 2) ∧
    initTape.records.length = 1 ∧ initTape.adj.length = 0 ∧
    initTape.adv.length = 0 := by
  refine ⟨?_, rfl, rfl, rfl⟩
  simp [aliasRun, initTape, Setup, push, register, Value,
    Arithmetic, Return, readMem, writeMem, Gradient, backward, topFrame,
    buildIndex, backwardWalk, walkStep, partials, Pop, foldRange, emptyRec,
    emptyCounters, typDummy, typAssignment, typArithmetic, typElemental,
    typCall, OpNeg, OpAdd, OpSub, OpMul, OpDiv, List.getLastD,
    List.range_succ, Except.map]

theorem saveCells_records (ps : List Nat) (t : Tape) :
    (saveCells ps t).records = t.records := by
  induction ps generalizing t with
  | nil => rfl
  | cons p rest ih => simp [saveCells, ih]

theorem prunLoop_records (ps : List Nat) (i k : Nat) (t : Tape) :
    (prunLoop ps i k t).records = t.records := by
  induction ps generalizing i t with
  | nil => rfl
  | cons p rest ih => simp [prunLoop, ih]

theorem ParallelAssignment_records (ppx : List Nat) (t : Tape) :
    (ParallelAssignment ppx t).records
      = t.records ++ [{ typ := typAssignment, op := ppx.length / 2,
                        p := t.places.length, v := t.values.length }] := by
  simp [ParallelAssignment, prunLoop_records, saveCells_records]

theorem allocZeros_records (k : Nat) (t : Tape) :
    (allocZeros k t).1.records = t.records := by
  induction k generalizing t with
  | zero => rfl
  | succ m ih => simp [allocZeros, ih, Value]

theorem variadic_records_len (px : List Nat) (t : Tape) :
    (variadic px t).1.records.length = t.records.length + 1 := by
  simp [variadic, ParallelAssignment_records, allocZeros_records]

/-- C9: every record appended with the Call kind by Call is converted to
Dummy before Call returns (for any wrapped closure that never shrinks the
record log below the marker), and the backward engine treats a live Call
marker as a fatal invariant violation. -/
theorem call_marker_neutralized (f : List Nat → Tape → Tape) (narg : Nat)
    (px : List Nat) (t : Tape)
    (hf : ∀ u s, s.records.length ≤ (f u s).records.length)
    (places values : List Nat) (elems : List Elem) (adj : List Nat)
    (r : Rec) (s : List ℚ × List ℚ) (hr : r.typ = typCall) :
    ((Call f narg px t).1.records.getD
        (t.records.length + if narg < px.length then 1 else 0) emptyRec).typ
      = typDummy ∧
    walkStep places values elems adj r s = .error () := by
  constructor
  · have hlen1 : (if narg < px.length then variadic (px.drop narg) t
        else (t, [])).1.records.length
        = t.records.length + if narg < px.length then 1 else 0 := by
      by_cases hn : narg < px.length
      · simp [hn, variadic_records_len]
      · simp [hn]
    unfold Call
    set va := if narg < px.length then variadic (px.drop narg) t else (t, []) with hva
    set t1 : Tape := { va.1 with places := va.1.places ++ px.take narg } with ht1
    set t2 : Tape := { t1 with records := t1.records ++
        [{ typ := typCall, op := 0, p := 0, v := 0 }] } with ht2
    set t3 := f va.2 t2 with ht3
    have hic : t1.records.length = t.records.length
        + if narg < px.length then 1 else 0 := by
      simp [ht1, hlen1]
    have hlt : t1.records.length < t3.records.length := by
      have h2 : t2.records.length = t1.records.length + 1 := by simp [ht2]
      have h3 := hf va.2 t2
      rw [← ht3] at h3
      omega
    have hget : (t3.records.set t1.records.length
        { t3.records.getD t1.records.length emptyRec with typ := typDummy }).getD
        t1.records.length emptyRec
        = { t3.records.getD t1.records.length emptyRec with typ := typDummy } := by
      rw [List.getD_eq_getElem?_getD, List.getElem?_set_eq_of_lt _ hlt]
      rfl
    rw [← hic]
    rw [hget]
  · simp [walkStep, hr, typCall, typDummy, typAssignment, typArithmetic,
      typElemental]

theorem readMem_append_lt (h h2 : List ℚ) (p : Nat) (hp : p < h.length) :
    readMem (h ++ h2) p = readMem h p := by
  simp [readMem, List.getD_eq_getElem?_getD, List.getElem?_append, hp]

theorem readMem_writeMem_ne (h : List ℚ) (p a : Nat) (q : ℚ) (hne : a ≠ p) :
    readMem (writeMem h p q) a = readMem h a := by
  simp [readMem, writeMem, List.getD_eq_getElem?_getD,
    List.getElem?_set_ne (Ne.symm hne)]

theorem saveCells_spec (ps : List Nat) (t : Tape)
    (h : ∀ p ∈ ps, p < t.heap.length) :
    saveCells ps t =
      { t with places := t.places ++ ps,
               values := t.values ++ List.range' t.heap.length ps.length,
               heap := t.heap ++ ps.map (readMem t.heap) } := by
  induction ps generalizing t with
  | nil => simp [saveCells]
  | cons p rest ih =>
    rw [saveCells]
    rw [ih _ (by
      intro q hq
      simp only [List.length_append, List.length_cons]
      have := h q (List.mem_cons_of_mem _ hq)
      omega)]
    have hmap : List.map (readMem (t.heap ++ [readMem t.heap p])) rest
        = List.map (readMem t.heap) rest :=
      List.map_congr_left (fun q hq =>
        readMem_append_lt _ _ _ (h q (List.mem_cons_of_mem _ hq)))
    simp [hmap, List.range'_succ, List.append_assoc]



theorem writeList_preserve (h : List ℚ) (ps : List Nat) (qs : List ℚ) (a : Nat)
    (ha : a ∉ ps) : readMem (writeList h ps qs) a = readMem h a := by
  induction ps generalizing h qs with
  | nil => simp [writeList]
  | cons p rest ih =>
    cases qs with
    | nil => simp [writeList]
    | cons q qrest =>
      rw [writeList]
      rw [ih _ _ (fun hm => ha (List.mem_cons_of_mem _ hm))]
      exact readMem_writeMem_ne _ _ _ _ (fun he => ha (he ▸ List.mem_cons_self _ _))

theorem readMem_writeMem_self (h : List ℚ) (p : Nat) (q : ℚ)
    (hp : p < h.length) : readMem (writeMem h p q) p = q := by
  simp [readMem, writeMem, List.getD_eq_getElem?_getD,
    List.getElem?_set_eq_of_lt _ (by simpa using hp)]

theorem writeMem_length (h : List ℚ) (p : Nat) (q : ℚ) :
    (writeMem h p q).length = h.length := by
  simp [writeMem]

theorem writeList_length (h : List ℚ) (ps : List Nat) (qs : List ℚ) :
    (writeList h ps qs).length = h.length := by
  induction ps generalizing h qs with
  | nil => simp [writeList]
  | cons p rest ih =>
    cases qs with
    | nil => simp [writeList]
    | cons q qrest => rw [writeList, ih, writeMem_length]

theorem writeList_getD_nodup (h : List ℚ) (ps : List Nat) (qs : List ℚ)
    (hnd : ps.Nodup) (hlen : qs.length = ps.length)
    (hval : ∀ p ∈ ps, p < h.length) :
    ∀ i, i < ps.length →
      readMem (writeList h ps qs) (ps.getD i 0) = qs.getD i 0 := by
  induction ps generalizing h qs with
  | nil => intro i hi; simp at hi
  | cons p rest ih =>
    cases qs with
    | nil => simp at hlen
    | cons q qrest =>
      intro i hi
      rw [writeList]
      match i with
      | 0 =>
        simp only [List.getD_cons_zero]
        rw [writeList_preserve _ _ _ _ (by
          intro hm; exact (List.nodup_cons.mp hnd).1 hm)]
        exact readMem_writeMem_self _ _ _ (hval p (List.mem_cons_self _ _))
      | Nat.succ m =>
        simp only [List.getD_cons_succ]
        refine ih _ _ (List.nodup_cons.mp hnd).2 (by simpa using hlen)
          (fun a ha => ?_) m (by simpa using hi)
        rw [writeMem_length]
        exact hval a (List.mem_cons_of_mem _ ha)



theorem prunLoop_spec (tgts : List Nat) (qs : List ℚ) (j k : Nat) (t : Tape)
    (B : Nat) (hlen : qs.length = tgts.length)
    (htgt : ∀ p ∈ tgts, p < B)
    (haddr : ∀ m, m < tgts.length →
      B ≤ t.values.getD (t.values.length - k + j + m) 0 ∧
      readMem t.heap (t.values.getD (t.values.length - k + j + m) 0)
        = qs.getD m 0) :
    prunLoop tgts j k t = { t with heap := writeList t.heap tgts qs } := by
  induction tgts generalizing qs j t with
  | nil =>
    cases qs with
    | nil => simp [prunLoop, writeList]
    | cons q qrest => simp at hlen
  | cons p rest ih =>
    cases qs with
    | nil => simp at hlen
    | cons q qrest =>
      rw [prunLoop]
      have h0 := haddr 0 (by simp)
      have hq : readMem t.heap (t.values.getD (t.values.length - k + j) 0) = q := by
        simpa using h0.2
      rw [hq]
      rw [ih qrest (j + 1) _ (by simpa using hlen)
        (fun a ha => htgt a (List.mem_cons_of_mem _ ha))
        (fun m hm => ?_)]
      · rw [writeList]
      · -- shifted address facts on the updated tape
        have hm1 := haddr (m + 1) (by simp; omega)
        constructor
        · have := hm1.1
          simp only [writeMem_length]
          have hidx : t.values.length - k + (j + 1) + m
              = t.values.length - k + j + (m + 1) := by omega
          simpa [hidx] using this
        · have hidx : t.values.length - k + (j + 1) + m
              = t.values.length - k + j + (m + 1) := by omega
          have ha := hm1.1
          have hne : t.values.getD (t.values.length - k + j + (m + 1)) 0 ≠ p := by
            have hp := htgt p (List.mem_cons_self _ _)
            omega
          simp only [hidx]
          rw [readMem_writeMem_ne _ _ _ _ hne]
          simpa using hm1.2



theorem getD_eq_getElem' {a : Type} (l : List a) (d : a) (i : Nat)
    (h : i < l.length) : l.getD i d = l[i] := List.getD_eq_getElem l d h

theorem getD_append2_mid {a : Type} (l1 l2 l3 : List a) (d : a) (i : Nat)
    (h : i < l2.length) :
    (l1 ++ l2 ++ l3).getD (l1.length + i) d = l2.getD i d := by
  rw [List.append_assoc, List.getD_append_right _ _ _ _ (by omega)]
  simp only [Nat.add_sub_cancel_left]
  rw [List.getD_append _ _ _ _ h]

theorem getD_append2_right {a : Type} (l1 l2 l3 : List a) (d : a) (i : Nat)
    (h : i < l3.length) :
    (l1 ++ l2 ++ l3).getD (l1.length + l2.length + i) d = l3.getD i d := by
  rw [List.append_assoc, List.getD_append_right _ _ _ _ (by omega)]
  have hx : l1.length + l2.length + i - l1.length = l2.length + i := by omega
  rw [hx, List.getD_append_right _ _ _ _ (by omega)]
  simp only [Nat.add_sub_cancel_left]

theorem getD_range' (s n i : Nat) (h : i < n) :
    (List.range' s n).getD i 0 = s + i := by
  rw [getD_eq_getElem' _ _ _ (by simpa using h)]
  exact List.getElem_range'_1 i (by simpa using h)

theorem getD_map_lt {a b : Type} (f : a → b) (l : List a) (i : Nat)
    (h : i < l.length) (d : b) (d0 : a) :
    (l.map f).getD i d = f (l.getD i d0) := by
  rw [getD_eq_getElem' _ _ _ (by simpa using h), getD_eq_getElem' _ _ _ h]
  simp

/-- Shape and effect of ParallelAssignment on k targets then k sources
(with the value conclusion for a duplicate-free target list). -/
theorem parallel_assignment_spec_aux (tgts srcs : List Nat) (t : Tape)
    (hlen : srcs.length = tgts.length)
    (hval : ∀ p ∈ tgts ++ srcs, p < t.heap.length)
    (hnodup : tgts.Nodup) :
    (ParallelAssignment (tgts ++ srcs) t).records
      = t.records ++ [{ typ := typAssignment, op := tgts.length,
                        p := t.places.length, v := t.values.length }] ∧
    (ParallelAssignment (tgts ++ srcs) t).places
      = t.places ++ tgts ++ srcs ∧
    (ParallelAssignment (tgts ++ srcs) t).values.length
      = t.values.length + 2 * tgts.length ∧
    (∀ i, i < tgts.length →
      readMem (ParallelAssignment (tgts ++ srcs) t).heap
          ((ParallelAssignment (tgts ++ srcs) t).values.getD
            (t.values.length + i) 0)
        = readMem t.heap (tgts.getD i 0)) ∧
    (∀ i, i < tgts.length →
      readMem (ParallelAssignment (tgts ++ srcs) t).heap (tgts.getD i 0)
        = readMem t.heap (srcs.getD i 0)) := by
  have hk : (tgts ++ srcs).length / 2 = tgts.length := by
    simp only [List.length_append, hlen]
    omega
  have htake : (tgts ++ srcs).take tgts.length = tgts := List.take_left tgts srcs
  have hdrop : (tgts ++ srcs).drop tgts.length = srcs := List.drop_left tgts srcs
  have hvt : ∀ p ∈ tgts, p < t.heap.length := fun p hp =>
    hval p (List.mem_append_left _ hp)
  have hvs : ∀ p ∈ srcs, p < t.heap.length := fun p hp =>
    hval p (List.mem_append_right _ hp)
  have hsave1 := saveCells_spec tgts t hvt
  have hvt2 : ∀ p ∈ srcs, p < (saveCells tgts t).heap.length := by
    rw [hsave1]
    intro q hq
    simp only [List.length_append, List.length_map]
    have := hvs q hq
    omega
  have hsave2 := saveCells_spec srcs _ hvt2
  rw [hsave1] at hsave2
  simp only [List.length_append, List.length_map] at hsave2
  have hmap2 : List.map (readMem (t.heap ++ List.map (readMem t.heap) tgts)) srcs
      = List.map (readMem t.heap) srcs :=
    List.map_congr_left (fun q hq => readMem_append_lt _ _ _ (hvs q hq))
  rw [hmap2] at hsave2
  -- the tape after both save loops and the record append
  have hPA : ParallelAssignment (tgts ++ srcs) t
      = prunLoop tgts 0 tgts.length
          { t with places := t.places ++ tgts ++ srcs,
                   values := t.values ++ List.range' t.heap.length tgts.length
                     ++ List.range' (t.heap.length + tgts.length) srcs.length,
                   heap := t.heap ++ List.map (readMem t.heap) tgts
                     ++ List.map (readMem t.heap) srcs,
                   records := t.records ++ [{ typ := typAssignment,
                                              op := tgts.length,
                                              p := t.places.length,
                                              v := t.values.length }] } := by
    rw [ParallelAssignment]
    simp only [hk, htake, hdrop]
    rw [hsave1, hsave2]
  set k := tgts.length with hkk
  set L := t.heap.length with hLL
  set V := t.values.length with hVV
  set tmap := List.map (readMem t.heap) tgts with htmap
  set smap := List.map (readMem t.heap) srcs with hsmap
  set T3 : Tape := { t with places := t.places ++ tgts ++ srcs,
                            values := t.values ++ List.range' L k ++ List.range' (L + k) srcs.length,
                            heap := t.heap ++ tmap ++ smap,
                            records := t.records ++ [{ typ := typAssignment,
                                                       op := k,
                                                       p := t.places.length,
                                                       v := t.values.length }] } with hT3
  have hT3vlen : T3.values.length = V + k + k := by
    simp only [hT3, List.length_append, List.length_range', hlen]
    try omega
  have hT3hlen : T3.heap.length = L + k + k := by
    simp only [hT3, List.length_append, List.length_map, htmap, hsmap, hlen]
    try omega
  have hq : ∀ m, m < k →
      T3.values.getD (T3.values.length - k + 0 + m) 0 = L + k + m := by
    intro m hm
    have hidx : T3.values.length - k + 0 + m = V + k + m := by
      rw [hT3vlen]; omega
    rw [hidx]
    have : T3.values = t.values ++ List.range' L k ++ List.range' (L + k) srcs.length := by
      rw [hT3]
    rw [this]
    have hVk : V + k + m = t.values.length + (List.range' L k).length + m := by
      simp [hVV]
    rw [hVk, getD_append2_right _ _ _ _ _ (by simp [hlen]; omega)]
    exact getD_range' _ _ _ (by omega)
  have hheapread : ∀ m, m < k →
      readMem T3.heap (L + k + m) = readMem t.heap (srcs.getD m 0) := by
    intro m hm
    have : T3.heap = t.heap ++ tmap ++ smap := by rw [hT3]
    rw [readMem, this]
    have hLk : L + k + m = t.heap.length + tmap.length + m := by
      simp [hLL, htmap]
    rw [hLk, getD_append2_right _ _ _ _ _ (by simp [hsmap, hlen]; try omega)]
    rw [hsmap, getD_map_lt _ _ _ (by omega) _ 0]
  have hrun := prunLoop_spec tgts smap 0 k T3 L
    (by simp [hsmap, hlen, hkk])
    (fun p hp => hvt p hp)
    (fun m hm => by
      constructor
      · rw [hq m hm]; omega
      · rw [hq m hm]
        rw [hheapread m hm, hsmap, getD_map_lt _ _ _ (by omega) _ 0])
  rw [hPA, hrun]
  have htgtlt : ∀ p ∈ tgts, p < T3.heap.length := by
    intro p hp
    have := hvt p hp
    rw [hT3hlen]
    omega
  refine ⟨by simp [hT3], by simp [hT3], by simp [hT3, hlen]; omega, ?_, ?_⟩
  · -- conjunct 4: the k values at the record value index hold the
    -- pre-assignment target values, and the backing cells are untouched
    intro i hi
    have hvgetD : T3.values.getD (V + i) 0 = L + i := by
      have : T3.values = t.values ++ List.range' L k ++ List.range' (L + k) srcs.length := by
        rw [hT3]
      rw [this]
      have hVi : V + i = t.values.length + i := by simp [hVV]
      rw [hVi, List.append_assoc, List.getD_append_right _ _ _ _ (by omega)]
      simp only [Nat.add_sub_cancel_left]
      rw [List.getD_append _ _ _ _ (by simp; omega)]
      exact getD_range' _ _ _ hi
    show readMem (writeList T3.heap tgts smap) (T3.values.getD (V + i) 0)
        = readMem t.heap (tgts.getD i 0)
    rw [hvgetD]
    rw [writeList_preserve _ _ _ _ (by
      intro hmem
      have := hvt _ hmem
      omega)]
    have : T3.heap = t.heap ++ tmap ++ smap := by rw [hT3]
    rw [readMem, this]
    have hLi : L + i = t.heap.length + i := by simp [hLL]
    rw [hLi, List.append_assoc, List.getD_append_right _ _ _ _ (by omega)]
    simp only [Nat.add_sub_cancel_left]
    rw [List.getD_append _ _ _ _ (by simp [htmap]; try omega)]
    rw [htmap, getD_map_lt _ _ _ hi _ 0]
  · -- conjunct 5: each distinct target ends holding the source value
    intro i hi
    show readMem (writeList T3.heap tgts smap) (tgts.getD i 0)
        = readMem t.heap (srcs.getD i 0)
    rw [writeList_getD_nodup T3.heap tgts smap hnodup
      (by simp [hsmap, hlen, hkk]) htgtlt i hi]
    rw [hsmap, getD_map_lt _ _ _ (by omega) _ 0]

/-- C6 (amended): for ParallelAssignment on 2k cells, k targets then k
sources, exactly one Assignment record of arity k is appended whose place
window holds the targets followed by the sources, the k values at the
record value index hold the targets pre-assignment values, and, provided
the k targets are pairwise distinct cells (with a duplicated target the
later write wins, by the left-to-right write order), each target ends
holding the value its source had before any target was written, so
aliasing between the target list and the source list is handled. -/
theorem parallel_assignment_spec (tgts srcs : List Nat) (t : Tape)
    (hlen : srcs.length = tgts.length)
    (hval : ∀ p ∈ tgts ++ srcs, p < t.heap.length)
    (hnodup : tgts.Nodup) :
    (ParallelAssignment (tgts ++ srcs) t).records
      = t.records ++ [{ typ := typAssignment, op := tgts.length,
                        p := t.places.length, v := t.values.length }] ∧
    (ParallelAssignment (tgts ++ srcs) t).places
      = t.places ++ tgts ++ srcs ∧
    (ParallelAssignment (tgts ++ srcs) t).values.length
      = t.values.length + 2 * tgts.length ∧
    (∀ i, i < tgts.length →
      readMem (ParallelAssignment (tgts ++ srcs) t).heap
          ((ParallelAssignment (tgts ++ srcs) t).values.getD
            (t.values.length + i) 0)
        = readMem t.heap (tgts.getD i 0)) ∧
    (∀ i, i < tgts.length →
      readMem (ParallelAssignment (tgts ++ srcs) t).heap (tgts.getD i 0)
        = readMem t.heap (srcs.getD i 0)) :=
  parallel_assignment_spec_aux tgts srcs t hlen hval hnodup

/-- C6 (counterexample): with a duplicated target, ParallelAssignment on
[t0, t0] and [s0, s1] leaves the target holding the pre-value of s1, not
that of s0 as the claim states for every i: here cell 0 is the duplicated
target, sources are cells 1 (value 20) and 2 (value 30), and cell 0 ends
holding 30 rather than 20. -/
theorem parallel_assignment_dup_target_counterexample :
    readMem (ParallelAssignment [0, 0, 1, 2]
        { initTape with heap := [10, 20, 30] }).heap 0 = 30 ∧
    readMem { initTape with heap := [10, 20, 30] }.heap 1 = 20 ∧
    (30 : ℚ) ≠ 20 := by
  refine ⟨?_, by norm_num [readMem, initTape], by norm_num⟩
  norm_num [ParallelAssignment, saveCells, prunLoop, readMem, writeMem, initTape]

/-- Witness for C6 at one distinct target: cell 0 ends holding the value
cell 1 had. -/
theorem parallel_assignment_spec_witness :
    readMem (ParallelAssignment ([0] ++ [1])
        { initTape with heap := [10, 20] }).heap 0
      = readMem { initTape with heap := [10, 20] }.heap 1 := by
  have h := parallel_assignment_spec [0] [1] { initTape with heap := [10, 20] }
    rfl (by intro p hp; fin_cases hp <;> simp) (by simp)
  simpa using h.2.2.2.2 0 (by norm_num)

/-- Witness for C9: the identity closure, no arguments, the fresh tape, and
a concrete live Call-marker record. -/
theorem call_marker_neutralized_witness :
    ((Call (fun _ s => s) 0 [] initTape).1.records.getD
        (initTape.records.length + if 0 < ([] : List Nat).length then 1 else 0)
        emptyRec).typ = typDummy ∧
    walkStep [] [] [] [] { typ := typCall, op := 0, p := 0, v := 0 } ([], [])
      = .error () :=
  call_marker_neutralized (fun _ s => s) 0 [] initTape
    (fun _ _ => le_refl _) [] [] [] [] _ ([], []) rfl

theorem firstOcc_mem_acc (acc l : List Nat) (a : Nat) (ha : a ∈ acc) :
    a ∈ firstOcc acc l := by
  induction l generalizing acc with
  | nil => simpa [firstOcc] using ha
  | cons b rest ih =>
    rw [firstOcc]
    by_cases hb : b ∈ acc
    · simp only [hb, if_true]
      exact ih acc ha
    · simp only [hb, if_false]
      exact ih _ (List.mem_append_left _ ha)

theorem firstOcc_mem (acc l : List Nat) (a : Nat) (ha : a ∈ l) :
    a ∈ firstOcc acc l := by
  induction l generalizing acc with
  | nil => simp at ha
  | cons b rest ih =>
    rw [firstOcc]
    rcases List.mem_cons.mp ha with h | h
    · subst h
      by_cases hb : a ∈ acc
      · simp only [hb, if_true]
        exact firstOcc_mem_acc acc rest a hb
      · simp only [hb, if_false]
        exact firstOcc_mem_acc _ rest a (by simp)
    · by_cases hb : b ∈ acc
      · simp only [hb, if_true]
        exact ih acc h
      · simp only [hb, if_false]
        exact ih _ h

theorem firstOcc_indexOf_stable (acc l : List Nat) (a : Nat) (ha : a ∈ acc) :
    (firstOcc acc l).indexOf a = acc.indexOf a := by
  induction l generalizing acc with
  | nil => rfl
  | cons b rest ih =>
    rw [firstOcc]
    by_cases hb : b ∈ acc
    · simp only [hb, if_true]
      exact ih acc ha
    · simp only [hb, if_false]
      rw [ih _ (List.mem_append_left _ ha)]
      exact List.indexOf_append_of_mem ha



theorem buildIndex_adj_length (l : List Nat) (i0 : Nat) (adj : List Nat)
    (adv : List ℚ) (m : Nat → Option Nat) :
    (buildIndex l i0 adj adv m).1.length = adj.length := by
  induction l generalizing i0 adj adv m with
  | nil => rfl
  | cons a rest ih =>
    rw [buildIndex]
    cases m a with
    | some j => rw [ih]; simp
    | none => rw [ih]; simp

theorem buildIndex_lower (l : List Nat) (i0 : Nat) (adj : List Nat)
    (adv : List ℚ) (m : Nat → Option Nat) (i : Nat) (hi : i < i0) :
    (buildIndex l i0 adj adv m).1.getD i 0 = adj.getD i 0 := by
  induction l generalizing i0 adj adv m with
  | nil => rfl
  | cons a rest ih =>
    rw [buildIndex]
    cases m a with
    | some j =>
      dsimp only
      rw [ih _ _ _ _ (by omega)]
      simp [List.getD_eq_getElem?_getD, List.getElem?_set_ne (by omega : i0 ≠ i)]
    | none =>
      dsimp only
      rw [ih _ _ _ _ (by omega)]
      simp [List.getD_eq_getElem?_getD, List.getElem?_set_ne (by omega : i0 ≠ i)]

theorem buildIndex_spec (l : List Nat) (i0 : Nat) (adj : List Nat)
    (seen : List Nat) (m : Nat → Option Nat)
    (hm : ∀ a, m a = if a ∈ seen then some (seen.indexOf a) else none)
    (hlen : i0 + l.length ≤ adj.length) :
    (buildIndex l i0 adj (List.replicate seen.length 0) m).2
      = List.replicate (firstOcc seen l).length 0 ∧
    (∀ j, j < l.length →
      (buildIndex l i0 adj (List.replicate seen.length 0) m).1.getD (i0 + j) 0
        = (firstOcc seen l).indexOf (l.getD j 0)) := by
  induction l generalizing i0 adj seen m with
  | nil =>
    refine ⟨rfl, fun j hj => by simp at hj⟩
  | cons a rest ih =>
    rw [buildIndex, hm a]
    by_cases ha : a ∈ seen
    · simp only [ha, if_true]
      have hrec := ih (i0 + 1) (adj.set i0 (seen.indexOf a)) seen m hm
        (by simp only [List.length_set]; simp only [List.length_cons] at hlen; omega)
      rw [firstOcc]
      simp only [ha, if_true]
      refine ⟨hrec.1, fun j hj => ?_⟩
      match j with
      | 0 =>
        rw [buildIndex_lower _ _ _ _ _ _ (by omega)]
        simp only [List.getD_cons_zero, Nat.add_zero]
        rw [List.getD_eq_getElem?_getD,
          List.getElem?_set_eq_of_lt _ (by simp only [List.length_cons] at hlen; omega)]
        simp only [Option.getD_some]
        exact (firstOcc_indexOf_stable seen rest a ha).symm
      | Nat.succ jm =>
        have := hrec.2 jm (by simpa using hj)
        have hidx : i0 + (jm + 1) = i0 + 1 + jm := by omega
        rw [hidx]
        simpa using this
    · simp only [ha, if_false]
      have hm2 : ∀ q, (fun q => if q = a
            then some (List.replicate seen.length (0 : ℚ)).length
            else m q) q
          = if q ∈ seen ++ [a] then some ((seen ++ [a]).indexOf q) else none := by
        intro q
        by_cases hq : q = a
        · subst hq
          simp only [if_pos rfl, List.length_replicate]
          rw [if_pos (by simp)]
          rw [List.indexOf_append_of_not_mem ha]
          simp
        · simp only [if_neg hq, hm q]
          by_cases hqs : q ∈ seen
          · rw [if_pos hqs, if_pos (List.mem_append_left _ hqs),
              List.indexOf_append_of_mem hqs]
          · rw [if_neg hqs, if_neg (by simp [hqs, hq])]
      have hrep : List.replicate seen.length (0 : ℚ) ++ [0]
          = List.replicate (seen ++ [a]).length 0 := by
        simp [← List.replicate_succ']
      have hrec := ih (i0 + 1)
        (adj.set i0 (List.replicate seen.length (0 : ℚ)).length)
        (seen ++ [a]) _ hm2
        (by simp only [List.length_set]; simp only [List.length_cons] at hlen; omega)
      rw [firstOcc]
      simp only [ha, if_false]
      rw [hrep] at *
      refine ⟨hrec.1, fun j hj => ?_⟩
      match j with
      | 0 =>
        rw [buildIndex_lower _ _ _ _ _ _ (by omega)]
        simp only [List.getD_cons_zero, Nat.add_zero]
        rw [List.getD_eq_getElem?_getD,
          List.getElem?_set_eq_of_lt _ (by simp only [List.length_cons] at hlen; omega)]
        simp only [Option.getD_some, List.length_replicate]
        rw [firstOcc_indexOf_stable (seen ++ [a]) rest a (by simp)]
        rw [List.indexOf_append_of_not_mem ha]
        simp
      | Nat.succ jm =>
        have := hrec.2 jm (by simpa using hj)
        have hidx : i0 + (jm + 1) = i0 + 1 + jm := by omega
        rw [hidx]
        simpa using this

theorem getD_mem {a : Type} (l : List a) (j : Nat) (d : a)
    (h : j < l.length) : l.getD j d ∈ l := by
  rw [List.getD_eq_getElem l d h]
  exact List.getElem_mem _

theorem validCell_mono (n K K2 : Nat) (hK : K ≤ K2) (c : Cell)
    (hc : validCell n K c) : validCell n K2 c := by
  cases c with
  | pcell i => exact hc
  | rcell k => exact lt_of_lt_of_le hc hK

theorem addrOf_agree (ρ ρ2 : List Nat) (n K : Nat)
    (hagree : ∀ k, k < K → ρ2.getD k 0 = ρ.getD k 0) (c : Cell)
    (hc : validCell n K c) : addrOf ρ2 c = addrOf ρ c := by
  cases c with
  | pcell i => rfl
  | rcell k => exact hagree k hc

theorem TraceStruct_ext (n K K2 : Nat) (ρ ρ2 : List Nat)
    (PL VL PL2 VL2 : List Nat) (EL EL2 : List Elem) (H H2 VB VB2 : Nat)
    (R : List Rec) (A : List AAct) (p0 v0 e0 : Nat)
    (hTS : TraceStruct n K ρ PL VL EL H VB R A p0 v0 e0)
    (hK : K ≤ K2)
    (hagree : ∀ k, k < K → ρ2.getD k 0 = ρ.getD k 0)
    (hfresh : ∀ k, K ≤ k → k < K2 → H ≤ ρ2.getD k 0)
    (hPL : ∃ ext, PL2 = PL ++ ext)
    (hVL : ∃ ext, VL2 = VL ++ ext)
    (hEL : ∃ ext, EL2 = EL ++ ext)
    (hH : H ≤ H2) (hVB : VB ≤ VL.length) (hVB2 : VB ≤ VB2) :
    TraceStruct n K2 ρ2 PL2 VL2 EL2 H2 VB2 R A p0 v0 e0 := by
  obtain ⟨ple, hple⟩ := hPL
  obtain ⟨vle, hvle⟩ := hVL
  obtain ⟨ele, hele⟩ := hEL
  subst hple hvle hele
  induction R generalizing A p0 v0 e0 with
  | nil =>
    cases A with
    | nil => exact hTS
    | cons x A => simp [TraceStruct] at hTS
  | cons r R ih =>
    cases A with
    | nil => simp [TraceStruct] at hTS
    | cons x A =>
      cases x with
      | aarith op resc args =>
        rw [TraceStruct] at hTS ⊢
        obtain ⟨h1, h2, h3, h4, h5, h6, h7, h8⟩ := hTS
        refine ⟨h1, h2, validCell_mono _ _ _ hK _ h3,
          fun c hc => validCell_mono _ _ _ hK _ (h4 c hc), ?_, ?_, ?_, ih _ _ _ _ h8⟩
        · simp only [List.length_append]; omega
        · rw [List.getD_append _ _ _ _ (by omega), h6,
            addrOf_agree ρ ρ2 n K hagree _ h3]
        · intro j hj
          rw [List.getD_append _ _ _ _ (by omega), h7 j hj,
            addrOf_agree ρ ρ2 n K hagree _ (h4 _ (getD_mem _ _ _ hj))]
      | aassign tcs scs saved =>
        rw [TraceStruct] at hTS ⊢
        obtain ⟨rv, vw, h1, h2, h3, h4, h5, h6, h7, h8, h9, h10, h11, h12, h13⟩ := hTS
        refine ⟨rv, vw, h1, h2, h3, by omega, h5, h6,
          fun c hc => validCell_mono _ _ _ hK _ (h7 c hc),
          fun c hc => validCell_mono _ _ _ hK _ (h8 c hc),
          by simp only [List.length_append]; omega, ?_, ?_, ?_, ih _ _ _ _ h13⟩
        · intro j hj
          rw [List.getD_append _ _ _ _ (by omega), h10 j hj,
            addrOf_agree ρ ρ2 n K hagree _ (h7 _ (getD_mem _ _ _ hj))]
        · intro j hj
          rw [List.getD_append _ _ _ _ (by omega), h11 j hj,
            addrOf_agree ρ ρ2 n K hagree _ (h8 _ (getD_mem _ _ _ (by omega)))]
        · intro j hj
          have hin : rv + j < VL.length := by omega
          rw [List.getD_append _ _ _ _ hin]
          refine ⟨by have := (h12 j hj).1; omega, fun c hc => ?_⟩
          cases c with
          | pcell i => exact (h12 j hj).2 (Cell.pcell i) (show validCell n K (Cell.pcell i) from hc)
          | rcell k =>
            by_cases hk : k < K
            · rw [addrOf_agree ρ ρ2 n K hagree _ (show validCell n K (Cell.rcell k) from hk)]
              exact (h12 j hj).2 _ (show validCell n K (Cell.rcell k) from hk)
            · have := hfresh k (by omega) hc
              have := (h12 j hj).1
              show VL.getD (rv + j) 0 ≠ addrOf ρ2 (.rcell k)
              simp only [addrOf] at this ⊢
              omega
      | aelem g resc args saved =>
        rw [TraceStruct] at hTS ⊢
        obtain ⟨rv, h1, h2, h3, h4, h5, h6, h7, h8, h9, h10, h11, h12, h13, h14⟩ := hTS
        refine ⟨rv, h1, h2, by omega, h4,
          validCell_mono _ _ _ hK _ h5,
          fun c hc => validCell_mono _ _ _ hK _ (h6 c hc),
          by simp only [List.length_append]; omega, ?_, ?_,
          by simp only [List.length_append]; omega, ?_, ?_, ?_,
          ih _ _ _ _ h14⟩
        · rw [List.getD_append _ _ _ _ (by omega)]
          exact h8
        · rw [List.getD_append _ _ _ _ (by omega)]
          exact h9
        · rw [List.getD_append _ _ _ _ (by omega), h11,
            addrOf_agree ρ ρ2 n K hagree _ h5]
        · intro j hj
          rw [List.getD_append _ _ _ _ (by omega), h12 j hj,
            addrOf_agree ρ ρ2 n K hagree _ (h6 _ (getD_mem _ _ _ hj))]
        · intro j hj
          have hin : rv + j < VL.length := by omega
          rw [List.getD_append _ _ _ _ hin]
          refine ⟨by have := (h13 j hj).1; omega, fun c hc => ?_⟩
          cases c with
          | pcell i => exact (h13 j hj).2 (Cell.pcell i) (show validCell n K (Cell.pcell i) from hc)
          | rcell k =>
            by_cases hk : k < K
            · rw [addrOf_agree ρ ρ2 n K hagree _ (show validCell n K (Cell.rcell k) from hk)]
              exact (h13 j hj).2 _ (show validCell n K (Cell.rcell k) from hk)
            · have := hfresh k (by omega) hc
              have := (h13 j hj).1
              show VL.getD (rv + j) 0 ≠ addrOf ρ2 (.rcell k)
              simp only [addrOf] at this ⊢
              omega



theorem TraceStruct_mono_v (n K : Nat) (ρ : List Nat) (PL VL : List Nat)
    (EL : List Elem) (H VB : Nat) (R : List Rec) (A : List AAct)
    (p0 v0 v1 e0 : Nat)
    (hTS : TraceStruct n K ρ PL VL EL H VB R A p0 v0 e0) (hv : v1 ≤ v0) :
    TraceStruct n K ρ PL VL EL H VB R A p0 v1 e0 := by
  induction R generalizing A p0 v0 v1 e0 with
  | nil =>
    cases A with
    | nil => exact hTS
    | cons x A => simp [TraceStruct] at hTS
  | cons r R ih =>
    cases A with
    | nil => simp [TraceStruct] at hTS
    | cons x A =>
      cases x with
      | aarith op resc args =>
        rw [TraceStruct] at hTS ⊢
        obtain ⟨h1, h2, h3, h4, h5, h6, h7, h8⟩ := hTS
        exact ⟨h1, h2, h3, h4, h5, h6, h7, ih _ _ _ _ _ h8 hv⟩
      | aassign tcs scs saved =>
        rw [TraceStruct] at hTS ⊢
        obtain ⟨rv, vw, h1, h2, hrest⟩ := hTS
        exact ⟨rv, vw, h1, by omega, hrest⟩
      | aelem g resc args saved =>
        rw [TraceStruct] at hTS ⊢
        obtain ⟨rv, h1, h2, hrest⟩ := hTS
        exact ⟨rv, h1, by omega, hrest⟩

theorem TraceStruct_append (n K : Nat) (ρ : List Nat) (PL VL : List Nat)
    (EL : List Elem) (H VB VB2 : Nat) (R1 R2 : List Rec) (A1 A2 : List AAct)
    (p0 v0 e0 vs : Nat)
    (hTS : TraceStruct n K ρ PL VL EL H VB R1 A1 p0 v0 e0)
    (h2 : TraceStruct n K ρ PL VL EL H VB2 R2 A2 (p0 + pwA A1) vs (e0 + ewA A1))
    (hv0 : v0 ≤ vs) (hVB : VB ≤ vs) (hVBle : VB ≤ VB2) :
    TraceStruct n K ρ PL VL EL H VB2 (R1 ++ R2) (A1 ++ A2) p0 v0 e0 := by
  induction R1 generalizing A1 p0 v0 e0 with
  | nil =>
    cases A1 with
    | nil =>
      simp only [List.nil_append]
      simp only [pwA, ewA, Nat.add_zero] at h2
      exact TraceStruct_mono_v _ _ _ _ _ _ _ _ _ _ _ _ _ _ h2 hv0
    | cons x A1 => simp [TraceStruct] at hTS
  | cons r R1 ih =>
    cases A1 with
    | nil => simp [TraceStruct] at hTS
    | cons x A1 =>
      cases x with
      | aarith op resc args =>
        rw [TraceStruct] at hTS
        rw [List.cons_append, List.cons_append, TraceStruct]
        obtain ⟨h1, hx2, h3, h4, h5, h6, h7, h8⟩ := hTS
        refine ⟨h1, hx2, h3, h4, h5, h6, h7, ih _ _ _ _ h8 ?_ hv0⟩
        have harith : p0 + pwA (AAct.aarith op resc args :: A1)
            = (p0 + 1 + args.length) + pwA A1 := by
          simp only [pwA]; omega
        have hewa : ewA (AAct.aarith op resc args :: A1) = ewA A1 := by
          simp only [ewA]
        rw [harith, hewa] at h2
        exact h2
      | aassign tcs scs saved =>
        rw [TraceStruct] at hTS
        rw [List.cons_append, List.cons_append, TraceStruct]
        obtain ⟨rv, vw, h1, hv2, h3, h4, h5, h6, h7, h8, h9, h10, h11, h12, h13⟩ := hTS
        refine ⟨rv, vw, h1, hv2, h3, by omega, h5, h6, h7, h8, h9, h10, h11, h12,
          ih _ _ _ _ h13 ?_ (by omega)⟩
        have hpa : p0 + pwA (AAct.aassign tcs scs saved :: A1)
            = (p0 + 2 * tcs.length) + pwA A1 := by
          simp only [pwA]; omega
        have hewa : ewA (AAct.aassign tcs scs saved :: A1) = ewA A1 := by
          simp only [ewA]
        rw [hpa, hewa] at h2
        exact h2
      | aelem g resc args saved =>
        rw [TraceStruct] at hTS
        rw [List.cons_append, List.cons_append, TraceStruct]
        obtain ⟨rv, h1, h2x, h3, h4, h5, h6, h7, h8, h9, h10, h11, h12, h13, h14⟩ := hTS
        refine ⟨rv, h1, h2x, by omega, h4, h5, h6, h7, h8, h9, h10, h11, h12, h13,
          ih _ _ _ _ h14 ?_ (by omega)⟩
        have hpa : p0 + pwA (AAct.aelem g resc args saved :: A1)
            = (p0 + 1 + args.length) + pwA A1 := by
          simp only [pwA]; omega
        have hewa : e0 + ewA (AAct.aelem g resc args saved :: A1)
            = (e0 + 1) + ewA A1 := by
          simp only [ewA]; omega
        rw [hpa, hewa] at h2
        exact h2

theorem TraceSaved_append (heap : List ℚ) (VL : List Nat)
    (R1 R2 : List Rec) (A1 A2 : List AAct)
    (h1 : TraceSaved heap VL R1 A1) (h2 : TraceSaved heap VL R2 A2) :
    TraceSaved heap VL (R1 ++ R2) (A1 ++ A2) := by
  induction R1 generalizing A1 with
  | nil =>
    cases A1 with
    | nil => simpa using h2
    | cons x A1 => simp [TraceSaved] at h1
  | cons r R1 ih =>
    cases A1 with
    | nil => simp [TraceSaved] at h1
    | cons x A1 =>
      cases x with
      | aarith op resc args =>
        rw [TraceSaved] at h1
        rw [List.cons_append, List.cons_append, TraceSaved]
        exact ⟨h1.1, ih _ h1.2⟩
      | aassign tcs scs saved =>
        rw [TraceSaved] at h1
        rw [List.cons_append, List.cons_append, TraceSaved]
        exact ⟨h1.1, ih _ h1.2⟩
      | aelem g resc args saved =>
        rw [TraceSaved] at h1
        rw [List.cons_append, List.cons_append, TraceSaved]
        exact ⟨h1.1, ih _ h1.2⟩

theorem TraceSaved_ext (n K : Nat) (ρ : List Nat) (PL VL VL2 : List Nat)
    (EL : List Elem) (H VB : Nat) (R : List Rec) (A : List AAct)
    (p0 v0 e0 : Nat) (heap heap2 : List ℚ)
    (hTS : TraceStruct n K ρ PL VL EL H VB R A p0 v0 e0)
    (hSV : TraceSaved heap VL R A)
    (hVL : ∃ ext, VL2 = VL ++ ext)
    (hVB : VB ≤ VL.length)
    (hkeep : ∀ a, a < H → (∀ c, validCell n K c → a ≠ addrOf ρ c) →
      readMem heap2 a = readMem heap a) :
    TraceSaved heap2 VL2 R A := by
  obtain ⟨vle, hvle⟩ := hVL
  subst hvle
  induction R generalizing A p0 v0 e0 with
  | nil =>
    cases A with
    | nil => exact hSV
    | cons x A => simp [TraceSaved] at hSV
  | cons r R ih =>
    cases A with
    | nil => simp [TraceSaved] at hSV
    | cons x A =>
      cases x with
      | aarith op resc args =>
        rw [TraceSaved] at hSV
        rw [TraceSaved]
        rw [TraceStruct] at hTS
        exact ⟨trivial, ih _ _ _ _ hTS.2.2.2.2.2.2.2 hSV.2⟩
      | aassign tcs scs saved =>
        rw [TraceSaved] at hSV
        rw [TraceSaved]
        rw [TraceStruct] at hTS
        obtain ⟨rv, vw, h1, h2, h3, h4, h5, h6, h7, h8, h9, h10, h11, h12, h13⟩ := hTS
        refine ⟨fun j hj => ?_, ih _ _ _ _ h13 hSV.2⟩
        have hrv : r.v = rv := by rw [h1]
        rw [hrv] at hSV ⊢
        have hin : rv + j < VL.length := by omega
        rw [List.getD_append _ _ _ _ hin]
        rw [hkeep _ ((h12 j hj).1) ((h12 j hj).2)]
        exact hSV.1 j hj
      | aelem g resc args saved =>
        rw [TraceSaved] at hSV
        rw [TraceSaved]
        rw [TraceStruct] at hTS
        obtain ⟨rv, h1, h2, h3, h4, h5, h6, h7, h8, h9, h10, h11, h12, h13, h14⟩ := hTS
        refine ⟨fun j hj => ?_, ih _ _ _ _ h14 hSV.2⟩
        have hrv : r.v = rv := by rw [h1]
        rw [hrv] at hSV ⊢
        have hin : rv + j < VL.length := by omega
        rw [List.getD_append _ _ _ _ hin]
        rw [hkeep _ ((h13 j hj).1) ((h13 j hj).2)]
        exact hSV.1 j hj

end AD

namespace AD

theorem resolve_addrOf (n : Nat) (ρ : List Nat) (r : Ref) (K : Nat)
    (h : refWF n K r) : resolve (paramAddrs n) ρ r = addrOf ρ (toCell r) := by
  cases r with
  | rpar i =>
    show (List.range n).getD i 0 = i
    rw [List.getD_eq_getElem _ _ (by simpa using h)]
    simp
  | rres k => rfl

theorem pairwise_lt_getD (l : List Nat) (hm : List.Pairwise (· < ·) l)
    (k k2 : Nat) (hk : k < l.length) (hk2 : k2 < l.length) (hlt : k < k2) :
    l.getD k 0 < l.getD k2 0 := by
  rw [List.getD_eq_getElem _ _ hk, List.getD_eq_getElem _ _ hk2]
  exact List.pairwise_iff_getElem.mp hm k k2 hk hk2 hlt

theorem FInv_init (env : FuncEnv) (xs : List ℚ) :
    FInv env xs.length xs (setupTape xs) [] (initCells xs) 0 [] := by
  constructor
  case hρlen => rfl
  case hcstack =>
    simp [setupTape, Setup, push, Value, register, initTape, paramAddrs]
  case hadj => rfl
  case hadv => rfl
  case hheapn => simp [setupTape, Setup, push, Value, register, initTape]
  case hρband => intro k hk; omega
  case hρmono => simp
  case hVLmono => simp [setupTape, Setup, push, Value, register, initTape]
  case hVLlt =>
    intro v hv
    simp [setupTape, Setup, push, Value, register, initTape] at hv ⊢
    omega
  case hVLne => simp [setupTape, Setup, push, Value, register, initTape]
  case hheap =>
    intro c hc
    cases c with
    | pcell i =>
      show readMem (setupTape xs).heap i = xs.getD i 0
      simp only [setupTape, Setup, push, Value, register, initTape]
      exact List.getD_append _ _ _ _ (by simpa using hc)
    | rcell k => simp [validCell] at hc
  case hplaces =>
    refine ⟨[], ?_⟩
    simp [setupTape, Setup, push, Value, register, initTape, paramAddrs]
  case hplen =>
    simp [setupTape, Setup, push, Value, register, initTape, paramAddrs, pwA]
  case helen => rfl
  case hrecords =>
    refine ⟨[], rfl, ?_, ?_⟩
    · rw [TraceStruct]; trivial
    · rw [TraceSaved]; trivial

theorem pwA_append (A B : List AAct) : pwA (A ++ B) = pwA A + pwA B := by
  induction A with
  | nil => simp [pwA]
  | cons x A ih =>
    cases x <;> rw [List.cons_append, pwA, pwA] <;> omega

theorem ewA_append (A B : List AAct) : ewA (A ++ B) = ewA A + ewA B := by
  induction A with
  | nil => simp [ewA]
  | cons x A ih =>
    cases x <;> simp only [List.cons_append, ewA, List.append_eq] <;> rw [ih] <;> omega

theorem band_mem (l : List Nat) (X : Nat)
    (hband : ∀ k, k < l.length → l.getD k 0 < X) : ∀ a ∈ l, a < X := by
  intro a ha
  obtain ⟨i, hi, he⟩ := List.mem_iff_getElem.mp ha
  have := hband i hi
  rwa [List.getD_eq_getElem _ _ hi, he] at this

theorem pairwise_append_lt (l : List Nat) (x : Nat)
    (hl : List.Pairwise (· < ·) l) (hx : ∀ a ∈ l, a < x) :
    List.Pairwise (· < ·) (l ++ [x]) := by
  rw [List.pairwise_append]
  exact ⟨hl, List.pairwise_singleton _ _, fun a ha b hb => by
    simp only [List.mem_singleton] at hb
    exact hb ▸ hx a ha⟩

theorem toCell_refWF (n K : Nat) (r : Ref) (h : refWF n K r) :
    validCell n K (toCell r) := by
  cases r with
  | rpar i => exact h
  | rres k => exact h

theorem addrOf_inj (n K : Nat) (ρ : List Nat) (hlen : ρ.length = K)
    (hband : ∀ k, k < K → n + 1 ≤ ρ.getD k 0)
    (hmono : List.Pairwise (· < ·) ρ) :
    ∀ c d, validCell n K c → validCell n K d →
      addrOf ρ c = addrOf ρ d → c = d := by
  intro c d hc hd he
  cases c with
  | pcell i =>
    cases d with
    | pcell j => simp only [addrOf] at he; rw [he]
    | rcell k =>
      have := hband k hd
      simp only [addrOf] at he
      have : i < n := hc
      omega
  | rcell k =>
    cases d with
    | pcell j =>
      have := hband k hc
      simp only [addrOf] at he
      have : j < n := hd
      omega
    | rcell k2 =>
      simp only [addrOf] at he
      have hkK : k < K := hc
      have hk2K : k2 < K := hd
      rcases Nat.lt_trichotomy k k2 with hlt | heq | hgt
      · have := pairwise_lt_getD ρ hmono k k2 (by omega) (by omega) hlt
        omega
      · rw [heq]
      · have := pairwise_lt_getD ρ hmono k2 k (by omega) (by omega) hgt
        omega

theorem addrOf_lt (n K : Nat) (ρ : List Nat) (H : Nat) (hn : n + 1 ≤ H)
    (hband : ∀ k, k < K → ρ.getD k 0 < H) :
    ∀ c, validCell n K c → addrOf ρ c < H := by
  intro c hc
  cases c with
  | pcell i => have : i < n := hc; simp only [addrOf]; omega
  | rcell k => exact hband k hc

theorem writeList_cupdSeq (ρ : List Nat) (n K : Nat) (h : List ℚ)
    (ah : CellMap) (tcs : List Cell) (qs : List ℚ)
    (hv : ∀ c ∈ tcs, validCell n K c)
    (hinj : ∀ c d, validCell n K c → validCell n K d →
      addrOf ρ c = addrOf ρ d → c = d)
    (hlt : ∀ c, validCell n K c → addrOf ρ c < h.length)
    (hbase : ∀ c, validCell n K c → readMem h (addrOf ρ c) = ah c) :
    ∀ c, validCell n K c →
      readMem (writeList h (tcs.map (addrOf ρ)) qs) (addrOf ρ c)
        = cupdSeq ah tcs qs c := by
  induction tcs generalizing h ah qs with
  | nil => intro c hc; simp only [List.map_nil, writeList, cupdSeq]; exact hbase c hc
  | cons tc rest ih =>
    intro c hc
    cases qs with
    | nil => simp only [List.map_cons, writeList, cupdSeq]; exact hbase c hc
    | cons q qrest =>
      simp only [List.map_cons, writeList, cupdSeq]
      have htc := hv tc (List.mem_cons_self _ _)
      refine ih (writeMem h (addrOf ρ tc) q) (cupd ah tc q) qrest
        (fun d hd => hv d (List.mem_cons_of_mem _ hd))
        (fun d hd => by rw [writeMem_length]; exact hlt d hd)
        (fun d hd => ?_) c hc
      by_cases hde : d = tc
      · subst hde
        rw [readMem_writeMem_self _ _ _ (hlt d hd)]
        simp [cupd]
      · have hne : addrOf ρ d ≠ addrOf ρ tc := fun he => hde (hinj d tc hd htc he)
        rw [readMem_writeMem_ne _ _ _ _ hne, hbase d hd]
        simp [cupd, hde]

theorem saveVals_spec (px : List Nat) (t : Tape)
    (h : ∀ p ∈ px, p < t.heap.length) :
    saveVals px t =
      { t with values := t.values ++ List.range' t.heap.length px.length,
               heap := t.heap ++ px.map (readMem t.heap) } := by
  induction px generalizing t with
  | nil => simp [saveVals]
  | cons p rest ih =>
    rw [saveVals]
    rw [ih _ (by
      intro q hq
      simp only [List.length_append, List.length_cons]
      have := h q (List.mem_cons_of_mem _ hq)
      omega)]
    have hmap : List.map (readMem (t.heap ++ [readMem t.heap p])) rest
        = List.map (readMem t.heap) rest :=
      List.map_congr_left (fun q hq =>
        readMem_append_lt _ _ _ (h q (List.mem_cons_of_mem _ hq)))
    simp [hmap, List.range'_succ, List.append_assoc]

theorem ParallelAssignment_shape (tgts srcs : List Nat) (t : Tape)
    (hlen : srcs.length = tgts.length)
    (hval : ∀ p ∈ tgts ++ srcs, p < t.heap.length) :
    ParallelAssignment (tgts ++ srcs) t =
      { t with places := t.places ++ tgts ++ srcs,
               values := t.values ++ List.range' t.heap.length tgts.length
                 ++ List.range' (t.heap.length + tgts.length) srcs.length,
               heap := writeList (t.heap ++ tgts.map (readMem t.heap)
                 ++ srcs.map (readMem t.heap)) tgts (srcs.map (readMem t.heap)),
               records := t.records ++ [{ typ := typAssignment,
                                          op := tgts.length,
                                          p := t.places.length,
                                          v := t.values.length }] } := by
  have hk : (tgts ++ srcs).length / 2 = tgts.length := by
    simp only [List.length_append, hlen]
    omega
  have htake : (tgts ++ srcs).take tgts.length = tgts := List.take_left tgts srcs
  have hdrop : (tgts ++ srcs).drop tgts.length = srcs := List.drop_left tgts srcs
  have hvt : ∀ p ∈ tgts, p < t.heap.length := fun p hp =>
    hval p (List.mem_append_left _ hp)
  have hvs : ∀ p ∈ srcs, p < t.heap.length := fun p hp =>
    hval p (List.mem_append_right _ hp)
  have hsave1 := saveCells_spec tgts t hvt
  have hvt2 : ∀ p ∈ srcs, p < (saveCells tgts t).heap.length := by
    rw [hsave1]
    intro q hq
    simp only [List.length_append, List.length_map]
    have := hvs q hq
    omega
  have hsave2 := saveCells_spec srcs _ hvt2
  rw [hsave1] at hsave2
  simp only [List.length_append, List.length_map] at hsave2
  have hmap2 : List.map (readMem (t.heap ++ List.map (readMem t.heap) tgts)) srcs
      = List.map (readMem t.heap) srcs :=
    List.map_congr_left (fun q hq => readMem_append_lt _ _ _ (hvs q hq))
  rw [hmap2] at hsave2
  have hPA : ParallelAssignment (tgts ++ srcs) t
      = prunLoop tgts 0 tgts.length
          { t with places := t.places ++ tgts ++ srcs,
                   values := t.values ++ List.range' t.heap.length tgts.length
                     ++ List.range' (t.heap.length + tgts.length) srcs.length,
                   heap := t.heap ++ List.map (readMem t.heap) tgts
                     ++ List.map (readMem t.heap) srcs,
                   records := t.records ++ [{ typ := typAssignment,
                                              op := tgts.length,
                                              p := t.places.length,
                                              v := t.values.length }] } := by
    rw [ParallelAssignment]
    simp only [hk, htake, hdrop]
    rw [hsave1, hsave2]
  rw [hPA]
  set k := tgts.length with hkk
  set L := t.heap.length with hLL
  set V := t.values.length with hVV
  set smap := List.map (readMem t.heap) srcs with hsmap
  set tmap := List.map (readMem t.heap) tgts with htmap
  set T3 : Tape := { t with places := t.places ++ tgts ++ srcs,
                            values := t.values ++ List.range' L k
                              ++ List.range' (L + k) srcs.length,
                            heap := t.heap ++ tmap ++ smap,
                            records := t.records ++ [{ typ := typAssignment,
                                                       op := k,
                                                       p := t.places.length,
                                                       v := t.values.length }] }
    with hT3
  have hT3vlen : T3.values.length = V + k + k := by
    simp only [hT3, List.length_append, List.length_range', hlen]
  have hq : ∀ m, m < k →
      T3.values.getD (T3.values.length - k + 0 + m) 0 = L + k + m := by
    intro m hm
    have hidx : T3.values.length - k + 0 + m = V + k + m := by
      rw [hT3vlen]; omega
    rw [hidx]
    have hT3v : T3.values = t.values ++ List.range' L k
        ++ List.range' (L + k) srcs.length := by rw [hT3]
    rw [hT3v]
    have hVk : V + k + m = t.values.length + (List.range' L k).length + m := by
      simp [hVV]
    rw [hVk, getD_append2_right _ _ _ _ _ (by simp [hlen]; omega)]
    exact getD_range' _ _ _ (by omega)
  have hheapread : ∀ m, m < k →
      readMem T3.heap (L + k + m) = readMem t.heap (srcs.getD m 0) := by
    intro m hm
    have hT3h : T3.heap = t.heap ++ tmap ++ smap := by rw [hT3]
    rw [readMem, hT3h]
    have hLk : L + k + m = t.heap.length + tmap.length + m := by
      simp [hLL, htmap]
    rw [hLk, getD_append2_right _ _ _ _ _ (by simp [hsmap, hlen]; try omega)]
    rw [hsmap, getD_map_lt _ _ _ (by omega) _ 0]
  have hrun := prunLoop_spec tgts smap 0 k T3 L
    (by simp [hsmap, hlen, hkk])
    (fun p hp => hvt p hp)
    (fun m hm => by
      constructor
      · rw [hq m hm]; omega
      · rw [hq m hm]
        rw [hheapread m hm, hsmap, getD_map_lt _ _ _ (by omega) _ 0])
  rw [hrun]

theorem writeMem_append_mid (h : List ℚ) (q v : ℚ) (rest : List ℚ) :
    writeMem (h ++ q :: rest) h.length v = h ++ v :: rest := by
  simp only [writeMem]
  rw [List.set_append_right _ _ (Nat.le_refl _)]
  simp

theorem map_resolve_eq (n K : Nat) (ρ : List Nat) (args : List Ref)
    (h : ∀ a ∈ args, refWF n K a) :
    args.map (resolve (paramAddrs n) ρ) = (args.map toCell).map (addrOf ρ) := by
  rw [List.map_map]
  exact List.map_congr_left (fun a ha => resolve_addrOf n ρ a K (h a ha))

theorem map_read_eq (heap : List ℚ) (ah : CellMap) (ρ : List Nat) (n K : Nat)
    (cells : List Cell) (hv : ∀ c ∈ cells, validCell n K c)
    (hbase : ∀ c, validCell n K c → readMem heap (addrOf ρ c) = ah c) :
    (cells.map (addrOf ρ)).map (readMem heap) = cells.map ah := by
  rw [List.map_map]
  exact List.map_congr_left (fun c hc => hbase c (hv c hc))

theorem runCmd_step_cvalue (env : FuncEnv) (n : Nat) (xs : List ℚ) (t : Tape)
    (ρ : List Nat) (ah : CellMap) (K : Nat) (A : List AAct) (q : ℚ)
    (hI : FInv env n xs t ρ ah K A) :
    ∃ t2 ρ2, runCmd env (paramAddrs n) (.cvalue q) t ρ = .ok (t2, ρ2) ∧
      FInv env n xs t2 ρ2 (cupd ah (.rcell K) q) (K + 1) A := by
  obtain ⟨hρlen, hcstack, hadj, hadv, hheapn, hρband, hρmono, hVLmono, hVLlt,
    hVLne, hheap, hplaces, hplen, helen, hrecords⟩ := hI
  refine ⟨(Value q t).1, ρ ++ [(Value q t).2], rfl, ?_⟩
  have hmem : ∀ a ∈ ρ, a < t.heap.length :=
    band_mem ρ t.heap.length (fun k hk =>
      (hρband k (by rw [hρlen] at hk; exact hk)).2)
  constructor
  case hρlen => simp only [Value, List.length_append, List.length_cons, List.length_nil]; omega
  case hcstack => exact hcstack
  case hadj => exact hadj
  case hadv => exact hadv
  case hheapn => simp only [Value, List.length_append, List.length_cons, List.length_nil]; omega
  case hρband =>
    intro k hk
    by_cases hkK : k < K
    · rw [List.getD_append _ _ _ _ (by omega)]
      have := hρband k hkK
      simp only [Value, List.length_append, List.length_cons, List.length_nil]
      omega
    · have hkeq : k = K := by omega
      subst hkeq
      rw [List.getD_append_right _ _ _ _ (by omega)]
      simp only [Value, hρlen, Nat.sub_self, List.getD_cons_zero,
        List.length_append, List.length_cons]
      omega
  case hρmono => exact pairwise_append_lt ρ _ hρmono hmem
  case hVLmono => exact pairwise_append_lt _ _ hVLmono hVLlt
  case hVLlt =>
    intro v hv
    simp only [Value, List.mem_append, List.mem_singleton] at hv
    simp only [Value, List.length_append, List.length_cons, List.length_nil]
    rcases hv with hv | hv
    · have := hVLlt v hv; omega
    · omega
  case hVLne => simp only [Value, List.length_append, List.length_cons, List.length_nil]; omega
  case hheap =>
    intro c hc
    cases c with
    | pcell i =>
      have hi : i < n := hc
      show readMem (t.heap ++ [q]) i = cupd ah (.rcell K) q (.pcell i)
      rw [readMem_append_lt _ _ _ (by omega)]
      rw [show readMem t.heap i = ah (.pcell i) from hheap (.pcell i) hi]
      simp [cupd]
    | rcell k =>
      by_cases hkK : k < K
      · show readMem (t.heap ++ [q]) ((ρ ++ [(Value q t).2]).getD k 0)
            = cupd ah (.rcell K) q (.rcell k)
        rw [List.getD_append _ _ _ _ (by omega)]
        rw [readMem_append_lt _ _ _ (hρband k hkK).2]
        rw [show readMem t.heap (ρ.getD k 0) = ah (.rcell k) from
          hheap (.rcell k) hkK]
        simp [cupd, show k ≠ K from by omega]
      · have hkeq : k = K := by have : k < K + 1 := hc; omega
        subst hkeq
        show readMem (t.heap ++ [q]) ((ρ ++ [t.heap.length]).getD k 0)
            = cupd ah (.rcell k) q (.rcell k)
        rw [List.getD_append_right _ _ _ _ (by omega), hρlen]
        simp only [Nat.sub_self, List.getD_cons_zero]
        rw [readMem, List.getD_append_right _ _ _ _ (by omega)]
        simp [cupd]
  case hplaces => exact hplaces
  case hplen => exact hplen
  case helen => exact helen
  case hrecords =>
    obtain ⟨R, hR, hTS, hSV⟩ := hrecords
    refine ⟨R, hR, ?_, ?_⟩
    · have hgoal := TraceStruct_ext n K (K + 1) ρ (ρ ++ [t.heap.length])
        t.places t.values t.places (t.values ++ [t.heap.length])
        t.elementals t.elementals t.heap.length (t.heap.length + 1)
        t.values.length (t.values.length + 1) R A (n + 1) 1 0 hTS
        (by omega)
        (fun k hk => List.getD_append _ _ _ _ (by omega))
        (fun k hk1 hk2 => by
          have hkeq : k = K := by omega
          subst hkeq
          rw [List.getD_append_right _ _ _ _ (by omega), hρlen]
          simp)
        ⟨[], by simp⟩ ⟨[t.heap.length], rfl⟩ ⟨[], by simp⟩
        (by omega) (le_refl _) (by omega)
      show TraceStruct n (K + 1) (ρ ++ [t.heap.length]) t.places
        (t.values ++ [t.heap.length]) t.elementals (t.heap ++ [q]).length
        (t.values ++ [t.heap.length]).length R A (n + 1) 1 0
      simp only [List.length_append, List.length_cons, Nat.add_zero]
      exact hgoal
    · show TraceSaved (t.heap ++ [q]) (t.values ++ [t.heap.length]) R A
      exact TraceSaved_ext n K ρ t.places t.values _ t.elementals
        t.heap.length t.values.length R A (n + 1) 1 0 t.heap _ hTS hSV
        ⟨[t.heap.length], rfl⟩ (le_refl _)
        (fun a ha _ => readMem_append_lt _ _ _ ha)

theorem astep_K (env : FuncEnv) (c : Cmd) (s : CellMap × Nat × List AAct) :
    (astep env c s).2.1 = s.2.1 + results c := by
  obtain ⟨h, K, A⟩ := s
  cases c <;> rfl

theorem Arithmetic_shape (op : Nat) (px : List Nat) (t : Tape)
    (hop : op = OpNeg ∨ op = OpAdd ∨ op = OpSub ∨ op = OpMul ∨ op = OpDiv)
    (hpx : ∀ p ∈ px, p < t.heap.length) (h0 : 0 < t.heap.length) :
    Arithmetic op px t = .ok
      ({ t with
         heap := t.heap ++ [opFwd op (readMem t.heap (px.getD 0 0))
           (readMem t.heap (px.getD 1 0))],
         places := t.places ++ t.heap.length :: px,
         values := t.values ++ [t.heap.length],
         records := t.records ++ [{ typ := typArithmetic, op := op,
                                    p := t.places.length, v := 0 }] },
       t.heap.length) := by
  have hg0 : px.getD 0 0 < t.heap.length := by
    by_cases h : 0 < px.length
    · exact hpx _ (getD_mem px 0 0 h)
    · rw [List.getD_eq_default _ _ (by omega)]; exact h0
  have hg1 : px.getD 1 0 < t.heap.length := by
    by_cases h : 1 < px.length
    · exact hpx _ (getD_mem px 1 0 h)
    · rw [List.getD_eq_default _ _ (by omega)]; exact h0
  have hr0 : readMem (t.heap ++ [(0 : ℚ)]) (px.getD 0 0) = readMem t.heap (px.getD 0 0) :=
    readMem_append_lt _ _ _ hg0
  have hr1 : readMem (t.heap ++ [(0 : ℚ)]) (px.getD 1 0) = readMem t.heap (px.getD 1 0) :=
    readMem_append_lt _ _ _ hg1
  have hw : ∀ v : ℚ, writeMem (t.heap ++ [(0 : ℚ)]) t.heap.length v = t.heap ++ [v] :=
    fun v => writeMem_append_mid t.heap 0 v []
  rcases hop with h | h | h | h | h <;> subst h <;>
    simp only [Arithmetic, Value, hr0, hr1, hw, opFwd, OpNeg, OpAdd, OpSub,
      OpMul, OpDiv] <;>
    norm_num


theorem runCmd_step_carith (env : FuncEnv) (n : Nat) (xs : List ℚ) (t : Tape)
    (ρ : List Nat) (ah : CellMap) (K : Nat) (A : List AAct) (op : Nat)
    (args : List Ref) (hI : FInv env n xs t ρ ah K A)
    (hwf : cmdWF env n K (.carith op args)) :
    ∃ t2 ρ2, runCmd env (paramAddrs n) (.carith op args) t ρ = .ok (t2, ρ2) ∧
      FInv env n xs t2 ρ2
        (cupd ah (.rcell K)
          (opFwd op (ah ((args.map toCell).getD 0 (.rcell 0)))
            (ah ((args.map toCell).getD 1 (.rcell 0)))))
        (K + 1)
        (A ++ [.aarith op (.rcell K) (args.map toCell)]) := by
  obtain ⟨hρlen, hcstack, hadj, hadv, hheapn, hρband, hρmono, hVLmono, hVLlt,
    hVLne, hheap, hplaces, hplen, helen, hrecords⟩ := hI
  obtain ⟨hopar, hargs⟩ := hwf
  set px := args.map (resolve (paramAddrs n) ρ) with hpxdef
  set acs := args.map toCell with hacsdef
  have hpxe : px = acs.map (addrOf ρ) := map_resolve_eq n K ρ args hargs
  have hlacs : acs.length = args.length := by rw [hacsdef]; simp
  have hlpx : px.length = acs.length := by rw [hpxe]; simp
  have hacs : ∀ c ∈ acs, validCell n K c := by
    intro c hc
    rw [hacsdef] at hc
    simp only [List.mem_map] at hc
    obtain ⟨a, ha, rfl⟩ := hc
    exact toCell_refWF n K a (hargs a ha)
  have haddr : ∀ c, validCell n K c → addrOf ρ c < t.heap.length :=
    addrOf_lt n K ρ _ hheapn (fun k hk => (hρband k hk).2)
  have hpxlt : ∀ p ∈ px, p < t.heap.length := by
    intro p hp
    rw [hpxe] at hp
    simp only [List.mem_map] at hp
    obtain ⟨c, hc, rfl⟩ := hp
    exact haddr c (hacs c hc)
  have hmem : ∀ a ∈ ρ, a < t.heap.length :=
    band_mem ρ t.heap.length (fun k hk =>
      (hρband k (by rw [hρlen] at hk; exact hk)).2)
  have hop5 : op = OpNeg ∨ op = OpAdd ∨ op = OpSub ∨ op = OpMul ∨ op = OpDiv := by
    rcases hopar with ⟨h, _⟩ | ⟨h, _⟩
    · exact .inl h
    · tauto
  have hsh := Arithmetic_shape op px t hop5 hpxlt (by omega)
  have hgd : ∀ j, j < acs.length →
      px.getD j 0 = addrOf ρ (acs.getD j (.rcell 0)) := by
    intro j hj
    rw [hpxe]
    exact getD_map_lt _ _ _ hj _ (.rcell 0)
  have hv : opFwd op (readMem t.heap (px.getD 0 0)) (readMem t.heap (px.getD 1 0))
      = opFwd op (ah (acs.getD 0 (.rcell 0))) (ah (acs.getD 1 (.rcell 0))) := by
    rcases hopar with ⟨ho, hl⟩ | ⟨ho, hl⟩
    · subst ho
      rw [hgd 0 (by omega), hheap _ (hacs _ (getD_mem _ _ _ (by omega)))]
      simp [opFwd, OpNeg]
    · rw [hgd 0 (by omega), hgd 1 (by omega),
        hheap _ (hacs _ (getD_mem _ _ _ (by omega))),
        hheap _ (hacs _ (getD_mem _ _ _ (by omega)))]
  rw [hv] at hsh
  set v := opFwd op (ah (acs.getD 0 (.rcell 0))) (ah (acs.getD 1 (.rcell 0)))
    with hvdef
  set L := t.heap.length with hLdef
  refine ⟨{ t with
            heap := t.heap ++ [v],
            places := t.places ++ L :: px,
            values := t.values ++ [L],
            records := t.records ++ [{ typ := typArithmetic, op := op,
                                       p := t.places.length, v := 0 }] },
    ρ ++ [L], ?_, ?_⟩
  · show runCmd env (paramAddrs n) (.carith op args) t ρ = _
    simp only [runCmd]
    rw [← hpxdef, hsh]
  constructor
  case hρlen => simp only [List.length_append, List.length_cons, List.length_nil]; omega
  case hcstack => exact hcstack
  case hadj => exact hadj
  case hadv => exact hadv
  case hheapn =>
    show n + 1 ≤ (t.heap ++ [v]).length
    simp only [List.length_append, List.length_cons, List.length_nil]
    omega
  case hρband =>
    intro k hk
    show n + 1 ≤ (ρ ++ [L]).getD k 0 ∧ (ρ ++ [L]).getD k 0 < (t.heap ++ [v]).length
    simp only [List.length_append, List.length_cons, List.length_nil]
    by_cases hkK : k < K
    · rw [List.getD_append _ _ _ _ (by omega)]
      have := hρband k hkK
      omega
    · have hkeq : k = K := by omega
      subst hkeq
      rw [List.getD_append_right _ _ _ _ (by omega), hρlen]
      simp only [Nat.sub_self, List.getD_cons_zero]
      omega
  case hρmono => exact pairwise_append_lt ρ _ hρmono hmem
  case hVLmono =>
    show List.Pairwise (· < ·) (t.values ++ [L])
    exact pairwise_append_lt _ _ hVLmono hVLlt
  case hVLlt =>
    intro w hw
    show w < (t.heap ++ [v]).length
    simp only [List.mem_append, List.mem_singleton] at hw
    simp only [List.length_append, List.length_cons, List.length_nil]
    rcases hw with hw | hw
    · have := hVLlt w hw; omega
    · omega
  case hVLne =>
    show 1 ≤ (t.values ++ [L]).length
    simp only [List.length_append, List.length_cons, List.length_nil]
    omega
  case hheap =>
    intro c hc
    cases c with
    | pcell i =>
      have hi : i < n := hc
      show readMem (t.heap ++ [v]) i = cupd ah (.rcell K) v (.pcell i)
      rw [readMem_append_lt _ _ _ (by omega)]
      rw [show readMem t.heap i = ah (.pcell i) from hheap (.pcell i) hi]
      simp [cupd]
    | rcell k =>
      by_cases hkK : k < K
      · show readMem (t.heap ++ [v]) ((ρ ++ [L]).getD k 0)
            = cupd ah (.rcell K) v (.rcell k)
        rw [List.getD_append _ _ _ _ (by omega)]
        rw [readMem_append_lt _ _ _ (hρband k hkK).2]
        rw [show readMem t.heap (ρ.getD k 0) = ah (.rcell k) from
          hheap (.rcell k) hkK]
        simp [cupd, show k ≠ K from by omega]
      · have hkeq : k = K := by have : k < K + 1 := hc; omega
        subst hkeq
        show readMem (t.heap ++ [v]) ((ρ ++ [L]).getD k 0)
            = cupd ah (.rcell k) v (.rcell k)
        rw [List.getD_append_right _ _ _ _ (by omega), hρlen]
        simp only [Nat.sub_self, List.getD_cons_zero]
        rw [readMem, hLdef, List.getD_append_right _ _ _ _ (by omega)]
        simp [cupd]
  case hplaces =>
    obtain ⟨W, hW⟩ := hplaces
    exact ⟨W ++ L :: px, by
      show t.places ++ L :: px = (n :: paramAddrs n) ++ (W ++ L :: px)
      rw [hW, List.append_assoc]⟩
  case hplen =>
    show (t.places ++ L :: px).length = n + 1 + pwA (A ++ [.aarith op (.rcell K) acs])
    rw [pwA_append]
    simp only [List.length_append, List.length_cons, pwA]
    omega
  case helen =>
    show t.elementals.length = ewA (A ++ [.aarith op (.rcell K) acs])
    rw [ewA_append]
    simp only [ewA]
    omega
  case hrecords =>
    obtain ⟨R, hR, hTS, hSV⟩ := hrecords
    refine ⟨R ++ [{ typ := typArithmetic, op := op, p := t.places.length,
                    v := 0 }], ?_, ?_, ?_⟩
    · show t.records ++ _ = _
      rw [hR]
      simp
    · have hpart1 := TraceStruct_ext n K (K + 1) ρ (ρ ++ [L])
        t.places t.values (t.places ++ L :: px) (t.values ++ [L])
        t.elementals t.elementals t.heap.length (t.heap.length + 1)
        t.values.length t.values.length R A (n + 1) 1 0 hTS
        (by omega)
        (fun k hk => List.getD_append _ _ _ _ (by omega))
        (fun k hk1 hk2 => by
          have hkeq : k = K := by omega
          subst hkeq
          rw [List.getD_append_right _ _ _ _ (by omega), hρlen]
          simp [hLdef])
        ⟨L :: px, rfl⟩ ⟨[L], rfl⟩ ⟨[], by simp⟩
        (by omega) (le_refl _) (le_refl _)
      have hpart2 : TraceStruct n (K + 1) (ρ ++ [L]) (t.places ++ L :: px)
          (t.values ++ [L]) t.elementals (t.heap.length + 1)
          (t.values.length + 1)
          [{ typ := typArithmetic, op := op, p := t.places.length, v := 0 }]
          [.aarith op (.rcell K) acs]
          ((n + 1) + pwA A) t.values.length (0 + ewA A) := by
        rw [TraceStruct]
        refine ⟨?_, ?_, ?_, ?_, ?_, ?_, ?_, ?_⟩
        · have : t.places.length = n + 1 + pwA A := hplen
          rw [this]
        · rcases hopar with ⟨ho, hl⟩ | ⟨ho, hl⟩
          · exact .inl ⟨ho, by omega⟩
          · exact .inr ⟨ho, by omega⟩
        · show K < K + 1
          omega
        · exact fun c hc => validCell_mono _ _ _ (by omega) _ (hacs c hc)
        · simp only [List.length_append, List.length_cons]
          omega
        · have hplPL : t.places ++ L :: px = t.places ++ [L] ++ px := by simp
          rw [hplPL, ← hplen, List.append_assoc,
            List.getD_append_right _ _ _ _ (le_refl _)]
          simp only [Nat.sub_self, List.getD_cons_zero]
          show L = (ρ ++ [L]).getD K 0
          rw [List.getD_append_right _ _ _ _ (by omega), hρlen]
          simp
        · intro j hj
          have hplPL : t.places ++ L :: px = t.places ++ [L] ++ px := by simp
          have hidx : n + 1 + pwA A + 1 + j = t.places.length + [L].length + j := by
            simp only [List.length_cons, List.length_nil]
            omega
          rw [hplPL, hidx, getD_append2_right _ _ _ _ _ (by omega)]
          rw [hgd j hj]
          exact (addrOf_agree ρ (ρ ++ [L]) n K
            (fun k hk => List.getD_append ρ [L] 0 k (by omega))
            _ (hacs _ (getD_mem _ _ _ hj))).symm
        · rw [TraceStruct]
          trivial
      have hcomb := TraceStruct_append n (K + 1) (ρ ++ [L])
        (t.places ++ L :: px) (t.values ++ [L]) t.elementals
        (t.heap.length + 1) t.values.length (t.values.length + 1)
        R [{ typ := typArithmetic, op := op, p := t.places.length, v := 0 }]
        A [.aarith op (.rcell K) acs] (n + 1) 1 0 t.values.length
        hpart1 hpart2 (by omega) (le_refl _) (by omega)
      show TraceStruct n (K + 1) (ρ ++ [L]) (t.places ++ L :: px)
        (t.values ++ [L]) t.elementals (t.heap ++ [v]).length
        (t.values ++ [L]).length _ _ (n + 1) 1 0
      simp only [List.length_append, List.length_cons, List.length_nil]
      exact hcomb
    · have hext := TraceSaved_ext n K ρ t.places t.values (t.values ++ [L])
        t.elementals t.heap.length t.values.length R A (n + 1) 1 0
        t.heap (t.heap ++ [v]) hTS hSV ⟨[L], rfl⟩ (le_refl _)
        (fun a ha _ => readMem_append_lt _ _ _ ha)
      have hsing : TraceSaved (t.heap ++ [v]) (t.values ++ [L])
          [{ typ := typArithmetic, op := op, p := t.places.length, v := 0 }]
          [.aarith op (.rcell K) acs] := by
        rw [TraceSaved]
        exact ⟨trivial, by rw [TraceSaved]; trivial⟩
      exact TraceSaved_append _ _ _ _ _ _ hext hsing


theorem runCmd_step_cassign (env : FuncEnv) (n : Nat) (xs : List ℚ) (t : Tape)
    (ρ : List Nat) (ah : CellMap) (K : Nat) (A : List AAct) (tgt src : Ref)
    (hI : FInv env n xs t ρ ah K A)
    (hwf : cmdWF env n K (.cassign tgt src)) :
    ∃ t2 ρ2, runCmd env (paramAddrs n) (.cassign tgt src) t ρ = .ok (t2, ρ2) ∧
      FInv env n xs t2 ρ2 (cupd ah (toCell tgt) (ah (toCell src))) K
        (A ++ [.aassign [toCell tgt] [toCell src] [ah (toCell tgt)]]) := by
  obtain ⟨hρlen, hcstack, hadj, hadv, hheapn, hρband, hρmono, hVLmono, hVLlt,
    hVLne, hheap, hplaces, hplen, helen, hrecords⟩ := hI
  obtain ⟨htgt, hsrc⟩ := hwf
  set tc := toCell tgt with htcdef
  set sc := toCell src with hscdef
  have htcv : validCell n K tc := toCell_refWF n K tgt htgt
  have hscv : validCell n K sc := toCell_refWF n K src hsrc
  have haddr : ∀ c, validCell n K c → addrOf ρ c < t.heap.length :=
    addrOf_lt n K ρ _ hheapn (fun k hk => (hρband k hk).2)
  have hinj := addrOf_inj n K ρ hρlen (fun k hk => (hρband k hk).1) hρmono
  have hrest : resolve (paramAddrs n) ρ tgt = addrOf ρ tc :=
    resolve_addrOf n ρ tgt K htgt
  have hress : resolve (paramAddrs n) ρ src = addrOf ρ sc :=
    resolve_addrOf n ρ src K hsrc
  have hq : readMem t.heap (addrOf ρ tc) = ah tc := hheap _ htcv
  have hreads : readMem (t.heap ++ [readMem t.heap (addrOf ρ tc)]) (addrOf ρ sc)
      = ah sc := by
    rw [readMem_append_lt _ _ _ (haddr _ hscv)]
    exact hheap _ hscv
  set L := t.heap.length with hLdef
  refine ⟨{ t with
            places := t.places ++ [addrOf ρ tc, addrOf ρ sc],
            values := t.values ++ [L],
            heap := writeMem (t.heap ++ [ah tc]) (addrOf ρ tc) (ah sc),
            records := t.records ++ [{ typ := typAssignment, op := 1,
                                       p := t.places.length,
                                       v := t.values.length }] },
    ρ, ?_, ?_⟩
  · show runCmd env (paramAddrs n) (.cassign tgt src) t ρ = _
    simp only [runCmd, hrest, hress, Assignment]
    rw [hreads, hq]
  have hheap2len : (writeMem (t.heap ++ [ah tc]) (addrOf ρ tc) (ah sc)).length
      = t.heap.length + 1 := by
    rw [writeMem_length]
    simp
  have hkeep : ∀ a, a < L → (∀ c, validCell n K c → a ≠ addrOf ρ c) →
      readMem (writeMem (t.heap ++ [ah tc]) (addrOf ρ tc) (ah sc)) a
        = readMem t.heap a := by
    intro a ha hnd
    rw [readMem_writeMem_ne _ _ _ _ (hnd tc htcv)]
    exact readMem_append_lt _ _ _ ha
  constructor
  case hρlen => exact hρlen
  case hcstack => exact hcstack
  case hadj => exact hadj
  case hadv => exact hadv
  case hheapn => rw [hheap2len]; omega
  case hρband =>
    intro k hk
    rw [hheap2len]
    have := hρband k hk
    omega
  case hρmono => exact hρmono
  case hVLmono => exact pairwise_append_lt _ _ hVLmono hVLlt
  case hVLlt =>
    intro w hw
    rw [hheap2len]
    simp only [List.mem_append, List.mem_singleton] at hw
    rcases hw with hw | hw
    · have := hVLlt w hw; omega
    · omega
  case hVLne => simp only [List.length_append, List.length_cons, List.length_nil]; omega
  case hheap =>
    intro c hc
    by_cases hctc : c = tc
    · show readMem (writeMem (t.heap ++ [ah tc]) (addrOf ρ tc) (ah sc)) (addrOf ρ c)
          = cupd ah tc (ah sc) c
      rw [hctc, readMem_writeMem_self _ _ _ (by
        simp only [List.length_append, List.length_cons, List.length_nil]
        have := haddr tc htcv
        omega)]
      simp [cupd]
    · show readMem (writeMem (t.heap ++ [ah tc]) (addrOf ρ tc) (ah sc)) (addrOf ρ c)
          = cupd ah tc (ah sc) c
      rw [readMem_writeMem_ne _ _ _ _ (fun he => hctc (hinj c tc hc htcv he))]
      rw [readMem_append_lt _ _ _ (haddr c hc), hheap c hc]
      simp [cupd, hctc]
  case hplaces =>
    obtain ⟨W, hW⟩ := hplaces
    exact ⟨W ++ [addrOf ρ tc, addrOf ρ sc], by
      show t.places ++ [addrOf ρ tc, addrOf ρ sc] = _
      rw [hW, List.append_assoc]⟩
  case hplen =>
    show (t.places ++ [addrOf ρ tc, addrOf ρ sc]).length
        = n + 1 + pwA (A ++ [.aassign [tc] [sc] [ah tc]])
    rw [pwA_append]
    simp only [List.length_append, List.length_cons, List.length_nil, pwA]
    omega
  case helen =>
    show t.elementals.length = ewA (A ++ [.aassign [tc] [sc] [ah tc]])
    rw [ewA_append]
    simp only [ewA]
    omega
  case hrecords =>
    obtain ⟨R, hR, hTS, hSV⟩ := hrecords
    refine ⟨R ++ [{ typ := typAssignment, op := 1, p := t.places.length,
                    v := t.values.length }], ?_, ?_, ?_⟩
    · show t.records ++ _ = _
      rw [hR]
      simp
    · have hpart1 := TraceStruct_ext n K K ρ ρ
        t.places t.values (t.places ++ [addrOf ρ tc, addrOf ρ sc])
        (t.values ++ [L]) t.elementals t.elementals t.heap.length
        (t.heap.length + 1) t.values.length t.values.length R A (n + 1) 1 0 hTS
        (le_refl _) (fun k hk => rfl) (fun k hk1 hk2 => by omega)
        ⟨[addrOf ρ tc, addrOf ρ sc], rfl⟩ ⟨[L], rfl⟩ ⟨[], by simp⟩
        (by omega) (le_refl _) (le_refl _)
      have hpart2 : TraceStruct n K ρ
          (t.places ++ [addrOf ρ tc, addrOf ρ sc]) (t.values ++ [L])
          t.elementals (t.heap.length + 1) (t.values.length + 1)
          [{ typ := typAssignment, op := 1, p := t.places.length,
             v := t.values.length }]
          [.aassign [tc] [sc] [ah tc]]
          ((n + 1) + pwA A) t.values.length (0 + ewA A) := by
        rw [TraceStruct]
        refine ⟨t.values.length, 1, ?_, le_refl _, by simp, le_refl _, rfl, rfl,
          ?_, ?_, ?_, ?_, ?_, ?_, ?_⟩
        · have h1 : t.places.length = n + 1 + pwA A := hplen
          simp [h1]
        · intro c hc
          simp only [List.mem_singleton] at hc
          subst hc
          exact htcv
        · intro c hc
          simp only [List.mem_singleton] at hc
          subst hc
          exact hscv
        · simp only [List.length_append, List.length_cons, List.length_nil]
          omega
        · intro j hj
          have hj0 : j = 0 := by
            simp only [List.length_cons, List.length_nil] at hj
            omega
          subst hj0
          rw [← hplen]
          simp only [Nat.add_zero, List.getD_cons_zero]
          rw [List.getD_append_right _ _ _ _ (le_refl _)]
          simp
        · intro j hj
          have hj0 : j = 0 := by
            simp only [List.length_cons, List.length_nil] at hj
            omega
          subst hj0
          rw [← hplen]
          simp only [Nat.add_zero, List.getD_cons_zero, List.length_cons,
            List.length_nil]
          rw [List.getD_append_right _ _ _ _ (by omega)]
          have : t.places.length + 1 - t.places.length = 1 := by omega
          rw [this]
          simp
        · intro j hj
          have hj0 : j = 0 := by
            simp only [List.length_cons, List.length_nil] at hj
            omega
          subst hj0
          rw [Nat.add_zero, List.getD_append_right _ _ _ _ (le_refl _)]
          simp only [Nat.sub_self, List.getD_cons_zero]
          constructor
          · omega
          · intro c hc
            have := haddr c hc
            omega
        · rw [TraceStruct]
          trivial
      have hcomb := TraceStruct_append n K ρ
        (t.places ++ [addrOf ρ tc, addrOf ρ sc]) (t.values ++ [L])
        t.elementals (t.heap.length + 1) t.values.length (t.values.length + 1)
        R [{ typ := typAssignment, op := 1, p := t.places.length,
             v := t.values.length }]
        A [.aassign [tc] [sc] [ah tc]] (n + 1) 1 0 t.values.length
        hpart1 hpart2 (by omega) (le_refl _) (by omega)
      show TraceStruct n K ρ (t.places ++ [addrOf ρ tc, addrOf ρ sc])
        (t.values ++ [L]) t.elementals
        (writeMem (t.heap ++ [ah tc]) (addrOf ρ tc) (ah sc)).length
        (t.values ++ [L]).length _ _ (n + 1) 1 0
      rw [hheap2len]
      simp only [List.length_append, List.length_cons, List.length_nil]
      exact hcomb
    · have hext := TraceSaved_ext n K ρ t.places t.values (t.values ++ [L])
        t.elementals t.heap.length t.values.length R A (n + 1) 1 0
        t.heap (writeMem (t.heap ++ [ah tc]) (addrOf ρ tc) (ah sc)) hTS hSV
        ⟨[L], rfl⟩ (le_refl _) hkeep
      have hsing : TraceSaved
          (writeMem (t.heap ++ [ah tc]) (addrOf ρ tc) (ah sc)) (t.values ++ [L])
          [{ typ := typAssignment, op := 1, p := t.places.length,
             v := t.values.length }]
          [.aassign [tc] [sc] [ah tc]] := by
        rw [TraceSaved]
        refine ⟨?_, by rw [TraceSaved]; trivial⟩
        intro j hj
        have hj0 : j = 0 := by
          simp only [List.length_cons, List.length_nil] at hj
          omega
        subst hj0
        show readMem (writeMem (t.heap ++ [ah tc]) (addrOf ρ tc) (ah sc))
          ((t.values ++ [L]).getD (t.values.length + 0) 0) = _
        rw [Nat.add_zero, List.getD_append_right _ _ _ _ (le_refl _)]
        simp only [Nat.sub_self, List.getD_cons_zero]
        rw [readMem_writeMem_ne _ _ _ _ (by
          have := haddr tc htcv
          omega)]
        rw [readMem, hLdef, List.getD_append_right _ _ _ _ (by omega)]
        simp
      exact TraceSaved_append _ _ _ _ _ _ hext hsing


theorem pairwise_lt_range' (s m : Nat) :
    List.Pairwise (· < ·) (List.range' s m) := by
  induction m generalizing s with
  | zero => simp
  | succ m ih =>
    rw [List.range'_succ]
    refine List.Pairwise.cons ?_ (ih (s + 1))
    intro b hb
    have := List.mem_range'_1.mp hb
    omega

theorem Elemental_shape (env : FuncEnv) (f : FuncId) (px : List Nat) (t : Tape)
    (g : EGrad) (hg : env.grad f = some g)
    (hpx : ∀ p ∈ px, p < t.heap.length) :
    Elemental env f px t = .ok
      ({ t with
         heap := t.heap ++ env.impl f (px.map (readMem t.heap))
           :: px.map (readMem t.heap),
         places := t.places ++ t.heap.length :: px,
         values := t.values ++ t.heap.length
           :: List.range' (t.heap.length + 1) px.length,
         elementals := t.elementals ++ [{ n := px.length, g := g }],
         records := t.records ++ [{ typ := typElemental,
                                    op := t.elementals.length,
                                    p := t.places.length,
                                    v := t.values.length + 1 }] },
       t.heap.length) := by
  have hsave := saveVals_spec px
    { t with heap := t.heap ++ [(0 : ℚ)],
             values := t.values ++ [t.heap.length],
             places := t.places ++ t.heap.length :: px }
    (by
      intro p hp
      simp only [List.length_append, List.length_cons, List.length_nil]
      have := hpx p hp
      omega)
  have hmap0 : px.map (readMem (t.heap ++ [(0 : ℚ)])) = px.map (readMem t.heap) :=
    List.map_congr_left (fun q hq => readMem_append_lt _ _ _ (hpx q hq))
  have hmap4 : px.map (readMem (t.heap ++ [(0 : ℚ)] ++ px.map (readMem t.heap)))
      = px.map (readMem t.heap) := by
    rw [List.append_assoc]
    exact List.map_congr_left (fun q hq => readMem_append_lt _ _ _ (hpx q hq))
  have hw : writeMem (t.heap ++ [(0 : ℚ)] ++ px.map (readMem t.heap))
      t.heap.length (env.impl f (px.map (readMem t.heap)))
      = t.heap ++ env.impl f (px.map (readMem t.heap))
          :: px.map (readMem t.heap) := by
    rw [List.append_assoc]
    exact writeMem_append_mid t.heap 0 _ _
  simp only [Elemental, Value, ElementalGradient, hg]
  rw [hsave]
  simp only [hmap0, hmap4, List.length_append, List.length_cons,
    List.length_nil, hw]
  refine congrArg Except.ok (Prod.ext ?_ rfl)
  refine congrArg _ ?_
  congr 1
  simp


theorem runCmd_step_celem (env : FuncEnv) (n : Nat) (xs : List ℚ) (t : Tape)
    (ρ : List Nat) (ah : CellMap) (K : Nat) (A : List AAct) (f : FuncId)
    (args : List Ref) (hI : FInv env n xs t ρ ah K A)
    (hwf : cmdWF env n K (.celem f args)) :
    ∃ t2 ρ2, runCmd env (paramAddrs n) (.celem f args) t ρ = .ok (t2, ρ2) ∧
      FInv env n xs t2 ρ2
        (cupd ah (.rcell K) (env.impl f ((args.map toCell).map ah))) (K + 1)
        (A ++ [.aelem ((env.grad f).getD (fun _ _ => [])) (.rcell K)
          (args.map toCell) ((args.map toCell).map ah)]) := by
  obtain ⟨hρlen, hcstack, hadj, hadv, hheapn, hρband, hρmono, hVLmono, hVLlt,
    hVLne, hheap, hplaces, hplen, helen, hrecords⟩ := hI
  obtain ⟨hgs, hargs⟩ := hwf
  obtain ⟨g0, hg⟩ := Option.isSome_iff_exists.mp hgs
  have hgd0 : (env.grad f).getD (fun _ _ => []) = g0 := by rw [hg]; rfl
  set px := args.map (resolve (paramAddrs n) ρ) with hpxdef
  set acs := args.map toCell with hacsdef
  have hpxe : px = acs.map (addrOf ρ) := map_resolve_eq n K ρ args hargs
  have hlacs : acs.length = args.length := by rw [hacsdef]; simp
  have hlpx : px.length = acs.length := by rw [hpxe]; simp
  have hacs : ∀ c ∈ acs, validCell n K c := by
    intro c hc
    rw [hacsdef] at hc
    simp only [List.mem_map] at hc
    obtain ⟨a, ha, rfl⟩ := hc
    exact toCell_refWF n K a (hargs a ha)
  have haddr : ∀ c, validCell n K c → addrOf ρ c < t.heap.length :=
    addrOf_lt n K ρ _ hheapn (fun k hk => (hρband k hk).2)
  have hpxlt : ∀ p ∈ px, p < t.heap.length := by
    intro p hp
    rw [hpxe] at hp
    simp only [List.mem_map] at hp
    obtain ⟨c, hc, rfl⟩ := hp
    exact haddr c (hacs c hc)
  have hmem : ∀ a ∈ ρ, a < t.heap.length :=
    band_mem ρ t.heap.length (fun k hk =>
      (hρband k (by rw [hρlen] at hk; exact hk)).2)
  have hsh := Elemental_shape env f px t g0 hg hpxlt
  have hmapeq : px.map (readMem t.heap) = acs.map ah := by
    rw [hpxe]
    exact map_read_eq t.heap ah ρ n K acs hacs hheap
  rw [hmapeq] at hsh
  have hgd : ∀ j, j < acs.length →
      px.getD j 0 = addrOf ρ (acs.getD j (.rcell 0)) := by
    intro j hj
    rw [hpxe]
    exact getD_map_lt _ _ _ hj _ (.rcell 0)
  set vals := acs.map ah with hvalsdef
  have hlvals : vals.length = acs.length := by rw [hvalsdef]; simp
  set fv := env.impl f vals with hfvdef
  set L := t.heap.length with hLdef
  set m := px.length with hmdef
  have haddr2 : ∀ c, validCell n (K + 1) c → addrOf (ρ ++ [L]) c < L + 1 := by
    intro c hc
    cases c with
    | pcell i =>
      have : i < n := hc
      show i < L + 1
      omega
    | rcell k =>
      show (ρ ++ [L]).getD k 0 < L + 1
      by_cases hkK : k < K
      · rw [List.getD_append _ _ _ _ (by omega)]
        have := hρband k hkK
        omega
      · have hkeq : k = K := by have : k < K + 1 := hc; omega
        subst hkeq
        rw [List.getD_append_right _ _ _ _ (by omega), hρlen]
        simp
  refine ⟨{ t with
            heap := t.heap ++ fv :: vals,
            places := t.places ++ L :: px,
            values := t.values ++ L :: List.range' (L + 1) m,
            elementals := t.elementals ++ [(⟨m, g0⟩ : Elem)],
            records := t.records ++ [{ typ := typElemental,
                                       op := t.elementals.length,
                                       p := t.places.length,
                                       v := t.values.length + 1 }] },
    ρ ++ [L], ?_, ?_⟩
  · show runCmd env (paramAddrs n) (.celem f args) t ρ = _
    simp only [runCmd]
    rw [← hpxdef, hsh]
  have hrange : L :: List.range' (L + 1) m = List.range' L (m + 1) :=
    (List.range'_succ L m 1).symm
  constructor
  case hρlen => simp only [List.length_append, List.length_cons, List.length_nil]; omega
  case hcstack => exact hcstack
  case hadj => exact hadj
  case hadv => exact hadv
  case hheapn =>
    show n + 1 ≤ (t.heap ++ fv :: vals).length
    simp only [List.length_append, List.length_cons]
    omega
  case hρband =>
    intro k hk
    show n + 1 ≤ (ρ ++ [L]).getD k 0 ∧ (ρ ++ [L]).getD k 0 < (t.heap ++ fv :: vals).length
    simp only [List.length_append, List.length_cons]
    by_cases hkK : k < K
    · rw [List.getD_append _ _ _ _ (by omega)]
      have := hρband k hkK
      omega
    · have hkeq : k = K := by omega
      subst hkeq
      rw [List.getD_append_right _ _ _ _ (by omega), hρlen]
      simp only [Nat.sub_self, List.getD_cons_zero]
      omega
  case hρmono => exact pairwise_append_lt ρ _ hρmono hmem
  case hVLmono =>
    show List.Pairwise (· < ·) (t.values ++ L :: List.range' (L + 1) m)
    rw [hrange]
    refine List.pairwise_append.mpr ⟨hVLmono, pairwise_lt_range' _ _, ?_⟩
    intro a ha b hb
    have hb2 := List.mem_range'_1.mp hb
    have := hVLlt a ha
    omega
  case hVLlt =>
    intro w hw
    show w < (t.heap ++ fv :: vals).length
    simp only [List.mem_append, List.mem_cons] at hw
    simp only [List.length_append, List.length_cons]
    have hlv : vals.length = m := by rw [hlvals, ← hlpx]
    rcases hw with hw | hw | hw
    · have := hVLlt w hw; omega
    · omega
    · have := List.mem_range'_1.mp hw
      omega
  case hVLne => simp only [List.length_append, List.length_cons]; omega
  case hheap =>
    intro c hc
    cases c with
    | pcell i =>
      have hi : i < n := hc
      show readMem (t.heap ++ fv :: vals) i = cupd ah (.rcell K) fv (.pcell i)
      rw [readMem_append_lt _ _ _ (by omega)]
      rw [show readMem t.heap i = ah (.pcell i) from hheap (.pcell i) hi]
      simp [cupd]
    | rcell k =>
      by_cases hkK : k < K
      · show readMem (t.heap ++ fv :: vals) ((ρ ++ [L]).getD k 0)
            = cupd ah (.rcell K) fv (.rcell k)
        rw [List.getD_append _ _ _ _ (by omega)]
        rw [readMem_append_lt _ _ _ (hρband k hkK).2]
        rw [show readMem t.heap (ρ.getD k 0) = ah (.rcell k) from
          hheap (.rcell k) hkK]
        simp [cupd, show k ≠ K from by omega]
      · have hkeq : k = K := by have : k < K + 1 := hc; omega
        subst hkeq
        show readMem (t.heap ++ fv :: vals) ((ρ ++ [L]).getD k 0)
            = cupd ah (.rcell k) fv (.rcell k)
        rw [List.getD_append_right _ _ _ _ (by omega), hρlen]
        simp only [Nat.sub_self, List.getD_cons_zero]
        rw [readMem, hLdef, List.getD_append_right _ _ _ _ (by omega)]
        simp [cupd]
  case hplaces =>
    obtain ⟨W, hW⟩ := hplaces
    exact ⟨W ++ L :: px, by
      show t.places ++ L :: px = _
      rw [hW, List.append_assoc]⟩
  case hplen =>
    show (t.places ++ L :: px).length
        = n + 1 + pwA (A ++ [.aelem ((env.grad f).getD (fun _ _ => []))
            (.rcell K) acs vals])
    rw [pwA_append]
    simp only [List.length_append, List.length_cons, pwA]
    have : px.length = acs.length := hlpx
    omega
  case helen =>
    show (t.elementals ++ [(⟨m, g0⟩ : Elem)]).length
        = ewA (A ++ [.aelem ((env.grad f).getD (fun _ _ => []))
            (.rcell K) acs vals])
    rw [ewA_append]
    simp only [List.length_append, List.length_cons, List.length_nil, ewA]
    omega
  case hrecords =>
    obtain ⟨R, hR, hTS, hSV⟩ := hrecords
    refine ⟨R ++ [{ typ := typElemental, op := t.elementals.length,
                    p := t.places.length, v := t.values.length + 1 }],
      ?_, ?_, ?_⟩
    · show t.records ++ _ = _
      rw [hR]
      simp
    · have hpart1 := TraceStruct_ext n K (K + 1) ρ (ρ ++ [L])
        t.places t.values (t.places ++ L :: px)
        (t.values ++ L :: List.range' (L + 1) m)
        t.elementals (t.elementals ++ [(⟨m, g0⟩ : Elem)]) t.heap.length
        (t.heap.length + 1 + m) t.values.length t.values.length
        R A (n + 1) 1 0 hTS
        (by omega)
        (fun k hk => List.getD_append _ _ _ _ (by omega))
        (fun k hk1 hk2 => by
          have hkeq : k = K := by omega
          subst hkeq
          rw [List.getD_append_right _ _ _ _ (by omega), hρlen]
          simp [hLdef])
        ⟨L :: px, rfl⟩ ⟨L :: List.range' (L + 1) m, rfl⟩
        ⟨[(⟨m, g0⟩ : Elem)], rfl⟩
        (by omega) (le_refl _) (le_refl _)
      have hpart2 : TraceStruct n (K + 1) (ρ ++ [L]) (t.places ++ L :: px)
          (t.values ++ L :: List.range' (L + 1) m)
          (t.elementals ++ [(⟨m, g0⟩ : Elem)]) (t.heap.length + 1 + m)
          (t.values.length + 1 + m)
          [{ typ := typElemental, op := t.elementals.length,
             p := t.places.length, v := t.values.length + 1 }]
          [.aelem ((env.grad f).getD (fun _ _ => [])) (.rcell K) acs vals]
          ((n + 1) + pwA A) t.values.length (0 + ewA A) := by
        rw [TraceStruct]
        refine ⟨t.values.length + 1, ?_, by omega, ?_, ?_, ?_, ?_, ?_, ?_, ?_,
          ?_, ?_, ?_, ?_, ?_⟩
        · have h1 : t.places.length = n + 1 + pwA A := hplen
          have h2 : t.elementals.length = 0 + ewA A := by
            rw [helen]; omega
          rw [h1, h2]
        · show t.values.length + 1 + acs.length ≤ t.values.length + 1 + m
          have : px.length = acs.length := hlpx
          omega
        · show vals.length = acs.length
          exact hlvals
        · show K < K + 1
          omega
        · exact fun c hc => validCell_mono _ _ _ (by omega) _ (hacs c hc)
        · show 0 + ewA A < (t.elementals ++ [(⟨m, g0⟩ : Elem)]).length
          simp only [List.length_append, List.length_cons, List.length_nil]
          omega
        · show ((t.elementals ++ [(⟨m, g0⟩ : Elem)]).getD (0 + ewA A)
              { n := 0, g := fun _ _ => [] }).n = acs.length
          rw [show 0 + ewA A = t.elementals.length from by rw [helen]; omega]
          rw [List.getD_append_right _ _ _ _ (le_refl _)]
          simp only [Nat.sub_self, List.getD_cons_zero]
          exact hlpx
        · show ((t.elementals ++ [(⟨m, g0⟩ : Elem)]).getD (0 + ewA A)
              { n := 0, g := fun _ _ => [] }).g
            = (env.grad f).getD (fun _ _ => [])
          rw [show 0 + ewA A = t.elementals.length from by rw [helen]; omega]
          rw [List.getD_append_right _ _ _ _ (le_refl _)]
          simp only [Nat.sub_self, List.getD_cons_zero]
          rw [hgd0]
        · show n + 1 + pwA A + 1 + acs.length ≤ (t.places ++ L :: px).length
          simp only [List.length_append, List.length_cons]
          have : px.length = acs.length := hlpx
          omega
        · show (t.places ++ L :: px).getD (n + 1 + pwA A) 0
            = addrOf (ρ ++ [L]) (.rcell K)
          rw [← hplen, List.getD_append_right _ _ _ _ (le_refl _)]
          simp only [Nat.sub_self, List.getD_cons_zero]
          show L = (ρ ++ [L]).getD K 0
          rw [List.getD_append_right _ _ _ _ (by omega), hρlen]
          simp
        · intro j hj
          have hplPL : t.places ++ L :: px = t.places ++ [L] ++ px := by simp
          have hidx : n + 1 + pwA A + 1 + j = t.places.length + [L].length + j := by
            simp only [List.length_cons, List.length_nil]
            omega
          rw [hplPL, hidx, getD_append2_right _ _ _ _ _ (by omega)]
          rw [hgd j hj]
          exact (addrOf_agree ρ (ρ ++ [L]) n K
            (fun k hk => List.getD_append ρ [L] 0 k (by omega))
            _ (hacs _ (getD_mem _ _ _ hj))).symm
        · intro j hj
          have hvlVL : t.values ++ L :: List.range' (L + 1) m
              = t.values ++ [L] ++ List.range' (L + 1) m := by simp
          have hidx : t.values.length + 1 + j
              = t.values.length + [L].length + j := by
            simp only [List.length_cons, List.length_nil]
          have hjm : j < m := by
            have : px.length = acs.length := hlpx
            omega
          rw [hvlVL, hidx, getD_append2_right _ _ _ _ _ (by simpa using hjm),
            getD_range' _ _ _ hjm]
          constructor
          · omega
          · intro c hc
            have := haddr2 c hc
            omega
        · rw [TraceStruct]
          trivial
      have hcomb := TraceStruct_append n (K + 1) (ρ ++ [L])
        (t.places ++ L :: px) (t.values ++ L :: List.range' (L + 1) m)
        (t.elementals ++ [(⟨m, g0⟩ : Elem)])
        (t.heap.length + 1 + m) t.values.length (t.values.length + 1 + m)
        R [{ typ := typElemental, op := t.elementals.length,
             p := t.places.length, v := t.values.length + 1 }]
        A [.aelem ((env.grad f).getD (fun _ _ => [])) (.rcell K) acs vals]
        (n + 1) 1 0 t.values.length
        hpart1 hpart2 (by omega) (le_refl _) (by omega)
      show TraceStruct n (K + 1) (ρ ++ [L]) (t.places ++ L :: px)
        (t.values ++ L :: List.range' (L + 1) m)
        (t.elementals ++ [(⟨m, g0⟩ : Elem)]) (t.heap ++ fv :: vals).length
        (t.values ++ L :: List.range' (L + 1) m).length _ _ (n + 1) 1 0
      have hlv : vals.length = m := by rw [hlvals, ← hlpx]
      simp only [List.length_append, List.length_cons, List.length_range', hlv]
      have h1 : t.heap.length + (m + 1) = t.heap.length + 1 + m := by omega
      have h2 : t.values.length + (m + 1) = t.values.length + 1 + m := by omega
      rw [h1, h2]
      exact hcomb
    · have hext := TraceSaved_ext n K ρ t.places t.values
        (t.values ++ L :: List.range' (L + 1) m)
        t.elementals t.heap.length t.values.length R A (n + 1) 1 0
        t.heap (t.heap ++ fv :: vals) hTS hSV
        ⟨L :: List.range' (L + 1) m, rfl⟩ (le_refl _)
        (fun a ha _ => readMem_append_lt _ _ _ ha)
      have hsing : TraceSaved (t.heap ++ fv :: vals)
          (t.values ++ L :: List.range' (L + 1) m)
          [{ typ := typElemental, op := t.elementals.length,
             p := t.places.length, v := t.values.length + 1 }]
          [.aelem ((env.grad f).getD (fun _ _ => [])) (.rcell K) acs vals] := by
        rw [TraceSaved]
        refine ⟨?_, by rw [TraceSaved]; trivial⟩
        intro j hj
        have hjm : j < m := by
          have : px.length = acs.length := hlpx
          omega
        have hvlVL : t.values ++ L :: List.range' (L + 1) m
            = t.values ++ [L] ++ List.range' (L + 1) m := by simp
        have hidx : t.values.length + 1 + j
            = t.values.length + [L].length + j := by
          simp only [List.length_cons, List.length_nil]
        show readMem (t.heap ++ fv :: vals)
          ((t.values ++ L :: List.range' (L + 1) m).getD
            (t.values.length + 1 + j) 0) = vals.getD j 0
        rw [hvlVL, hidx, getD_append2_right _ _ _ _ _ (by simpa using hjm),
          getD_range' _ _ _ hjm]
        rw [readMem, List.getD_append_right _ _ _ _ (by omega)]
        have hsub : L + 1 + j - t.heap.length = j + 1 := by
          rw [hLdef]; omega
        rw [hsub]
        simp
      exact TraceSaved_append _ _ _ _ _ _ hext hsing


theorem runCmd_step_cpassign (env : FuncEnv) (n : Nat) (xs : List ℚ) (t : Tape)
    (ρ : List Nat) (ah : CellMap) (K : Nat) (A : List AAct)
    (tgts srcs : List Ref) (hI : FInv env n xs t ρ ah K A)
    (hwf : cmdWF env n K (.cpassign tgts srcs)) :
    ∃ t2 ρ2, runCmd env (paramAddrs n) (.cpassign tgts srcs) t ρ
        = .ok (t2, ρ2) ∧
      FInv env n xs t2 ρ2
        (cupdSeq ah (tgts.map toCell) ((srcs.map toCell).map ah)) K
        (A ++ [.aassign (tgts.map toCell) (srcs.map toCell)
          ((tgts.map toCell).map ah)]) := by
  obtain ⟨hρlen, hcstack, hadj, hadv, hheapn, hρband, hρmono, hVLmono, hVLlt,
    hVLne, hheap, hplaces, hplen, helen, hrecords⟩ := hI
  obtain ⟨hlen, hrefs⟩ := hwf
  have hreft : ∀ a ∈ tgts, refWF n K a := fun a ha =>
    hrefs a (List.mem_append_left _ ha)
  have hrefs2 : ∀ a ∈ srcs, refWF n K a := fun a ha =>
    hrefs a (List.mem_append_right _ ha)
  set tps := tgts.map (resolve (paramAddrs n) ρ) with htpsdef
  set sps := srcs.map (resolve (paramAddrs n) ρ) with hspsdef
  set tcs := tgts.map toCell with htcsdef
  set scs := srcs.map toCell with hscsdef
  set k := tgts.length with hkdef
  have htpse : tps = tcs.map (addrOf ρ) := map_resolve_eq n K ρ tgts hreft
  have hspse : sps = scs.map (addrOf ρ) := map_resolve_eq n K ρ srcs hrefs2
  have hltcs : tcs.length = k := by rw [htcsdef]; simp
  have hlscs : scs.length = k := by rw [hscsdef, hkdef]; simp only [List.length_map]; omega
  have hltps : tps.length = k := by rw [htpse]; simp [hltcs]
  have hlsps : sps.length = k := by rw [hspse]; simp [hlscs]
  have htcsv : ∀ c ∈ tcs, validCell n K c := by
    intro c hc
    rw [htcsdef] at hc
    simp only [List.mem_map] at hc
    obtain ⟨a, ha, rfl⟩ := hc
    exact toCell_refWF n K a (hreft a ha)
  have hscsv : ∀ c ∈ scs, validCell n K c := by
    intro c hc
    rw [hscsdef] at hc
    simp only [List.mem_map] at hc
    obtain ⟨a, ha, rfl⟩ := hc
    exact toCell_refWF n K a (hrefs2 a ha)
  have haddr : ∀ c, validCell n K c → addrOf ρ c < t.heap.length :=
    addrOf_lt n K ρ _ hheapn (fun k2 hk2 => (hρband k2 hk2).2)
  have hinj := addrOf_inj n K ρ hρlen (fun k2 hk2 => (hρband k2 hk2).1) hρmono
  have htpslt : ∀ p ∈ tps, p < t.heap.length := by
    intro p hp
    rw [htpse] at hp
    simp only [List.mem_map] at hp
    obtain ⟨c, hc, rfl⟩ := hp
    exact haddr c (htcsv c hc)
  have hspslt : ∀ p ∈ sps, p < t.heap.length := by
    intro p hp
    rw [hspse] at hp
    simp only [List.mem_map] at hp
    obtain ⟨c, hc, rfl⟩ := hp
    exact haddr c (hscsv c hc)
  have hsh := ParallelAssignment_shape tps sps t (by rw [hltps, hlsps])
    (by
      intro p hp
      rcases List.mem_append.mp hp with hp | hp
      · exact htpslt p hp
      · exact hspslt p hp)
  have htmapeq : tps.map (readMem t.heap) = tcs.map ah := by
    rw [htpse]
    exact map_read_eq t.heap ah ρ n K tcs htcsv hheap
  have hsmapeq : sps.map (readMem t.heap) = scs.map ah := by
    rw [hspse]
    exact map_read_eq t.heap ah ρ n K scs hscsv hheap
  rw [htmapeq, hsmapeq] at hsh
  set tmap := tcs.map ah with htmapdef
  set smap := scs.map ah with hsmapdef
  have hltmap : tmap.length = k := by rw [htmapdef]; simp [hltcs]
  have hlsmap : smap.length = k := by rw [hsmapdef]; simp [hlscs]
  set L := t.heap.length with hLdef
  set V := t.values.length with hVdef
  have hmapapp : (tgts ++ srcs).map (resolve (paramAddrs n) ρ) = tps ++ sps := by
    rw [htpsdef, hspsdef, List.map_append]
  have hbiglen : (t.heap ++ tmap ++ smap).length = L + k + k := by
    simp only [List.length_append, hltmap, hlsmap]
  have hheap2len : (writeList (t.heap ++ tmap ++ smap) tps smap).length
      = L + k + k := by
    rw [writeList_length, hbiglen]
  have hbase : ∀ c, validCell n K c →
      readMem (t.heap ++ tmap ++ smap) (addrOf ρ c) = ah c := by
    intro c hc
    rw [List.append_assoc, readMem_append_lt _ _ _ (haddr c hc)]
    exact hheap c hc
  have hkeep : ∀ a, a < L → (∀ c, validCell n K c → a ≠ addrOf ρ c) →
      readMem (writeList (t.heap ++ tmap ++ smap) tps smap) a
        = readMem t.heap a := by
    intro a ha hnd
    rw [writeList_preserve _ _ _ _ (by
      intro hmem2
      rw [htpse] at hmem2
      simp only [List.mem_map] at hmem2
      obtain ⟨c, hc, he⟩ := hmem2
      exact hnd c (htcsv c hc) he.symm)]
    rw [List.append_assoc, readMem_append_lt _ _ _ ha]
  have hsaveread : ∀ j, j < k →
      readMem (writeList (t.heap ++ tmap ++ smap) tps smap) (L + j)
        = tmap.getD j 0 := by
    intro j hj
    rw [writeList_preserve _ _ _ _ (by
      intro hmem2
      have := htpslt _ hmem2
      omega)]
    rw [readMem, getD_append2_mid _ _ _ _ _ (by rw [hltmap]; exact hj)]
  refine ⟨{ t with
            places := t.places ++ tps ++ sps,
            values := t.values ++ List.range' L k ++ List.range' (L + k) k,
            heap := writeList (t.heap ++ tmap ++ smap) tps smap,
            records := t.records ++ [{ typ := typAssignment, op := k,
                                       p := t.places.length,
                                       v := t.values.length }] },
    ρ, ?_, ?_⟩
  · show runCmd env (paramAddrs n) (.cpassign tgts srcs) t ρ = _
    simp only [runCmd]
    rw [hmapapp, hsh]
    rw [show tps.length = k from hltps, show sps.length = k from hlsps]
  constructor
  case hρlen => exact hρlen
  case hcstack => exact hcstack
  case hadj => exact hadj
  case hadv => exact hadv
  case hheapn => rw [hheap2len]; omega
  case hρband =>
    intro k2 hk2
    rw [hheap2len]
    have := hρband k2 hk2
    omega
  case hρmono => exact hρmono
  case hVLmono =>
    show List.Pairwise (· < ·)
      (t.values ++ List.range' L k ++ List.range' (L + k) k)
    refine List.pairwise_append.mpr ⟨?_, pairwise_lt_range' _ _, ?_⟩
    · refine List.pairwise_append.mpr ⟨hVLmono, pairwise_lt_range' _ _, ?_⟩
      intro a ha b hb
      have := hVLlt a ha
      have := List.mem_range'_1.mp hb
      omega
    · intro a ha b hb
      have hb2 := List.mem_range'_1.mp hb
      rcases List.mem_append.mp ha with ha | ha
      · have := hVLlt a ha
        omega
      · have := List.mem_range'_1.mp ha
        omega
  case hVLlt =>
    intro w hw
    rw [hheap2len]
    rcases List.mem_append.mp hw with hw | hw
    · rcases List.mem_append.mp hw with hw | hw
      · have := hVLlt w hw
        omega
      · have := List.mem_range'_1.mp hw
        omega
    · have := List.mem_range'_1.mp hw
      omega
  case hVLne => simp only [List.length_append]; omega
  case hheap =>
    intro c hc
    have := writeList_cupdSeq ρ n K (t.heap ++ tmap ++ smap) ah tcs smap
      htcsv hinj
      (fun d hd => by
        rw [hbiglen]
        have := haddr d hd
        omega)
      hbase c hc
    rw [← htpse] at this
    exact this
  case hplaces =>
    obtain ⟨W, hW⟩ := hplaces
    exact ⟨W ++ tps ++ sps, by
      show t.places ++ tps ++ sps = _
      rw [hW]
      simp [List.append_assoc]⟩
  case hplen =>
    show (t.places ++ tps ++ sps).length
        = n + 1 + pwA (A ++ [.aassign tcs scs tmap])
    rw [pwA_append]
    simp only [List.length_append, pwA, hltps, hlsps, hltcs]
    omega
  case helen =>
    show t.elementals.length = ewA (A ++ [.aassign tcs scs tmap])
    rw [ewA_append]
    simp only [ewA]
    omega
  case hrecords =>
    obtain ⟨R, hR, hTS, hSV⟩ := hrecords
    refine ⟨R ++ [{ typ := typAssignment, op := k, p := t.places.length,
                    v := t.values.length }], ?_, ?_, ?_⟩
    · show t.records ++ _ = _
      rw [hR]
      simp
    · have hpart1 := TraceStruct_ext n K K ρ ρ
        t.places t.values (t.places ++ tps ++ sps)
        (t.values ++ List.range' L k ++ List.range' (L + k) k)
        t.elementals t.elementals t.heap.length (L + k + k)
        t.values.length t.values.length R A (n + 1) 1 0 hTS
        (le_refl _) (fun k2 hk2 => rfl) (fun k2 hk21 hk22 => by omega)
        ⟨tps ++ sps, by rw [List.append_assoc]⟩
        ⟨List.range' L k ++ List.range' (L + k) k, by rw [List.append_assoc]⟩
        ⟨[], by simp⟩
        (by omega) (le_refl _) (le_refl _)
      have hpart2 : TraceStruct n K ρ (t.places ++ tps ++ sps)
          (t.values ++ List.range' L k ++ List.range' (L + k) k)
          t.elementals (L + k + k) (V + k + k)
          [{ typ := typAssignment, op := k, p := t.places.length,
             v := t.values.length }]
          [.aassign tcs scs tmap]
          ((n + 1) + pwA A) t.values.length (0 + ewA A) := by
        rw [TraceStruct]
        refine ⟨V, k + k, ?_, le_refl _, by omega, by omega, ?_, ?_,
          htcsv, hscsv, ?_, ?_, ?_, ?_, ?_⟩
        · have h1 : t.places.length = n + 1 + pwA A := hplen
          rw [h1, hltcs, hVdef]
        · rw [hlscs, hltcs]
        · rw [htmapdef]
          simp [hltcs]
        · show n + 1 + pwA A + 2 * tcs.length ≤ (t.places ++ tps ++ sps).length
          simp only [List.length_append, hltps, hlsps, hltcs]
          omega
        · intro j hj
          rw [hltcs] at hj
          have hidx : n + 1 + pwA A + j = t.places.length + j := by
            rw [hplen]
          rw [hidx, getD_append2_mid _ _ _ _ _ (by rw [hltps]; exact hj)]
          rw [htpse, getD_map_lt _ _ _ (by rw [hltcs]; exact hj) _ (.rcell 0)]
        · intro j hj
          rw [hltcs] at hj
          have hidx : n + 1 + pwA A + tcs.length + j
              = t.places.length + tps.length + j := by
            rw [hplen, hltps, hltcs]
          rw [hidx, getD_append2_right _ _ _ _ _ (by rw [hlsps]; exact hj)]
          rw [hspse, getD_map_lt _ _ _ (by rw [hlscs]; exact hj) _ (.rcell 0)]
        · intro j hj
          rw [hltcs] at hj
          have hidx : V + j = t.values.length + j := by rw [hVdef]
          rw [hidx, getD_append2_mid _ _ _ _ _ (by simp; exact hj),
            getD_range' _ _ _ hj]
          constructor
          · omega
          · intro c hc
            have := haddr c hc
            omega
        · rw [TraceStruct]
          trivial
      have hcomb := TraceStruct_append n K ρ (t.places ++ tps ++ sps)
        (t.values ++ List.range' L k ++ List.range' (L + k) k)
        t.elementals (L + k + k) t.values.length (V + k + k)
        R [{ typ := typAssignment, op := k, p := t.places.length,
             v := t.values.length }]
        A [.aassign tcs scs tmap] (n + 1) 1 0 t.values.length
        hpart1 hpart2 (by omega) (le_refl _) (by omega)
      show TraceStruct n K ρ (t.places ++ tps ++ sps)
        (t.values ++ List.range' L k ++ List.range' (L + k) k)
        t.elementals (writeList (t.heap ++ tmap ++ smap) tps smap).length
        (t.values ++ List.range' L k ++ List.range' (L + k) k).length
        _ _ (n + 1) 1 0
      rw [hheap2len]
      simp only [List.length_append, List.length_range']
      have h2 : t.values.length + k + k = V + k + k := by rw [hVdef]
      rw [h2]
      exact hcomb
    · have hext := TraceSaved_ext n K ρ t.places t.values
        (t.values ++ List.range' L k ++ List.range' (L + k) k)
        t.elementals t.heap.length t.values.length R A (n + 1) 1 0
        t.heap (writeList (t.heap ++ tmap ++ smap) tps smap) hTS hSV
        ⟨List.range' L k ++ List.range' (L + k) k, by rw [List.append_assoc]⟩
        (le_refl _) hkeep
      have hsing : TraceSaved (writeList (t.heap ++ tmap ++ smap) tps smap)
          (t.values ++ List.range' L k ++ List.range' (L + k) k)
          [{ typ := typAssignment, op := k, p := t.places.length,
             v := t.values.length }]
          [.aassign tcs scs tmap] := by
        rw [TraceSaved]
        refine ⟨?_, by rw [TraceSaved]; trivial⟩
        intro j hj
        rw [hltcs] at hj
        show readMem (writeList (t.heap ++ tmap ++ smap) tps smap)
          ((t.values ++ List.range' L k ++ List.range' (L + k) k).getD
            (t.values.length + j) 0) = tmap.getD j 0
        rw [getD_append2_mid _ _ _ _ _ (by simp; exact hj),
          getD_range' _ _ _ hj]
        exact hsaveread j hj
      exact TraceSaved_append _ _ _ _ _ _ hext hsing


theorem runCmd_step (env : FuncEnv) (n : Nat) (xs : List ℚ) (t : Tape)
    (ρ : List Nat) (ah : CellMap) (K : Nat) (A : List AAct) (c : Cmd)
    (hI : FInv env n xs t ρ ah K A) (hwf : cmdWF env n K c) :
    ∃ t2 ρ2, runCmd env (paramAddrs n) c t ρ = .ok (t2, ρ2) ∧
      FInv env n xs t2 ρ2 (astep env c (ah, K, A)).1
        (astep env c (ah, K, A)).2.1 (astep env c (ah, K, A)).2.2 := by
  cases c with
  | cvalue q => exact runCmd_step_cvalue env n xs t ρ ah K A q hI
  | carith op args => exact runCmd_step_carith env n xs t ρ ah K A op args hI hwf
  | cassign tgt src => exact runCmd_step_cassign env n xs t ρ ah K A tgt src hI hwf
  | cpassign tgts srcs =>
      exact runCmd_step_cpassign env n xs t ρ ah K A tgts srcs hI hwf
  | celem f args => exact runCmd_step_celem env n xs t ρ ah K A f args hI hwf

theorem runProg_steps (env : FuncEnv) (n : Nat) (xs : List ℚ) (P : List Cmd) :
    ∀ (t : Tape) (ρ : List Nat) (ah : CellMap) (K : Nat) (A : List AAct),
      FInv env n xs t ρ ah K A → progWF env n K P →
      ∃ t2 ρ2, runProg env (paramAddrs n) P t ρ = .ok (t2, ρ2) ∧
        FInv env n xs t2 ρ2 (arun env P (ah, K, A)).1
          (arun env P (ah, K, A)).2.1 (arun env P (ah, K, A)).2.2 := by
  induction P with
  | nil =>
    intro t ρ ah K A hI _
    exact ⟨t, ρ, rfl, hI⟩
  | cons c rest ih =>
    intro t ρ ah K A hI hwf
    obtain ⟨hc, hrest⟩ := hwf
    obtain ⟨t1, ρ1, hrun1, hI1⟩ := runCmd_step env n xs t ρ ah K A c hI hc
    have hK1 : (astep env c (ah, K, A)).2.1 = K + results c := astep_K env c _
    have hI2 : FInv env n xs t1 ρ1 (astep env c (ah, K, A)).1
        (K + results c) (astep env c (ah, K, A)).2.2 := by
      rw [← hK1]
      exact hI1
    obtain ⟨t2, ρ2, hrun2, hI3⟩ := ih t1 ρ1 (astep env c (ah, K, A)).1
      (K + results c) (astep env c (ah, K, A)).2.2 hI2 hrest
    refine ⟨t2, ρ2, ?_, ?_⟩
    · show runProg env (paramAddrs n) (c :: rest) t ρ = _
      simp only [runProg]
      rw [hrun1]
      exact hrun2
    · have hstate : ((astep env c (ah, K, A)).1, K + results c,
          (astep env c (ah, K, A)).2.2) = astep env c (ah, K, A) := by
        rw [← hK1]
      rw [hstate] at hI3
      exact hI3

theorem runProg_full (env : FuncEnv) (xs : List ℚ) (P : List Cmd)
    (hwf : progWF env xs.length 0 P) :
    ∃ t2 ρ2, runProg env (paramAddrs xs.length) P (setupTape xs) []
        = .ok (t2, ρ2) ∧
      FInv env xs.length xs t2 ρ2 (absRun env xs P).1
        (absRun env xs P).2.1 (absRun env xs P).2.2 :=
  runProg_steps env xs.length xs P (setupTape xs) [] (initCells xs) 0 []
    (FInv_init env xs) hwf


theorem cupd_at (ah : CellMap) (c : Cell) (q : ℚ) (d : Cell) :
    cupd ah c q d = if d = c then q else ah d := rfl

theorem backwardWalk_append (PL VL : List Nat) (EL : List Elem)
    (adjL : List Nat) (l1 l2 : List Rec) (s : List ℚ × List ℚ) :
    backwardWalk PL VL EL adjL (l1 ++ l2) s
      = match backwardWalk PL VL EL adjL l1 s with
        | .error e => .error e
        | .ok s1 => backwardWalk PL VL EL adjL l2 s1 := by
  induction l1 generalizing s with
  | nil => simp [backwardWalk]
  | cons r rest ih =>
    rw [List.cons_append, backwardWalk, backwardWalk]
    cases walkStep PL VL EL adjL r s with
    | error e => rfl
    | ok s1 => exact ih s1

theorem aback_append (A1 A2 : List AAct) (s : CellMap × CellMap) :
    aback (A1 ++ A2) s = aback A2 (aback A1 s) := by
  induction A1 generalizing s with
  | nil => simp [aback]
  | cons x rest ih =>
    rw [List.cons_append, aback, aback, ih]

theorem foldRange_zero {σ : Type} (f : Nat → σ → σ) (s : σ) :
    foldRange 0 f s = s := rfl

theorem foldRange_succ_front {σ : Type} (k : Nat) (f : Nat → σ → σ) (s : σ) :
    foldRange (k + 1) f s = foldRange k (fun i => f (i + 1)) (f 0 s) := by
  simp only [foldRange, List.range_succ_eq_map, List.foldl_cons, List.foldl_map]

theorem getD_set_self (l : List ℚ) (i : Nat) (q : ℚ) (h : i < l.length) :
    (l.set i q).getD i 0 = q := by
  rw [List.getD_eq_getElem?_getD, List.getElem?_set_eq_of_lt _ (by simpa using h)]
  rfl

theorem getD_set_ne (l : List ℚ) (i j : Nat) (q : ℚ) (h : j ≠ i) :
    (l.set i q).getD j 0 = l.getD j 0 := by
  rw [List.getD_eq_getElem?_getD, List.getElem?_set_ne (Ne.symm h),
    ← List.getD_eq_getElem?_getD]

theorem firstOcc_subset (acc l : List Nat) (a : Nat)
    (ha : a ∈ firstOcc acc l) : a ∈ acc ∨ a ∈ l := by
  induction l generalizing acc with
  | nil => exact .inl (by simpa [firstOcc] using ha)
  | cons b rest ih =>
    rw [firstOcc] at ha
    by_cases hb : b ∈ acc
    · simp only [hb, if_true] at ha
      rcases ih acc ha with h | h
      · exact .inl h
      · exact .inr (List.mem_cons_of_mem _ h)
    · simp only [hb, if_false] at ha
      rcases ih _ ha with h | h
      · rcases List.mem_append.mp h with h | h
        · exact .inl h
        · simp only [List.mem_singleton] at h
          exact .inr (h ▸ List.mem_cons_self _ _)
      · exact .inr (List.mem_cons_of_mem _ h)

theorem addScaled_eq_addSeq (a : ℚ) (ad : CellMap) (cs : List Cell)
    (ds : List ℚ) :
    addScaled a ad cs ds
      = addSeq ad cs ((List.range cs.length).map (fun i => a * ds.getD i 0)) := by
  induction cs generalizing ad ds with
  | nil => rfl
  | cons c rest ih =>
    rw [addScaled]
    simp only [List.length_cons, List.range_succ_eq_map, List.map_cons,
      List.map_map]
    rw [addSeq, ih]
    have h1 : ds.headD 0 = ds.getD 0 0 := by cases ds <;> rfl
    have h2 : (List.range rest.length).map
          ((fun i => a * ds.getD i 0) ∘ (· + 1))
        = (List.range rest.length).map (fun i => a * ds.tail.getD i 0) := by
      refine List.map_congr_left (fun i _ => ?_)
      have : ds.tail.getD i 0 = ds.getD (i + 1) 0 := by cases ds <;> rfl
      simp [this, Function.comp]
    rw [h1, h2]

theorem writeList_read_other (h : List ℚ) (ps : List Nat) (qs : List ℚ)
    (a : Nat) (ha : a ∉ ps) :
    readMem (writeList h ps qs) a = readMem h a := writeList_preserve h ps qs a ha

theorem foldRange_writeMem (k : Nat) (addr : Nat → Nat) (q : Nat → ℚ)
    (h : List ℚ) :
    foldRange k (fun i hh => writeMem hh (addr i) (q i)) h
      = writeList h ((List.range k).map addr) ((List.range k).map q) := by
  induction k generalizing addr q h with
  | zero => rfl
  | succ m ih =>
    rw [foldRange_succ_front]
    rw [ih]
    simp only [List.range_succ_eq_map, List.map_cons, List.map_map]
    rw [writeList]
    rfl


theorem Arel_set (n K : Nat) (ρ PL F : List Nat) (hF : F = firstOcc [] PL)
    (hinj : ∀ c d, validCell n K c → validCell n K d →
      addrOf ρ c = addrOf ρ d → c = d)
    (cadv : List ℚ) (aad : CellMap) (tc : Cell) (q : ℚ)
    (htc : validCell n K tc) (htcPL : addrOf ρ tc ∈ PL)
    (hlen : cadv.length = F.length)
    (hArel : ∀ c, validCell n K c → addrOf ρ c ∈ PL →
      cadv.getD (F.indexOf (addrOf ρ c)) 0 = aad c) :
    (cadv.set (F.indexOf (addrOf ρ tc)) q).length = F.length ∧
    ∀ c, validCell n K c → addrOf ρ c ∈ PL →
      (cadv.set (F.indexOf (addrOf ρ tc)) q).getD (F.indexOf (addrOf ρ c)) 0
        = cupd aad tc q c := by
  have htcF : addrOf ρ tc ∈ F := hF ▸ firstOcc_mem [] PL _ htcPL
  refine ⟨by simp [hlen], fun c hc hcPL => ?_⟩
  have hcF : addrOf ρ c ∈ F := hF ▸ firstOcc_mem [] PL _ hcPL
  by_cases hctc : c = tc
  · subst hctc
    rw [getD_set_self _ _ _ (by
      rw [hlen]
      exact List.indexOf_lt_length.mpr htcF)]
    simp [cupd]
  · have haddr_ne : addrOf ρ c ≠ addrOf ρ tc := fun he => hctc (hinj c tc hc htc he)
    have hslot : F.indexOf (addrOf ρ c) ≠ F.indexOf (addrOf ρ tc) := fun he =>
      haddr_ne ((List.indexOf_inj hcF htcF).mp he)
    rw [getD_set_ne _ _ _ _ hslot, hArel c hc hcPL]
    simp [cupd, hctc]

theorem zero_loop (n K : Nat) (ρ PL F adjL : List Nat)
    (hF : F = firstOcc [] PL)
    (hinj : ∀ c d, validCell n K c → validCell n K d →
      addrOf ρ c = addrOf ρ d → c = d) :
    ∀ (cells : List Cell) (p : Nat) (cadv : List ℚ) (aad : CellMap),
    (∀ c ∈ cells, validCell n K c) →
    (∀ i, i < cells.length →
      adjL.getD (p + i) 0 = F.indexOf (addrOf ρ (cells.getD i (.rcell 0))) ∧
      addrOf ρ (cells.getD i (.rcell 0)) ∈ PL) →
    cadv.length = F.length →
    (∀ c, validCell n K c → addrOf ρ c ∈ PL →
      cadv.getD (F.indexOf (addrOf ρ c)) 0 = aad c) →
    (foldRange cells.length (fun i a => a.set (adjL.getD (p + i) 0) 0)
        cadv).length = F.length ∧
    (∀ c, validCell n K c → addrOf ρ c ∈ PL →
      (foldRange cells.length (fun i a => a.set (adjL.getD (p + i) 0) 0)
          cadv).getD (F.indexOf (addrOf ρ c)) 0 = zeroSeq aad cells c)
  | [], p, cadv, aad, hv, hwin, hlen, hArel => ⟨hlen, fun c hc hcPL => by
      simp only [List.length_nil, foldRange_zero, zeroSeq]
      exact hArel c hc hcPL⟩
  | tc :: rest, p, cadv, aad, hv, hwin, hlen, hArel => by
    have hw0 := hwin 0 (by simp)
    simp only [List.getD_cons_zero, Nat.add_zero] at hw0
    have htc := hv tc (List.mem_cons_self _ _)
    have hset := Arel_set n K ρ PL F hF hinj cadv aad tc 0 htc hw0.2 hlen hArel
    simp only [List.length_cons]
    rw [foldRange_succ_front]
    have hfun : (fun i => (fun i (a : List ℚ) => a.set (adjL.getD (p + i) 0) 0)
          (i + 1))
        = (fun i (a : List ℚ) => a.set (adjL.getD (p + 1 + i) 0) 0) := by
      funext i a
      dsimp only
      rw [show p + (i + 1) = p + 1 + i from by omega]
    rw [hfun]
    have hres := zero_loop n K ρ PL F adjL hF hinj rest (p + 1)
      (cadv.set (adjL.getD (p + 0) 0) 0) (cupd aad tc 0)
      (fun c hc => hv c (List.mem_cons_of_mem _ hc))
      (fun i hi => by
        have := hwin (i + 1) (by simpa using hi)
        simpa [show p + (i + 1) = p + 1 + i from by omega] using this)
      (by
        simp only [Nat.add_zero, hw0.1]
        exact hset.1)
      (fun c hc hcPL => by
        simp only [Nat.add_zero, hw0.1]
        exact hset.2 c hc hcPL)
    rw [zeroSeq]
    simpa only [Nat.add_zero] using hres

theorem add_loop (n K : Nat) (ρ PL F adjL : List Nat)
    (hF : F = firstOcc [] PL)
    (hinj : ∀ c d, validCell n K c → validCell n K d →
      addrOf ρ c = addrOf ρ d → c = d) :
    ∀ (cells : List Cell) (qs : List ℚ) (w : Nat → ℚ) (p : Nat)
      (cadv : List ℚ) (aad : CellMap),
    (∀ c ∈ cells, validCell n K c) →
    qs.length = cells.length →
    (∀ i, i < cells.length → w i = qs.getD i 0) →
    (∀ i, i < cells.length →
      adjL.getD (p + i) 0 = F.indexOf (addrOf ρ (cells.getD i (.rcell 0))) ∧
      addrOf ρ (cells.getD i (.rcell 0)) ∈ PL) →
    cadv.length = F.length →
    (∀ c, validCell n K c → addrOf ρ c ∈ PL →
      cadv.getD (F.indexOf (addrOf ρ c)) 0 = aad c) →
    (foldRange cells.length (fun i a => a.set (adjL.getD (p + i) 0)
        (a.getD (adjL.getD (p + i) 0) 0 + w i)) cadv).length = F.length ∧
    (∀ c, validCell n K c → addrOf ρ c ∈ PL →
      (foldRange cells.length (fun i a => a.set (adjL.getD (p + i) 0)
          (a.getD (adjL.getD (p + i) 0) 0 + w i)) cadv).getD
        (F.indexOf (addrOf ρ c)) 0 = addSeq aad cells qs c)
  | [], qs, w, p, cadv, aad, hv, hql, hq, hwin, hlen, hArel => ⟨hlen,
      fun c hc hcPL => by
        simp only [List.length_nil, foldRange_zero, addSeq]
        exact hArel c hc hcPL⟩
  | tc :: rest, qs, w, p, cadv, aad, hv, hql, hq, hwin, hlen, hArel => by
    cases qs with
    | nil => simp at hql
    | cons q qrest =>
      have hw0 := hwin 0 (by simp)
      simp only [List.getD_cons_zero, Nat.add_zero] at hw0
      have htc := hv tc (List.mem_cons_self _ _)
      have hread : cadv.getD (adjL.getD (p + 0) 0) 0 = aad tc := by
        simp only [Nat.add_zero, hw0.1]
        exact hArel tc htc hw0.2
      have hq0 : w 0 = q := by
        have := hq 0 (by simp)
        simpa using this
      have hset := Arel_set n K ρ PL F hF hinj cadv aad tc (aad tc + q)
        htc hw0.2 hlen hArel
      simp only [List.length_cons]
      rw [foldRange_succ_front]
      have hfun : (fun i => (fun i (a : List ℚ) => a.set (adjL.getD (p + i) 0)
            (a.getD (adjL.getD (p + i) 0) 0 + w i)) (i + 1))
          = (fun i (a : List ℚ) => a.set (adjL.getD (p + 1 + i) 0)
            (a.getD (adjL.getD (p + 1 + i) 0) 0 + w (i + 1))) := by
        funext i a
        dsimp only
        rw [show p + (i + 1) = p + 1 + i from by omega]
      rw [hfun]
      have hres := add_loop n K ρ PL F adjL hF hinj rest qrest
        (fun i => w (i + 1)) (p + 1)
        (cadv.set (adjL.getD (p + 0) 0)
          (cadv.getD (adjL.getD (p + 0) 0) 0 + w 0)) (cupd aad tc (aad tc + q))
        (fun c hc => hv c (List.mem_cons_of_mem _ hc))
        (by simpa using hql)
        (fun i hi => by
          have := hq (i + 1) (by simpa using hi)
          simpa using this)
        (fun i hi => by
          have := hwin (i + 1) (by simpa using hi)
          simpa [show p + (i + 1) = p + 1 + i from by omega] using this)
        (by
          simp only [Nat.add_zero] at hread ⊢
          rw [hread, hq0, hw0.1]
          exact hset.1)
        (fun c hc hcPL => by
          simp only [Nat.add_zero] at hread ⊢
          rw [hread, hq0, hw0.1]
          exact hset.2 c hc hcPL)
      rw [addSeq]
      simpa only [Nat.add_zero] using hres

theorem restore_loop (ρ : List Nat) (n K : Nat) (PL VL : List Nat) :
    ∀ (cells : List Cell) (saved : List ℚ) (rp rv : Nat) (cheap : List ℚ),
    saved.length = cells.length →
    (∀ c ∈ cells, validCell n K c) →
    (∀ i, i < cells.length →
      PL.getD (rp + i) 0 = addrOf ρ (cells.getD i (.rcell 0))) →
    (∀ i, i < cells.length →
      readMem cheap (VL.getD (rv + i) 0) = saved.getD i 0) →
    (∀ i, i < cells.length → ∀ c, validCell n K c →
      VL.getD (rv + i) 0 ≠ addrOf ρ c) →
    foldRange cells.length
      (fun i h => writeMem h (PL.getD (rp + i) 0)
        (readMem h (VL.getD (rv + i) 0))) cheap
      = writeList cheap (cells.map (addrOf ρ)) saved
  | [], saved, rp, rv, cheap, hsl, hv, hwin, hsv, hnd => by
      simp only [List.length_nil, foldRange_zero, List.map_nil]
      cases saved with
      | nil => rfl
      | cons q qrest => simp at hsl
  | tc :: rest, saved, rp, rv, cheap, hsl, hv, hwin, hsv, hnd => by
    cases saved with
    | nil => simp at hsl
    | cons q qrest =>
      have hw0 := hwin 0 (by simp)
      simp only [List.getD_cons_zero, Nat.add_zero] at hw0
      have hs0 := hsv 0 (by simp)
      simp only [List.getD_cons_zero, Nat.add_zero] at hs0
      have htc := hv tc (List.mem_cons_self _ _)
      simp only [List.length_cons]
      rw [foldRange_succ_front]
      have hfun : (fun i => (fun i (h : List ℚ) => writeMem h (PL.getD (rp + i) 0)
            (readMem h (VL.getD (rv + i) 0))) (i + 1))
          = (fun i (h : List ℚ) => writeMem h (PL.getD (rp + 1 + i) 0)
            (readMem h (VL.getD (rv + 1 + i) 0))) := by
        funext i h
        dsimp only
        rw [show rp + (i + 1) = rp + 1 + i from by omega,
          show rv + (i + 1) = rv + 1 + i from by omega]
      rw [hfun]
      have hstep : writeMem cheap (PL.getD (rp + 0) 0)
          (readMem cheap (VL.getD (rv + 0) 0))
          = writeMem cheap (addrOf ρ tc) q := by
        simp only [Nat.add_zero, hw0, hs0]
      rw [hstep]
      have hres := restore_loop ρ n K PL VL rest qrest (rp + 1) (rv + 1)
        (writeMem cheap (addrOf ρ tc) q)
        (by simpa using hsl)
        (fun c hc => hv c (List.mem_cons_of_mem _ hc))
        (fun i hi => by
          have := hwin (i + 1) (by simpa using hi)
          simpa [show rp + (i + 1) = rp + 1 + i from by omega] using this)
        (fun i hi => by
          have h1 := hsv (i + 1) (by simpa using hi)
          have h2 := hnd (i + 1) (by simpa using hi) tc htc
          rw [show rv + (i + 1) = rv + 1 + i from by omega] at h1 h2
          rw [readMem_writeMem_ne _ _ _ _ h2]
          simpa using h1)
        (fun i hi c hc => by
          have := hnd (i + 1) (by simpa using hi) c hc
          rw [show rv + (i + 1) = rv + 1 + i from by omega] at this
          exact this)
      rw [hres]
      rfl


theorem map_range_getD (l : List ℚ) :
    (List.range l.length).map (fun i => l.getD i 0) = l := by
  refine List.ext_getElem (by simp) ?_
  intro i h1 h2
  simp [List.getD_eq_getElem l 0 h2, List.getElem?_eq_getElem h2]

theorem getD_map_range {b : Type} (f : Nat → b) (k i : Nat) (d : b)
    (h : i < k) : ((List.range k).map f).getD i d = f i := by
  rw [getD_map_lt _ _ _ (by simpa using h) _ 0]
  congr 1
  rw [getD_eq_getElem' _ _ _ (by simpa using h)]
  simp


theorem walkStep_neg_eval (PL VL : List Nat) (EL : List Elem)
    (adjL : List Nat) (p0 v0 : Nat) (cheap cadv : List ℚ) :
    walkStep PL VL EL adjL
        { typ := typArithmetic, op := OpNeg, p := p0, v := v0 } (cheap, cadv)
      = .ok (cheap, cadv.set (adjL.getD (p0 + 1) 0)
          (cadv.getD (adjL.getD (p0 + 1) 0) 0
            - cadv.getD (adjL.getD p0 0) 0)) := rfl

theorem walkStep_add_eval (PL VL : List Nat) (EL : List Elem)
    (adjL : List Nat) (p0 v0 : Nat) (cheap cadv : List ℚ) :
    walkStep PL VL EL adjL
        { typ := typArithmetic, op := OpAdd, p := p0, v := v0 } (cheap, cadv)
      = .ok (cheap,
          ((cadv.set (adjL.getD (p0 + 1) 0)
              (cadv.getD (adjL.getD (p0 + 1) 0) 0
                + cadv.getD (adjL.getD p0 0) 0)).set (adjL.getD (p0 + 2) 0)
            ((cadv.set (adjL.getD (p0 + 1) 0)
              (cadv.getD (adjL.getD (p0 + 1) 0) 0
                + cadv.getD (adjL.getD p0 0) 0)).getD (adjL.getD (p0 + 2) 0) 0
              + cadv.getD (adjL.getD p0 0) 0))) := rfl


theorem walkStep_sub_eval (PL VL : List Nat) (EL : List Elem)
    (adjL : List Nat) (p0 v0 : Nat) (cheap cadv : List ℚ) :
    walkStep PL VL EL adjL
        { typ := typArithmetic, op := OpSub, p := p0, v := v0 } (cheap, cadv)
      = .ok (cheap,
          ((cadv.set (adjL.getD (p0 + 1) 0)
              (cadv.getD (adjL.getD (p0 + 1) 0) 0
                + cadv.getD (adjL.getD p0 0) 0)).set (adjL.getD (p0 + 2) 0)
            ((cadv.set (adjL.getD (p0 + 1) 0)
              (cadv.getD (adjL.getD (p0 + 1) 0) 0
                + cadv.getD (adjL.getD p0 0) 0)).getD (adjL.getD (p0 + 2) 0) 0
              - cadv.getD (adjL.getD p0 0) 0))) := rfl

theorem walkStep_mul_eval (PL VL : List Nat) (EL : List Elem)
    (adjL : List Nat) (p0 v0 : Nat) (cheap cadv : List ℚ) :
    walkStep PL VL EL adjL
        { typ := typArithmetic, op := OpMul, p := p0, v := v0 } (cheap, cadv)
      = .ok (cheap,
          ((cadv.set (adjL.getD (p0 + 1) 0)
              (cadv.getD (adjL.getD (p0 + 1) 0) 0
                + cadv.getD (adjL.getD p0 0) 0
                  * readMem cheap (PL.getD (p0 + 2) 0))).set
            (adjL.getD (p0 + 2) 0)
            ((cadv.set (adjL.getD (p0 + 1) 0)
              (cadv.getD (adjL.getD (p0 + 1) 0) 0
                + cadv.getD (adjL.getD p0 0) 0
                  * readMem cheap (PL.getD (p0 + 2) 0))).getD
              (adjL.getD (p0 + 2) 0) 0
              + cadv.getD (adjL.getD p0 0) 0
                * readMem cheap (PL.getD (p0 + 1) 0)))) := rfl

theorem walkStep_div_eval (PL VL : List Nat) (EL : List Elem)
    (adjL : List Nat) (p0 v0 : Nat) (cheap cadv : List ℚ) :
    walkStep PL VL EL adjL
        { typ := typArithmetic, op := OpDiv, p := p0, v := v0 } (cheap, cadv)
      = .ok (cheap,
          ((cadv.set (adjL.getD (p0 + 1) 0)
              (cadv.getD (adjL.getD (p0 + 1) 0) 0
                + cadv.getD (adjL.getD p0 0) 0
                  / readMem cheap (PL.getD (p0 + 2) 0))).set
            (adjL.getD (p0 + 2) 0)
            ((cadv.set (adjL.getD (p0 + 1) 0)
              (cadv.getD (adjL.getD (p0 + 1) 0) 0
                + cadv.getD (adjL.getD p0 0) 0
                  / readMem cheap (PL.getD (p0 + 2) 0))).getD
              (adjL.getD (p0 + 2) 0) 0
              + -(cadv.getD (adjL.getD p0 0) 0
                    / readMem cheap (PL.getD (p0 + 2) 0))
                * readMem cheap (PL.getD p0 0)))) := rfl

theorem walkStep_assign1_eval (PL VL : List Nat) (EL : List Elem)
    (adjL : List Nat) (p0 v0 : Nat) (cheap cadv : List ℚ) :
    walkStep PL VL EL adjL
        { typ := typAssignment, op := 1, p := p0, v := v0 } (cheap, cadv)
      = .ok (writeMem cheap (PL.getD p0 0) (readMem cheap (VL.getD v0 0)),
          ((cadv.set (adjL.getD p0 0) 0).set (adjL.getD (p0 + 1) 0)
            ((cadv.set (adjL.getD p0 0) 0).getD (adjL.getD (p0 + 1) 0) 0
              + cadv.getD (adjL.getD p0 0) 0))) := rfl

theorem walkStep_assignk_eval (PL VL : List Nat) (EL : List Elem)
    (adjL : List Nat) (k p0 v0 : Nat) (hk : ¬ k = 1) (cheap cadv : List ℚ) :
    walkStep PL VL EL adjL
        { typ := typAssignment, op := k, p := p0, v := v0 } (cheap, cadv)
      = .ok (foldRange k (fun i h => writeMem h (VL.getD (v0 + i) 0)
            (cadv.getD (adjL.getD (p0 + i) 0) 0))
            (foldRange k (fun i h => writeMem h (PL.getD (p0 + i) 0)
              (readMem h (VL.getD (v0 + i) 0))) cheap),
          foldRange k (fun i a => a.set (adjL.getD (p0 + k + i) 0)
            (a.getD (adjL.getD (p0 + k + i) 0) 0
              + readMem (foldRange k (fun i h => writeMem h (VL.getD (v0 + i) 0)
                  (cadv.getD (adjL.getD (p0 + i) 0) 0))
                (foldRange k (fun i h => writeMem h (PL.getD (p0 + i) 0)
                  (readMem h (VL.getD (v0 + i) 0))) cheap))
                (VL.getD (v0 + i) 0)))
            (foldRange k (fun i a => a.set (adjL.getD (p0 + i) 0) 0) cadv)) := by
  simp only [walkStep, typDummy, typAssignment]
  rw [if_neg (by norm_num), if_pos trivial, if_neg hk]

theorem walkStep_elem_eval (PL VL : List Nat) (EL : List Elem)
    (adjL : List Nat) (e0 p0 v0 : Nat) (cheap cadv : List ℚ) :
    walkStep PL VL EL adjL
        { typ := typElemental, op := e0, p := p0, v := v0 } (cheap, cadv)
      = .ok (cheap,
          foldRange (EL.getD e0 { n := 0, g := fun _ _ => [] }).n
            (fun i (a1 : List ℚ) => a1.set (adjL.getD (p0 + 1 + i) 0)
              (a1.getD (adjL.getD (p0 + 1 + i) 0) 0
                + cadv.getD (adjL.getD p0 0) 0
                  * ((EL.getD e0 { n := 0, g := fun _ _ => [] }).g
                      (readMem cheap (PL.getD p0 0))
                      ((List.range
                          (EL.getD e0 { n := 0, g := fun _ _ => [] }).n).map
                        (fun i => readMem cheap (VL.getD (v0 + i) 0)))).getD
                    i 0)) cadv) := rfl


theorem walkStep_arith_rel (n K : Nat) (ρ PL VL F adjL : List Nat)
    (EL : List Elem)
    (hF : F = firstOcc [] PL)
    (hinj : ∀ c d, validCell n K c → validCell n K d →
      addrOf ρ c = addrOf ρ d → c = d)
    (hadjL : ∀ idx, idx < PL.length →
      adjL.getD idx 0 = F.indexOf (PL.getD idx 0))
    (op : Nat) (resc : Cell) (args : List Cell) (p0 : Nat)
    (cheap cadv : List ℚ) (aheap aad : CellMap)
    (hop : (op = OpNeg ∧ args.length = 1) ∨
      ((op = OpAdd ∨ op = OpSub ∨ op = OpMul ∨ op = OpDiv) ∧ args.length = 2))
    (hresc : validCell n K resc) (hargs : ∀ c ∈ args, validCell n K c)
    (hPLlen : p0 + 1 + args.length ≤ PL.length)
    (hw0 : PL.getD p0 0 = addrOf ρ resc)
    (hwj : ∀ j, j < args.length →
      PL.getD (p0 + 1 + j) 0 = addrOf ρ (args.getD j (.rcell 0)))
    (hclen : cadv.length = F.length)
    (hHrel : ∀ c, validCell n K c → readMem cheap (addrOf ρ c) = aheap c)
    (hArel : ∀ c, validCell n K c → addrOf ρ c ∈ PL →
      cadv.getD (F.indexOf (addrOf ρ c)) 0 = aad c) :
    ∃ cadv2,
      walkStep PL VL EL adjL
        { typ := typArithmetic, op := op, p := p0, v := 0 } (cheap, cadv)
        = .ok (cheap, cadv2) ∧
      cadv2.length = F.length ∧
      (∀ c, validCell n K c → addrOf ρ c ∈ PL →
        cadv2.getD (F.indexOf (addrOf ρ c)) 0
          = (aback1 (.aarith op resc args) (aheap, aad)).2 c) := by
  have hrescPL : addrOf ρ resc ∈ PL := by
    rw [← hw0]
    exact getD_mem _ _ _ (by omega)
  have ha : cadv.getD (adjL.getD p0 0) 0 = aad resc := by
    rw [hadjL p0 (by omega), hw0]
    exact hArel resc hresc hrescPL
  rcases hop with ⟨ho, hl⟩ | ⟨ho, hl⟩
  · -- OpNeg
    subst ho
    have hv0 : validCell n K (args.getD 0 (.rcell 0)) :=
      hargs _ (getD_mem _ _ _ (by omega))
    have hwj0 : PL.getD (p0 + 1) 0 = addrOf ρ (args.getD 0 (.rcell 0)) :=
      hwj 0 (by omega)
    have hm0 : addrOf ρ (args.getD 0 (.rcell 0)) ∈ PL := by
      rw [← hwj0]
      exact getD_mem _ _ _ (by omega)
    have hs0 : adjL.getD (p0 + 1) 0
        = F.indexOf (addrOf ρ (args.getD 0 (.rcell 0))) := by
      rw [hadjL _ (by omega), hwj0]
    have hr0 : cadv.getD (adjL.getD (p0 + 1) 0) 0
        = aad (args.getD 0 (.rcell 0)) := by
      rw [hs0]
      exact hArel _ hv0 hm0
    have hset := Arel_set n K ρ PL F hF hinj cadv aad _
      (aad (args.getD 0 (.rcell 0)) - aad resc) hv0 hm0 hclen hArel
    refine ⟨_, walkStep_neg_eval PL VL EL adjL p0 0 cheap cadv, ?_, ?_⟩
    · rw [hr0, ha, hs0]
      exact hset.1
    · intro c hc hcPL
      rw [hr0, ha, hs0]
      exact hset.2 c hc hcPL
  · -- binary operations
    have hv0 : validCell n K (args.getD 0 (.rcell 0)) :=
      hargs _ (getD_mem _ _ _ (by omega))
    have hv1 : validCell n K (args.getD 1 (.rcell 0)) :=
      hargs _ (getD_mem _ _ _ (by omega))
    have hwj0 : PL.getD (p0 + 1) 0 = addrOf ρ (args.getD 0 (.rcell 0)) :=
      hwj 0 (by omega)
    have hwj1 : PL.getD (p0 + 2) 0 = addrOf ρ (args.getD 1 (.rcell 0)) :=
      hwj 1 (by omega)
    have hm0 : addrOf ρ (args.getD 0 (.rcell 0)) ∈ PL := by
      rw [← hwj0]
      exact getD_mem _ _ _ (by omega)
    have hm1 : addrOf ρ (args.getD 1 (.rcell 0)) ∈ PL := by
      rw [← hwj1]
      exact getD_mem _ _ _ (by omega)
    have hs0 : adjL.getD (p0 + 1) 0
        = F.indexOf (addrOf ρ (args.getD 0 (.rcell 0))) := by
      rw [hadjL _ (by omega), hwj0]
    have hs1 : adjL.getD (p0 + 2) 0
        = F.indexOf (addrOf ρ (args.getD 1 (.rcell 0))) := by
      rw [hadjL _ (by omega), hwj1]
    have hr0 : cadv.getD (adjL.getD (p0 + 1) 0) 0
        = aad (args.getD 0 (.rcell 0)) := by
      rw [hs0]
      exact hArel _ hv0 hm0
    have hh1 : readMem cheap (PL.getD (p0 + 2) 0)
        = aheap (args.getD 1 (.rcell 0)) := by
      rw [hwj1]
      exact hHrel _ hv1
    have hh0 : readMem cheap (PL.getD p0 0) = aheap resc := by
      rw [hw0]
      exact hHrel _ hresc
    rcases ho with ho | ho | ho | ho <;> subst ho
    · -- OpAdd
      have hset1 := Arel_set n K ρ PL F hF hinj cadv aad _
        (aad (args.getD 0 (.rcell 0)) + aad resc) hv0 hm0 hclen hArel
      have hr1 : (cadv.set (F.indexOf (addrOf ρ (args.getD 0 (.rcell 0))))
            (aad (args.getD 0 (.rcell 0)) + aad resc)).getD
          (F.indexOf (addrOf ρ (args.getD 1 (.rcell 0)))) 0
          = cupd aad (args.getD 0 (.rcell 0))
              (aad (args.getD 0 (.rcell 0)) + aad resc)
              (args.getD 1 (.rcell 0)) :=
        hset1.2 _ hv1 hm1
      have hset2 := Arel_set n K ρ PL F hF hinj _ _
        (args.getD 1 (.rcell 0))
        (cupd aad (args.getD 0 (.rcell 0))
            (aad (args.getD 0 (.rcell 0)) + aad resc)
            (args.getD 1 (.rcell 0)) + aad resc)
        hv1 hm1 hset1.1 (fun c hc hcPL => hset1.2 c hc hcPL)
      refine ⟨_, walkStep_add_eval PL VL EL adjL p0 0 cheap cadv, ?_, ?_⟩
      · rw [hr0, ha, hs0, hs1, hr1]
        exact hset2.1
      · intro c hc hcPL
        rw [hr0, ha, hs0, hs1, hr1]
        exact hset2.2 c hc hcPL
    · -- OpSub
      have hset1 := Arel_set n K ρ PL F hF hinj cadv aad _
        (aad (args.getD 0 (.rcell 0)) + aad resc) hv0 hm0 hclen hArel
      have hr1 : (cadv.set (F.indexOf (addrOf ρ (args.getD 0 (.rcell 0))))
            (aad (args.getD 0 (.rcell 0)) + aad resc)).getD
          (F.indexOf (addrOf ρ (args.getD 1 (.rcell 0)))) 0
          = cupd aad (args.getD 0 (.rcell 0))
              (aad (args.getD 0 (.rcell 0)) + aad resc)
              (args.getD 1 (.rcell 0)) :=
        hset1.2 _ hv1 hm1
      have hset2 := Arel_set n K ρ PL F hF hinj _ _
        (args.getD 1 (.rcell 0))
        (cupd aad (args.getD 0 (.rcell 0))
            (aad (args.getD 0 (.rcell 0)) + aad resc)
            (args.getD 1 (.rcell 0)) - aad resc)
        hv1 hm1 hset1.1 (fun c hc hcPL => hset1.2 c hc hcPL)
      refine ⟨_, walkStep_sub_eval PL VL EL adjL p0 0 cheap cadv, ?_, ?_⟩
      · rw [hr0, ha, hs0, hs1, hr1]
        exact hset2.1
      · intro c hc hcPL
        rw [hr0, ha, hs0, hs1, hr1]
        exact hset2.2 c hc hcPL
    · -- OpMul
      have hset1 := Arel_set n K ρ PL F hF hinj cadv aad _
        (aad (args.getD 0 (.rcell 0))
          + aad resc * aheap (args.getD 1 (.rcell 0))) hv0 hm0 hclen hArel
      have hr1 : (cadv.set (F.indexOf (addrOf ρ (args.getD 0 (.rcell 0))))
            (aad (args.getD 0 (.rcell 0))
              + aad resc * aheap (args.getD 1 (.rcell 0)))).getD
          (F.indexOf (addrOf ρ (args.getD 1 (.rcell 0)))) 0
          = cupd aad (args.getD 0 (.rcell 0))
              (aad (args.getD 0 (.rcell 0))
                + aad resc * aheap (args.getD 1 (.rcell 0)))
              (args.getD 1 (.rcell 0)) :=
        hset1.2 _ hv1 hm1
      have hset2 := Arel_set n K ρ PL F hF hinj _ _
        (args.getD 1 (.rcell 0))
        (cupd aad (args.getD 0 (.rcell 0))
            (aad (args.getD 0 (.rcell 0))
              + aad resc * aheap (args.getD 1 (.rcell 0)))
            (args.getD 1 (.rcell 0))
          + aad resc * aheap (args.getD 0 (.rcell 0)))
        hv1 hm1 hset1.1 (fun c hc hcPL => hset1.2 c hc hcPL)
      have hh01 : readMem cheap (PL.getD (p0 + 1) 0)
          = aheap (args.getD 0 (.rcell 0)) := by
        rw [hwj0]
        exact hHrel _ hv0
      refine ⟨_, walkStep_mul_eval PL VL EL adjL p0 0 cheap cadv, ?_, ?_⟩
      · rw [hr0, ha, hs0, hs1, hh1, hh01, hr1]
        exact hset2.1
      · intro c hc hcPL
        rw [hr0, ha, hs0, hs1, hh1, hh01, hr1]
        exact hset2.2 c hc hcPL
    · -- OpDiv
      have hset1 := Arel_set n K ρ PL F hF hinj cadv aad _
        (aad (args.getD 0 (.rcell 0))
          + aad resc / aheap (args.getD 1 (.rcell 0))) hv0 hm0 hclen hArel
      have hr1 : (cadv.set (F.indexOf (addrOf ρ (args.getD 0 (.rcell 0))))
            (aad (args.getD 0 (.rcell 0))
              + aad resc / aheap (args.getD 1 (.rcell 0)))).getD
          (F.indexOf (addrOf ρ (args.getD 1 (.rcell 0)))) 0
          = cupd aad (args.getD 0 (.rcell 0))
              (aad (args.getD 0 (.rcell 0))
                + aad resc / aheap (args.getD 1 (.rcell 0)))
              (args.getD 1 (.rcell 0)) :=
        hset1.2 _ hv1 hm1
      have hset2 := Arel_set n K ρ PL F hF hinj _ _
        (args.getD 1 (.rcell 0))
        (cupd aad (args.getD 0 (.rcell 0))
            (aad (args.getD 0 (.rcell 0))
              + aad resc / aheap (args.getD 1 (.rcell 0)))
            (args.getD 1 (.rcell 0))
          + -(aad resc / aheap (args.getD 1 (.rcell 0))) * aheap resc)
        hv1 hm1 hset1.1 (fun c hc hcPL => hset1.2 c hc hcPL)
      refine ⟨_, walkStep_div_eval PL VL EL adjL p0 0 cheap cadv, ?_, ?_⟩
      · rw [hr0, ha, hs0, hs1, hh1, hh0, hr1]
        exact hset2.1
      · intro c hc hcPL
        rw [hr0, ha, hs0, hs1, hh1, hh0, hr1]
        exact hset2.2 c hc hcPL


theorem nodup_map_range (k : Nat) (f : Nat → Nat)
    (hf : ∀ i j, i < k → j < k → f i = f j → i = j) :
    ((List.range k).map f).Nodup := by
  refine List.Nodup.map_on ?_ (List.nodup_range k)
  intro i hi j hj he
  exact hf i j (by simpa using hi) (by simpa using hj) he

theorem walkStep_assign1_rel (n K : Nat) (ρ PL VL F adjL : List Nat)
    (EL : List Elem)
    (hF : F = firstOcc [] PL)
    (hinj : ∀ c d, validCell n K c → validCell n K d →
      addrOf ρ c = addrOf ρ d → c = d)
    (hadjL : ∀ idx, idx < PL.length →
      adjL.getD idx 0 = F.indexOf (PL.getD idx 0))
    (tc sc : Cell) (q : ℚ) (p0 rv : Nat)
    (cheap cadv : List ℚ) (aheap aad : CellMap)
    (htc : validCell n K tc) (hsc : validCell n K sc)
    (hPLlen : p0 + 2 ≤ PL.length)
    (hw0 : PL.getD p0 0 = addrOf ρ tc)
    (hw1 : PL.getD (p0 + 1) 0 = addrOf ρ sc)
    (hsv : readMem cheap (VL.getD rv 0) = q)
    (haddrlt : ∀ c, validCell n K c → addrOf ρ c < cheap.length)
    (hclen : cadv.length = F.length)
    (hHrel : ∀ c, validCell n K c → readMem cheap (addrOf ρ c) = aheap c)
    (hArel : ∀ c, validCell n K c → addrOf ρ c ∈ PL →
      cadv.getD (F.indexOf (addrOf ρ c)) 0 = aad c) :
    ∃ cheap2 cadv2,
      walkStep PL VL EL adjL
        { typ := typAssignment, op := 1, p := p0, v := rv } (cheap, cadv)
        = .ok (cheap2, cadv2) ∧
      cheap2.length = cheap.length ∧
      cadv2.length = F.length ∧
      (∀ c, validCell n K c → readMem cheap2 (addrOf ρ c)
        = (aback1 (.aassign [tc] [sc] [q]) (aheap, aad)).1 c) ∧
      (∀ c, validCell n K c → addrOf ρ c ∈ PL →
        cadv2.getD (F.indexOf (addrOf ρ c)) 0
          = (aback1 (.aassign [tc] [sc] [q]) (aheap, aad)).2 c) ∧
      (∀ a, (∀ c, validCell n K c → a ≠ addrOf ρ c) →
        readMem cheap2 a = readMem cheap a) := by
  have htcPL : addrOf ρ tc ∈ PL := by
    rw [← hw0]
    exact getD_mem _ _ _ (by omega)
  have hscPL : addrOf ρ sc ∈ PL := by
    rw [← hw1]
    exact getD_mem _ _ _ (by omega)
  have hs0 : adjL.getD p0 0 = F.indexOf (addrOf ρ tc) := by
    rw [hadjL _ (by omega), hw0]
  have hs1 : adjL.getD (p0 + 1) 0 = F.indexOf (addrOf ρ sc) := by
    rw [hadjL _ (by omega), hw1]
  have ha : cadv.getD (adjL.getD p0 0) 0 = aad tc := by
    rw [hs0]
    exact hArel tc htc htcPL
  have hset1 := Arel_set n K ρ PL F hF hinj cadv aad tc 0 htc htcPL hclen hArel
  have hr1 : (cadv.set (F.indexOf (addrOf ρ tc)) 0).getD
      (F.indexOf (addrOf ρ sc)) 0 = cupd aad tc 0 sc :=
    hset1.2 sc hsc hscPL
  have hset2 := Arel_set n K ρ PL F hF hinj _ _ sc
    (cupd aad tc 0 sc + aad tc) hsc hscPL hset1.1
    (fun c hc hcPL => hset1.2 c hc hcPL)
  refine ⟨_, _, walkStep_assign1_eval PL VL EL adjL p0 rv cheap cadv,
    ?_, ?_, ?_, ?_, ?_⟩
  · rw [writeMem_length]
  · rw [ha, hs0, hs1, hr1]
    exact hset2.1
  · intro c hc
    rw [hw0, hsv]
    by_cases hctc : c = tc
    · subst hctc
      rw [readMem_writeMem_self _ _ _ (haddrlt c hc)]
      show _ = cupdSeq aheap [c] [q] c
      simp [cupdSeq, cupd]
    · rw [readMem_writeMem_ne _ _ _ _
        (fun he => hctc (hinj c tc hc htc he))]
      rw [hHrel c hc]
      show _ = cupdSeq aheap [tc] [q] c
      simp [cupdSeq, cupd, hctc]
  · intro c hc hcPL
    rw [ha, hs0, hs1, hr1]
    exact hset2.2 c hc hcPL
  · intro a hnd
    rw [hw0, readMem_writeMem_ne _ _ _ _ (hnd tc htc)]

theorem walkStep_assignk_rel (n K : Nat) (ρ PL VL F adjL : List Nat)
    (EL : List Elem)
    (hF : F = firstOcc [] PL)
    (hinj : ∀ c d, validCell n K c → validCell n K d →
      addrOf ρ c = addrOf ρ d → c = d)
    (hadjL : ∀ idx, idx < PL.length →
      adjL.getD idx 0 = F.indexOf (PL.getD idx 0))
    (hVLmono : List.Pairwise (· < ·) VL)
    (tcs scs : List Cell) (saved : List ℚ) (p0 rv : Nat)
    (cheap cadv : List ℚ) (aheap aad : CellMap)
    (hk1 : ¬ tcs.length = 1)
    (hlscs : scs.length = tcs.length)
    (hlsaved : saved.length = tcs.length)
    (htcs : ∀ c ∈ tcs, validCell n K c)
    (hscs : ∀ c ∈ scs, validCell n K c)
    (hPLlen : p0 + 2 * tcs.length ≤ PL.length)
    (hwt : ∀ j, j < tcs.length →
      PL.getD (p0 + j) 0 = addrOf ρ (tcs.getD j (.rcell 0)))
    (hws : ∀ j, j < tcs.length →
      PL.getD (p0 + tcs.length + j) 0 = addrOf ρ (scs.getD j (.rcell 0)))
    (hsv : ∀ j, j < tcs.length →
      readMem cheap (VL.getD (rv + j) 0) = saved.getD j 0)
    (hnd : ∀ j, j < tcs.length → ∀ c, validCell n K c →
      VL.getD (rv + j) 0 ≠ addrOf ρ c)
    (hsH : ∀ j, j < tcs.length → VL.getD (rv + j) 0 < cheap.length)
    (hrvb : rv + tcs.length ≤ VL.length)
    (haddrlt : ∀ c, validCell n K c → addrOf ρ c < cheap.length)
    (hclen : cadv.length = F.length)
    (hHrel : ∀ c, validCell n K c → readMem cheap (addrOf ρ c) = aheap c)
    (hArel : ∀ c, validCell n K c → addrOf ρ c ∈ PL →
      cadv.getD (F.indexOf (addrOf ρ c)) 0 = aad c) :
    ∃ cheap2 cadv2,
      walkStep PL VL EL adjL
        { typ := typAssignment, op := tcs.length, p := p0, v := rv }
        (cheap, cadv)
        = .ok (cheap2, cadv2) ∧
      cheap2.length = cheap.length ∧
      cadv2.length = F.length ∧
      (∀ c, validCell n K c → readMem cheap2 (addrOf ρ c)
        = (aback1 (.aassign tcs scs saved) (aheap, aad)).1 c) ∧
      (∀ c, validCell n K c → addrOf ρ c ∈ PL →
        cadv2.getD (F.indexOf (addrOf ρ c)) 0
          = (aback1 (.aassign tcs scs saved) (aheap, aad)).2 c) ∧
      (∀ a, (∀ c, validCell n K c → a ≠ addrOf ρ c) →
        (∀ j, j < tcs.length → a ≠ VL.getD (rv + j) 0) →
        readMem cheap2 a = readMem cheap a) := by
  have hwint : ∀ i, i < tcs.length →
      adjL.getD (p0 + i) 0 = F.indexOf (addrOf ρ (tcs.getD i (.rcell 0))) ∧
      addrOf ρ (tcs.getD i (.rcell 0)) ∈ PL := by
    intro i hi
    have hmem : addrOf ρ (tcs.getD i (.rcell 0)) ∈ PL := by
      rw [← hwt i hi]
      exact getD_mem _ _ _ (by omega)
    exact ⟨by rw [hadjL _ (by omega), hwt i hi], hmem⟩
  have hwins : ∀ i, i < scs.length →
      adjL.getD (p0 + tcs.length + i) 0
        = F.indexOf (addrOf ρ (scs.getD i (.rcell 0))) ∧
      addrOf ρ (scs.getD i (.rcell 0)) ∈ PL := by
    intro i hi
    rw [hlscs] at hi
    have hmem : addrOf ρ (scs.getD i (.rcell 0)) ∈ PL := by
      rw [← hws i hi]
      exact getD_mem _ _ _ (by omega)
    exact ⟨by rw [hadjL _ (by omega), hws i hi], hmem⟩
  have hrestore := restore_loop ρ n K PL VL tcs saved p0 rv cheap
    hlsaved htcs (fun i hi => hwt i hi) (fun i hi => hsv i hi)
    (fun i hi c hc => hnd i hi c hc)
  have hsave := foldRange_writeMem tcs.length (fun i => VL.getD (rv + i) 0)
    (fun i => cadv.getD (adjL.getD (p0 + i) 0) 0)
    (writeList cheap (tcs.map (addrOf ρ)) saved)
  have hlen1 : (writeList cheap (tcs.map (addrOf ρ)) saved).length
      = cheap.length := writeList_length _ _ _
  have hsanodup : ((List.range tcs.length).map
      (fun i => VL.getD (rv + i) 0)).Nodup := by
    refine nodup_map_range tcs.length _ (fun i j hi hj he => ?_)
    by_contra hne
    rcases Nat.lt_or_ge i j with hlt | hge
    · have := pairwise_lt_getD VL hVLmono (rv + i) (rv + j)
        (by omega) (by omega) (by omega)
      omega
    · have hgt : j < i := by omega
      have := pairwise_lt_getD VL hVLmono (rv + j) (rv + i)
        (by omega) (by omega) (by omega)
      omega
  have hsaval : ∀ p ∈ (List.range tcs.length).map
        (fun i => VL.getD (rv + i) 0),
      p < (writeList cheap (tcs.map (addrOf ρ)) saved).length := by
    intro p hp
    simp only [List.mem_map, List.mem_range] at hp
    obtain ⟨i, hi, rfl⟩ := hp
    rw [hlen1]
    exact hsH i hi
  have hnotsave : ∀ c, validCell n K c →
      addrOf ρ c ∉ (List.range tcs.length).map
        (fun i => VL.getD (rv + i) 0) := by
    intro c hc hmem
    simp only [List.mem_map, List.mem_range] at hmem
    obtain ⟨i, hi, he⟩ := hmem
    exact hnd i hi c hc he
  have hheap2 : ∀ c, validCell n K c →
      readMem (writeList (writeList cheap (tcs.map (addrOf ρ)) saved)
          ((List.range tcs.length).map (fun i => VL.getD (rv + i) 0))
          ((List.range tcs.length).map
            (fun i => cadv.getD (adjL.getD (p0 + i) 0) 0))) (addrOf ρ c)
        = cupdSeq aheap tcs saved c := by
    intro c hc
    rw [writeList_preserve _ _ _ _ (hnotsave c hc)]
    exact writeList_cupdSeq ρ n K cheap aheap tcs saved htcs hinj
      haddrlt hHrel c hc
  have hscratchread : ∀ i, i < tcs.length →
      readMem (writeList (writeList cheap (tcs.map (addrOf ρ)) saved)
          ((List.range tcs.length).map (fun i => VL.getD (rv + i) 0))
          ((List.range tcs.length).map
            (fun i => cadv.getD (adjL.getD (p0 + i) 0) 0)))
          (VL.getD (rv + i) 0)
        = aad (tcs.getD i (.rcell 0)) := by
    intro i hi
    have hgd : ((List.range tcs.length).map
        (fun i => VL.getD (rv + i) 0)).getD i 0 = VL.getD (rv + i) 0 :=
      getD_map_range _ _ _ _ hi
    rw [← hgd]
    rw [writeList_getD_nodup _ _ _ hsanodup (by simp) hsaval i (by simpa using hi)]
    rw [getD_map_range _ _ _ _ hi]
    rw [(hwint i hi).1]
    exact hArel _ (htcs _ (getD_mem _ _ _ hi)) (hwint i hi).2
  have hzero := zero_loop n K ρ PL F adjL hF hinj tcs p0 cadv aad
    htcs hwint hclen hArel
  have hadd := add_loop n K ρ PL F adjL hF hinj scs (tcs.map aad)
    (fun i => readMem (writeList (writeList cheap (tcs.map (addrOf ρ)) saved)
        ((List.range tcs.length).map (fun i => VL.getD (rv + i) 0))
        ((List.range tcs.length).map
          (fun i => cadv.getD (adjL.getD (p0 + i) 0) 0)))
        (VL.getD (rv + i) 0))
    (p0 + tcs.length)
    (foldRange tcs.length (fun i a => a.set (adjL.getD (p0 + i) 0) 0) cadv)
    (zeroSeq aad tcs)
    hscs (by simp [hlscs])
    (fun i hi => by
      show readMem _ _ = (tcs.map aad).getD i 0
      rw [hscratchread i (by rw [hlscs] at hi; exact hi)]
      rw [getD_map_lt _ _ _ (by rw [hlscs] at hi; exact hi) _ (.rcell 0)])
    hwins hzero.1 (fun c hc hcPL => hzero.2 c hc hcPL)
  rw [hlscs] at hadd
  refine ⟨_, _,
    walkStep_assignk_eval PL VL EL adjL tcs.length p0 rv hk1 cheap cadv,
    ?_, ?_, ?_, ?_, ?_⟩
  · rw [hrestore, hsave]
    rw [writeList_length, writeList_length]
  · rw [hrestore, hsave]
    exact hadd.1
  · intro c hc
    rw [hrestore, hsave]
    exact hheap2 c hc
  · intro c hc hcPL
    rw [hrestore, hsave]
    exact hadd.2 c hc hcPL
  · intro a hndc hnds
    rw [hrestore, hsave]
    rw [writeList_preserve _ _ _ _ (by
      intro hmem
      simp only [List.mem_map, List.mem_range] at hmem
      obtain ⟨i, hi, he⟩ := hmem
      exact hnds i hi he.symm)]
    rw [writeList_preserve _ _ _ _ (by
      intro hmem
      simp only [List.mem_map] at hmem
      obtain ⟨c, hcm, he⟩ := hmem
      exact hndc c (htcs c hcm) he.symm)]


theorem walkStep_elem_rel (n K : Nat) (ρ PL VL F adjL : List Nat)
    (EL : List Elem)
    (hF : F = firstOcc [] PL)
    (hinj : ∀ c d, validCell n K c → validCell n K d →
      addrOf ρ c = addrOf ρ d → c = d)
    (hadjL : ∀ idx, idx < PL.length →
      adjL.getD idx 0 = F.indexOf (PL.getD idx 0))
    (g : EGrad) (resc : Cell) (args : List Cell) (saved : List ℚ)
    (e0 p0 rv : Nat) (cheap cadv : List ℚ) (aheap aad : CellMap)
    (hlsaved : saved.length = args.length)
    (hresc : validCell n K resc) (hargs : ∀ c ∈ args, validCell n K c)
    (hEn : (EL.getD e0 { n := 0, g := fun _ _ => [] }).n = args.length)
    (hEg : (EL.getD e0 { n := 0, g := fun _ _ => [] }).g = g)
    (hPLlen : p0 + 1 + args.length ≤ PL.length)
    (hw0 : PL.getD p0 0 = addrOf ρ resc)
    (hwj : ∀ j, j < args.length →
      PL.getD (p0 + 1 + j) 0 = addrOf ρ (args.getD j (.rcell 0)))
    (hsv : ∀ j, j < args.length →
      readMem cheap (VL.getD (rv + j) 0) = saved.getD j 0)
    (hclen : cadv.length = F.length)
    (hHrel : ∀ c, validCell n K c → readMem cheap (addrOf ρ c) = aheap c)
    (hArel : ∀ c, validCell n K c → addrOf ρ c ∈ PL →
      cadv.getD (F.indexOf (addrOf ρ c)) 0 = aad c) :
    ∃ cadv2,
      walkStep PL VL EL adjL
        { typ := typElemental, op := e0, p := p0, v := rv } (cheap, cadv)
        = .ok (cheap, cadv2) ∧
      cadv2.length = F.length ∧
      (∀ c, validCell n K c → addrOf ρ c ∈ PL →
        cadv2.getD (F.indexOf (addrOf ρ c)) 0
          = (aback1 (.aelem g resc args saved) (aheap, aad)).2 c) := by
  have hrescPL : addrOf ρ resc ∈ PL := by
    rw [← hw0]
    exact getD_mem _ _ _ (by omega)
  have hs0 : adjL.getD p0 0 = F.indexOf (addrOf ρ resc) := by
    rw [hadjL _ (by omega), hw0]
  have ha : cadv.getD (adjL.getD p0 0) 0 = aad resc := by
    rw [hs0]
    exact hArel resc hresc hrescPL
  have hh0 : readMem cheap (PL.getD p0 0) = aheap resc := by
    rw [hw0]
    exact hHrel _ hresc
  have hdvals : (List.range args.length).map
      (fun i => readMem cheap (VL.getD (rv + i) 0)) = saved := by
    have h1 : (List.range args.length).map
        (fun i => readMem cheap (VL.getD (rv + i) 0))
        = (List.range args.length).map (fun i => saved.getD i 0) := by
      refine List.map_congr_left (fun i hi => ?_)
      exact hsv i (by simpa using hi)
    rw [h1, ← hlsaved]
    exact map_range_getD saved
  have hwinj : ∀ i, i < args.length →
      adjL.getD (p0 + 1 + i) 0
        = F.indexOf (addrOf ρ (args.getD i (.rcell 0))) ∧
      addrOf ρ (args.getD i (.rcell 0)) ∈ PL := by
    intro i hi
    have hmem : addrOf ρ (args.getD i (.rcell 0)) ∈ PL := by
      rw [← hwj i hi]
      exact getD_mem _ _ _ (by omega)
    exact ⟨by rw [hadjL _ (by omega), hwj i hi], hmem⟩
  have hadd := add_loop n K ρ PL F adjL hF hinj args
    ((List.range args.length).map
      (fun i => aad resc * (g (aheap resc) saved).getD i 0))
    (fun i => cadv.getD (adjL.getD p0 0) 0
      * ((EL.getD e0 { n := 0, g := fun _ _ => [] }).g
          (readMem cheap (PL.getD p0 0))
          ((List.range args.length).map
            (fun i => readMem cheap (VL.getD (rv + i) 0)))).getD i 0)
    (p0 + 1) cadv aad hargs (by simp)
    (fun i hi => by
      show cadv.getD (adjL.getD p0 0) 0 * _ = _
      rw [ha, hEg, hh0, hdvals, getD_map_range _ _ _ _ hi])
    hwinj hclen hArel
  have heval := walkStep_elem_eval PL VL EL adjL e0 p0 rv cheap cadv
  rw [hEn] at heval
  refine ⟨_, heval, ?_, ?_⟩
  · exact hadd.1
  · intro c hc hcPL
    have h2 := hadd.2 c hc hcPL
    have habs : (aback1 (.aelem g resc args saved) (aheap, aad)).2
        = addScaled (aad resc) aad args (g (aheap resc) saved) := rfl
    have h3 : addSeq aad args
        ((List.range args.length).map
          (fun i => aad resc * (g (aheap resc) saved).getD i 0)) c
        = (aback1 (.aelem g resc args saved) (aheap, aad)).2 c := by
      rw [habs, addScaled_eq_addSeq]
    exact h2.trans h3


theorem walk_correspond (n K : Nat) (ρ PL VL F adjL : List Nat)
    (EL : List Elem) (H VB : Nat)
    (hF : F = firstOcc [] PL)
    (hinj : ∀ c d, validCell n K c → validCell n K d →
      addrOf ρ c = addrOf ρ d → c = d)
    (hadjL : ∀ idx, idx < PL.length →
      adjL.getD idx 0 = F.indexOf (PL.getD idx 0))
    (hVLmono : List.Pairwise (· < ·) VL)
    (hVB : VB ≤ VL.length) :
    ∀ (R : List Rec) (A : List AAct) (p0 v0 e0 : Nat)
      (cheap cadv : List ℚ) (aheap aad : CellMap),
    TraceStruct n K ρ PL VL EL H VB R A p0 v0 e0 →
    TraceSaved cheap VL R A →
    cheap.length = H →
    cadv.length = F.length →
    (∀ c, validCell n K c → addrOf ρ c < H) →
    (∀ c, validCell n K c → readMem cheap (addrOf ρ c) = aheap c) →
    (∀ c, validCell n K c → addrOf ρ c ∈ PL →
      cadv.getD (F.indexOf (addrOf ρ c)) 0 = aad c) →
    ∃ cheap2 cadv2,
      backwardWalk PL VL EL adjL R.reverse (cheap, cadv)
        = .ok (cheap2, cadv2) ∧
      cheap2.length = H ∧
      cadv2.length = F.length ∧
      (∀ c, validCell n K c → readMem cheap2 (addrOf ρ c)
        = (aback A.reverse (aheap, aad)).1 c) ∧
      (∀ c, validCell n K c → addrOf ρ c ∈ PL →
        cadv2.getD (F.indexOf (addrOf ρ c)) 0
          = (aback A.reverse (aheap, aad)).2 c) ∧
      (∀ a, a < H → (∀ c, validCell n K c → a ≠ addrOf ρ c) →
        (∀ idx, v0 ≤ idx → idx < VL.length → a ≠ VL.getD idx 0) →
        readMem cheap2 a = readMem cheap a) := by
  intro R
  induction R with
  | nil =>
    intro A p0 v0 e0 cheap cadv aheap aad hTS hSV hhlen hclen haddrH hHrel hArel
    cases A with
    | nil =>
      exact ⟨cheap, cadv, rfl, hhlen, hclen, hHrel, hArel,
        fun a _ _ _ => rfl⟩
    | cons x A2 => simp [TraceStruct] at hTS
  | cons r Rt ih =>
    intro A p0 v0 e0 cheap cadv aheap aad hTS hSV hhlen hclen haddrH hHrel hArel
    cases A with
    | nil => simp [TraceStruct] at hTS
    | cons x A2 =>
      cases x with
      | aarith op resc args =>
        rw [TraceSaved] at hSV
        rw [TraceStruct] at hTS
        obtain ⟨hSVr, hSV2⟩ := hSV
        obtain ⟨h1, h2, h3, h4, h5, h6, h7, h8⟩ := hTS
        obtain ⟨cheap1, cadv1, hw1, hl1, hc1, hH1, hA1, hP1⟩ :=
          ih A2 (p0 + 1 + args.length) v0 e0 cheap cadv aheap aad h8 hSV2
            hhlen hclen haddrH hHrel hArel
        obtain ⟨cadv2, hstep, hc2, hA2x⟩ := walkStep_arith_rel n K ρ PL VL F
          adjL EL hF hinj hadjL op resc args p0 cheap1 cadv1
          (aback A2.reverse (aheap, aad)).1 (aback A2.reverse (aheap, aad)).2
          h2 h3 h4 h5 h6 h7 hc1 hH1 hA1
        refine ⟨cheap1, cadv2, ?_, hl1, hc2, ?_, ?_, ?_⟩
        · rw [List.reverse_cons, backwardWalk_append, hw1]
          show backwardWalk PL VL EL adjL [r] (cheap1, cadv1) = _
          rw [h1, backwardWalk, hstep]
          rfl
        · intro c hc
          rw [List.reverse_cons, aback_append]
          show readMem cheap1 (addrOf ρ c)
            = (aback1 (.aarith op resc args)
                (aback A2.reverse (aheap, aad))).1 c
          have habs : (aback1 (.aarith op resc args)
              (aback A2.reverse (aheap, aad))).1
              = (aback A2.reverse (aheap, aad)).1 := by
            rcases h2 with ⟨ho, _⟩ | ⟨ho, _⟩
            · subst ho; rfl
            · rcases ho with ho | ho | ho | ho <;> subst ho <;> rfl
          rw [habs]
          exact hH1 c hc
        · intro c hc hcPL
          rw [List.reverse_cons, aback_append]
          exact hA2x c hc hcPL
        · intro a ha hndc hnds
          exact hP1 a ha hndc hnds
      | aassign tcs scs saved =>
        rw [TraceSaved] at hSV
        rw [TraceStruct] at hTS
        obtain ⟨hSVr, hSV2⟩ := hSV
        obtain ⟨rv, vw, h1, h2, h3, h4, h5, h6, h7, h8, h9, h10, h11, h12, h13⟩
          := hTS
        obtain ⟨cheap1, cadv1, hw1, hl1, hc1, hH1, hA1, hP1⟩ :=
          ih A2 (p0 + 2 * tcs.length) (rv + vw) e0 cheap cadv aheap aad h13
            hSV2 hhlen hclen haddrH hHrel hArel
        have hrv : r.v = rv := by rw [h1]
        rw [hrv] at hSVr
        have hsv1 : ∀ j, j < tcs.length →
            readMem cheap1 (VL.getD (rv + j) 0) = saved.getD j 0 := by
          intro j hj
          rw [hP1 _ (h12 j hj).1 (h12 j hj).2 (fun idx hidx1 hidx2 => by
            have := pairwise_lt_getD VL hVLmono (rv + j) idx
              (by omega) (by omega) (by omega)
            omega)]
          exact hSVr j hj
        have haddrlt1 : ∀ c, validCell n K c → addrOf ρ c < cheap1.length := by
          intro c hc
          rw [hl1]
          exact haddrH c hc
        by_cases hk1 : tcs.length = 1
        · -- fast path
          cases tcs with
          | nil => simp at hk1
          | cons tc tl =>
            cases tl with
            | cons a b => simp at hk1
            | nil =>
              cases scs with
              | nil => simp at h5
              | cons sc sl =>
                cases sl with
                | cons a b => simp at h5
                | nil =>
                  cases saved with
                  | nil => simp at h6
                  | cons q ql =>
                    cases ql with
                    | cons a b => simp at h6
                    | nil =>
                      obtain ⟨cheap2, cadv2, hstep, hl2, hc2, hH2, hA2x, hP2⟩ :=
                        walkStep_assign1_rel n K ρ PL VL F adjL EL hF hinj
                          hadjL tc sc q p0 rv cheap1 cadv1
                          (aback A2.reverse (aheap, aad)).1
                          (aback A2.reverse (aheap, aad)).2
                          (h7 tc (by simp)) (h8 sc (by simp))
                          (by simp only [List.length_cons, List.length_nil]
                              at h9; omega)
                          (by
                            have := h10 0 (by simp)
                            simpa using this)
                          (by
                            have := h11 0 (by simp)
                            simpa using this)
                          (by
                            have := hsv1 0 (by simp)
                            simpa using this)
                          haddrlt1 hc1 hH1 hA1
                      refine ⟨cheap2, cadv2, ?_, by rw [hl2, hl1], hc2,
                        ?_, ?_, ?_⟩
                      · have hstep2 : walkStep PL VL EL adjL
                            { typ := typAssignment, op := [tc].length, p := p0,
                              v := rv } (cheap1, cadv1)
                            = .ok (cheap2, cadv2) := hstep
                        rw [List.reverse_cons, backwardWalk_append, hw1]
                        show backwardWalk PL VL EL adjL [r] (cheap1, cadv1) = _
                        rw [h1, backwardWalk, hstep2]
                        rfl
                      · intro c hc
                        rw [List.reverse_cons, aback_append]
                        exact hH2 c hc
                      · intro c hc hcPL
                        rw [List.reverse_cons, aback_append]
                        exact hA2x c hc hcPL
                      · intro a ha hndc hnds
                        rw [hP2 a hndc]
                        exact hP1 a ha hndc (fun idx hidx1 hidx2 =>
                          hnds idx (by omega) hidx2)
        · -- general path
          obtain ⟨cheap2, cadv2, hstep, hl2, hc2, hH2, hA2x, hP2⟩ :=
            walkStep_assignk_rel n K ρ PL VL F adjL EL hF hinj hadjL hVLmono
              tcs scs saved p0 rv cheap1 cadv1
              (aback A2.reverse (aheap, aad)).1
              (aback A2.reverse (aheap, aad)).2
              hk1 h5 h6 h7 h8 h9 h10 h11 hsv1
              (fun j hj c hc => (h12 j hj).2 c hc)
              (fun j hj => by
                rw [hl1]
                exact (h12 j hj).1)
              (by omega) haddrlt1 hc1 hH1 hA1
          refine ⟨cheap2, cadv2, ?_, by rw [hl2, hl1], hc2, ?_, ?_, ?_⟩
          · rw [List.reverse_cons, backwardWalk_append, hw1]
            show backwardWalk PL VL EL adjL [r] (cheap1, cadv1) = _
            rw [h1, backwardWalk, hstep]
            rfl
          · intro c hc
            rw [List.reverse_cons, aback_append]
            exact hH2 c hc
          · intro c hc hcPL
            rw [List.reverse_cons, aback_append]
            exact hA2x c hc hcPL
          · intro a ha hndc hnds
            rw [hP2 a hndc (fun j hj => hnds (rv + j) (by omega) (by omega))]
            exact hP1 a ha hndc (fun idx hidx1 hidx2 =>
              hnds idx (by omega) hidx2)
      | aelem g resc args saved =>
        rw [TraceSaved] at hSV
        rw [TraceStruct] at hTS
        obtain ⟨hSVr, hSV2⟩ := hSV
        obtain ⟨rv, h1, h2, h3, h4, h5, h6, h7, h8, h9, h10, h11, h12, h13, h14⟩
          := hTS
        obtain ⟨cheap1, cadv1, hw1, hl1, hc1, hH1, hA1, hP1⟩ :=
          ih A2 (p0 + 1 + args.length) (rv + args.length) (e0 + 1) cheap cadv
            aheap aad h14 hSV2 hhlen hclen haddrH hHrel hArel
        have hrv : r.v = rv := by rw [h1]
        rw [hrv] at hSVr
        have hsv1 : ∀ j, j < args.length →
            readMem cheap1 (VL.getD (rv + j) 0) = saved.getD j 0 := by
          intro j hj
          rw [hP1 _ (h13 j hj).1 (h13 j hj).2 (fun idx hidx1 hidx2 => by
            have := pairwise_lt_getD VL hVLmono (rv + j) idx
              (by omega) (by omega) (by omega)
            omega)]
          exact hSVr j hj
        obtain ⟨cadv2, hstep, hc2, hA2x⟩ := walkStep_elem_rel n K ρ PL VL F
          adjL EL hF hinj hadjL g resc args saved e0 p0 rv cheap1 cadv1
          (aback A2.reverse (aheap, aad)).1 (aback A2.reverse (aheap, aad)).2
          h4 h5 h6 h8 h9 h10 h11 h12 hsv1 hc1 hH1 hA1
        refine ⟨cheap1, cadv2, ?_, hl1, hc2, ?_, ?_, ?_⟩
        · rw [List.reverse_cons, backwardWalk_append, hw1]
          show backwardWalk PL VL EL adjL [r] (cheap1, cadv1) = _
          rw [h1, backwardWalk, hstep]
          rfl
        · intro c hc
          rw [List.reverse_cons, aback_append]
          show readMem cheap1 (addrOf ρ c)
            = (aback1 (.aelem g resc args saved)
                (aback A2.reverse (aheap, aad))).1 c
          exact hH1 c hc
        · intro c hc hcPL
          rw [List.reverse_cons, aback_append]
          exact hA2x c hc hcPL
        · intro a ha hndc hnds
          exact hP1 a ha hndc (fun idx hidx1 hidx2 =>
            hnds idx (by omega) hidx2)


theorem getD_set_self_g {α : Type} (l : List α) (i : Nat) (q d : α)
    (h : i < l.length) : (l.set i q).getD i d = q := by
  rw [List.getD_eq_getElem?_getD, List.getElem?_set_eq_of_lt _ (by simpa using h)]
  rfl

theorem getD_set_ne_g {α : Type} (l : List α) (i j : Nat) (q d : α)
    (h : j ≠ i) : (l.set i q).getD j d = l.getD j d := by
  rw [List.getD_eq_getElem?_getD, List.getElem?_set_ne (Ne.symm h),
    ← List.getD_eq_getElem?_getD]

theorem getD_replicate (m i : Nat) : (List.replicate m (0 : ℚ)).getD i 0 = 0 := by
  rw [List.getD_eq_getElem?_getD, List.getElem?_replicate]
  by_cases h : i < m <;> simp [h]

theorem TraceStruct_set0 (n K : Nat) (ρ : List Nat) (PL VL : List Nat)
    (EL : List Elem) (H VB : Nat) (px : Nat) :
    ∀ (R : List Rec) (A : List AAct) (p0 v0 e0 : Nat),
    TraceStruct n K ρ PL VL EL H VB R A p0 v0 e0 → 1 ≤ p0 →
    TraceStruct n K ρ (PL.set 0 px) VL EL H VB R A p0 v0 e0 := by
  intro R
  induction R with
  | nil =>
    intro A p0 v0 e0 hTS hp0
    cases A with
    | nil => exact hTS
    | cons x A2 => simp [TraceStruct] at hTS
  | cons r Rt ih =>
    intro A p0 v0 e0 hTS hp0
    cases A with
    | nil => simp [TraceStruct] at hTS
    | cons x A2 =>
      cases x with
      | aarith op resc args =>
        rw [TraceStruct] at hTS ⊢
        obtain ⟨h1, h2, h3, h4, h5, h6, h7, h8⟩ := hTS
        refine ⟨h1, h2, h3, h4, by simpa using h5, ?_, ?_,
          ih _ _ _ _ h8 (by omega)⟩
        · rw [getD_set_ne_g _ _ _ _ _ (by omega)]
          exact h6
        · intro j hj
          rw [getD_set_ne_g _ _ _ _ _ (by omega)]
          exact h7 j hj
      | aassign tcs scs saved =>
        rw [TraceStruct] at hTS ⊢
        obtain ⟨rv, vw, h1, h2, h3, h4, h5, h6, h7, h8, h9, h10, h11, h12, h13⟩
          := hTS
        refine ⟨rv, vw, h1, h2, h3, h4, h5, h6, h7, h8, by simpa using h9,
          ?_, ?_, h12, ih _ _ _ _ h13 (by omega)⟩
        · intro j hj
          rw [getD_set_ne_g _ _ _ _ _ (by omega)]
          exact h10 j hj
        · intro j hj
          rw [getD_set_ne_g _ _ _ _ _ (by omega)]
          exact h11 j hj
      | aelem g resc args saved =>
        rw [TraceStruct] at hTS ⊢
        obtain ⟨rv, h1, h2, h3, h4, h5, h6, h7, h8, h9, h10, h11, h12, h13, h14⟩
          := hTS
        refine ⟨rv, h1, h2, h3, h4, h5, h6, h7, h8, h9, by simpa using h10,
          ?_, ?_, h13, ih _ _ _ _ h14 (by omega)⟩
        · rw [getD_set_ne_g _ _ _ _ _ (by omega)]
          exact h11
        · intro j hj
          rw [getD_set_ne_g _ _ _ _ _ (by omega)]
          exact h12 j hj

theorem backward_shape (t : Tape) (n : Nat) (R : List Rec)
    (hcstack : t.cstack = [{ n := n, r := 1, p := 0, v := 0, e := 0 }])
    (hadj : t.adj = []) (hadv : t.adv = [])
    (hrec : t.records = emptyRec :: R) :
    backward t
      = match backwardWalk t.places t.values t.elementals
          (buildIndex t.places 0 (List.replicate t.places.length 0) []
            (fun _ => none)).1 R.reverse
          (t.heap,
            (buildIndex t.places 0 (List.replicate t.places.length 0) []
              (fun _ => none)).2.set
              ((buildIndex t.places 0 (List.replicate t.places.length 0) []
                (fun _ => none)).1.getD 0 0) 1) with
        | .error _ => .error ()
        | .ok s => .ok { t with
            heap := s.1,
            adj := (buildIndex t.places 0 (List.replicate t.places.length 0) []
              (fun _ => none)).1,
            adv := s.2 } := by
  simp only [backward, topFrame, hcstack, hadj, hadv, hrec]
  rfl


theorem Pop_shape (t : Tape) (n : Nat)
    (hcstack : t.cstack = [{ n := n, r := 1, p := 0, v := 0, e := 0 }]) :
    Pop t = { t with
              records := t.records.take 1,
              places := t.places.take 0,
              values := t.values.take 0,
              elementals := t.elementals.take 0,
              cstack := [] } := by
  simp only [Pop, topFrame, hcstack]
  rfl

theorem evalProg_spec (env : FuncEnv) (xs : List ℚ) (P : List Cmd) (r : Ref)
    (hwf : progWF env xs.length 0 P)
    (hr : refWF xs.length (absRun env xs P).2.1 r) :
    ∃ t4, evalProg env xs P r = .ok (t4, absGrad env xs P r) ∧
      t4.records.length = 1 ∧ t4.places.length = 0 ∧ t4.values.length = 0 ∧
      t4.elementals.length = 0 ∧ t4.cstack.length = 0 ∧
      t4.adj.length = xs.length + 1 + pwA (absRun env xs P).2.2 ∧
      1 ≤ t4.adv.length ∧
      (∀ i, i < xs.length →
        readMem t4.heap i = (absBack env xs P r).1 (.pcell i)) := by
  obtain ⟨t2, ρ2, hrun, hI⟩ := runProg_full env xs P hwf
  obtain ⟨hρlen, hcstack, hadj, hadv, hheapn, hρband, hρmono, hVLmono, hVLlt,
    hVLne, hheap, hplaces, hplen, helen, hrecords⟩ := hI
  obtain ⟨R, hR, hTS, hSV⟩ := hrecords
  have hinj := addrOf_inj xs.length (absRun env xs P).2.1 ρ2 hρlen
    (fun k hk => (hρband k hk).1) hρmono
  have haddrH : ∀ c, validCell xs.length (absRun env xs P).2.1 c →
      addrOf ρ2 c < t2.heap.length :=
    addrOf_lt _ _ _ _ hheapn (fun k hk => (hρband k hk).2)
  have htcr : validCell xs.length (absRun env xs P).2.1 (toCell r) :=
    toCell_refWF _ _ _ hr
  set px := addrOf ρ2 (toCell r) with hpx
  have hres : resolve (paramAddrs xs.length) ρ2 r = px :=
    resolve_addrOf _ _ _ _ hr
  set PL3 := t2.places.set 0 px with hPL3
  set F := firstOcc [] PL3 with hF
  have hret : (Return px t2).1 = { t2 with places := PL3 } := by
    simp [Return, topFrame, hcstack]
  have hPL3len : PL3.length = t2.places.length := by
    rw [hPL3]
    simp
  have hlen3 : PL3.length = xs.length + 1 + pwA (absRun env xs P).2.2 := by
    rw [hPL3len, hplen]
  have hPL30 : PL3.getD 0 0 = px :=
    getD_set_self_g _ _ _ _ (by omega)
  have hpxPL3 : px ∈ PL3 := by
    rw [← hPL30]
    exact getD_mem _ _ _ (by omega)
  have hpxF : px ∈ F := hF ▸ firstOcc_mem [] PL3 _ hpxPL3
  have hTS3 := TraceStruct_set0 xs.length (absRun env xs P).2.1 ρ2 t2.places
    t2.values t2.elementals t2.heap.length t2.values.length px R
    (absRun env xs P).2.2 (xs.length + 1) 1 0 hTS (by omega)
  have hbspec := buildIndex_spec PL3 0 (List.replicate PL3.length 0) []
    (fun _ => none) (fun a => by simp) (by simp)
  simp only [List.length_nil, List.replicate_zero, Nat.zero_add] at hbspec
  set BI := buildIndex PL3 0 (List.replicate PL3.length 0) [] (fun _ => none)
    with hBI
  have hadjLlen : BI.1.length = PL3.length := by
    rw [hBI, buildIndex_adj_length]
    simp
  have hadjL : ∀ idx, idx < PL3.length →
      BI.1.getD idx 0 = F.indexOf (PL3.getD idx 0) := by
    intro idx hidx
    rw [hF]
    exact hbspec.2 idx hidx
  have hadv2 : BI.2 = List.replicate F.length 0 := by
    rw [hF]
    exact hbspec.1
  have hseed0 : BI.1.getD 0 0 = F.indexOf px := by
    rw [hadjL 0 (by omega), hPL30]
  have hArel0 : ∀ c, validCell xs.length (absRun env xs P).2.1 c →
      addrOf ρ2 c ∈ PL3 →
      ((List.replicate F.length 0).set (F.indexOf px) 1).getD
          (F.indexOf (addrOf ρ2 c)) 0
        = (fun c => if c = toCell r then (1 : ℚ) else 0) c := by
    intro c hc hcPL
    by_cases hcr : c = toCell r
    · rw [hcr, ← hpx]
      rw [getD_set_self_g _ _ _ _ (by
        simp only [List.length_replicate]
        exact List.indexOf_lt_length.mpr hpxF)]
      simp
    · have hne : addrOf ρ2 c ≠ px := by
        rw [hpx]
        exact fun he => hcr (hinj c (toCell r) hc htcr he)
      have hcF : addrOf ρ2 c ∈ F := hF ▸ firstOcc_mem [] PL3 _ hcPL
      have hslot : F.indexOf (addrOf ρ2 c) ≠ F.indexOf px := fun he =>
        hne ((List.indexOf_inj hcF hpxF).mp he)
      rw [getD_set_ne_g _ _ _ _ _ hslot, getD_replicate]
      simp [hcr]
  obtain ⟨cheap2, cadv2, hwok, hl2, hc2, hH2, hA2, hP2⟩ :=
    walk_correspond xs.length (absRun env xs P).2.1 ρ2 PL3 t2.values F BI.1
      t2.elementals t2.heap.length t2.values.length hF hinj hadjL hVLmono
      (le_refl _) R (absRun env xs P).2.2 (xs.length + 1) 1 0 t2.heap
      ((List.replicate F.length 0).set (F.indexOf px) 1)
      (absRun env xs P).1 (fun c => if c = toCell r then 1 else 0)
      hTS3 hSV rfl (by simp) haddrH hheap hArel0
  have hbw := backward_shape { t2 with places := PL3 } xs.length R
    hcstack hadj hadv hR
  dsimp only at hbw
  rw [← hBI, hadv2, hseed0, hwok] at hbw
  set T4 : Tape := { t2 with places := PL3, heap := cheap2, adj := BI.1, adv := cadv2 } with hT4
  have hbw2 : backward { t2 with places := PL3 } = .ok T4 := hbw
  have hgrad : Gradient { t2 with places := PL3 }
      = .ok (Pop T4, partials T4) := by
    simp only [Gradient, hbw2]
  have hpart : partials T4 = absGrad env xs P r := by
    obtain ⟨W, hW⟩ := hplaces
    simp only [partials, topFrame, hcstack, absGrad]
    show (List.range xs.length).map
        (fun i => cadv2.getD (BI.1.getD (0 + i + 1) 0) 0) = _
    refine List.map_congr_left (fun i hi => ?_)
    have hin : i < xs.length := by simpa using hi
    have hidx : 0 + i + 1 = i + 1 := by omega
    have hPL3i : PL3.getD (i + 1) 0 = i := by
      rw [hPL3, hW]
      show ((xs.length :: (paramAddrs xs.length ++ W)).set 0 px).getD
        (i + 1) 0 = i
      rw [List.set_cons_zero]
      show (paramAddrs xs.length ++ W).getD i 0 = i
      rw [List.getD_append _ _ _ _ (by simp [paramAddrs]; omega)]
      rw [getD_eq_getElem' _ _ _ (by simp [paramAddrs]; omega)]
      simp [paramAddrs]
    have hsloti : BI.1.getD (i + 1) 0 = F.indexOf (addrOf ρ2 (.pcell i)) := by
      rw [hadjL (i + 1) (by omega), hPL3i]
      rfl
    have hmemi : addrOf ρ2 (.pcell i) ∈ PL3 := by
      show (i : Nat) ∈ PL3
      rw [← hPL3i]
      exact getD_mem _ _ _ (by omega)
    rw [hidx, hsloti]
    exact hA2 (.pcell i) hin hmemi
  have hpop := Pop_shape T4 xs.length hcstack
  refine ⟨Pop T4, ?_, ?_, ?_, ?_, ?_, ?_, ?_, ?_, ?_⟩
  · show evalProg env xs P r = _
    simp only [evalProg]
    rw [hrun]
    show Gradient (Return (resolve (paramAddrs xs.length) ρ2 r) t2).1 = _
    rw [hres, hret, hgrad, hpart]
  · rw [hpop]
    show (t2.records.take 1).length = 1
    rw [hR]
    rfl
  · rw [hpop]
    show (PL3.take 0).length = 0
    rfl
  · rw [hpop]
    show (t2.values.take 0).length = 0
    rfl
  · rw [hpop]
    show (t2.elementals.take 0).length = 0
    rfl
  · rw [hpop]
    rfl
  · rw [hpop]
    show BI.1.length = xs.length + 1 + pwA (absRun env xs P).2.2
    rw [hadjLlen, hlen3]
  · rw [hpop]
    show 1 ≤ cadv2.length
    rw [hc2]
    have : 0 < F.length := List.length_pos.mpr (List.ne_nil_of_mem hpxF)
    omega
  · intro i hin
    rw [hpop]
    show readMem cheap2 i = _
    exact hH2 (.pcell i) hin

theorem cupd_self (h : CellMap) (c : Cell) : cupd h c (h c) = h := by
  funext d
  rw [cupd_at]
  split
  · next he => rw [he]
  · rfl

theorem cupd_overwrite (h : CellMap) (c : Cell) (a b : ℚ) :
    cupd (cupd h c a) c b = cupd h c b := by
  funext d
  rw [cupd_at, cupd_at, cupd_at]
  split <;> rfl

theorem cupd_ne (h : CellMap) (c : Cell) (q : ℚ) (d : Cell) (hne : d ≠ c) :
    cupd h c q d = h d := by rw [cupd_at, if_neg hne]

theorem validCell_ne_rcell (n K : Nat) (c : Cell) (hc : validCell n K c) :
    c ≠ .rcell K := by
  cases c with
  | pcell i => intro he; cases he
  | rcell k => intro he; cases he; exact lt_irrefl _ hc

theorem cupdSeq_not_mem (cs : List Cell) :
    ∀ (h : CellMap) (qs : List ℚ) (c : Cell), c ∉ cs →
      cupdSeq h cs qs c = h c := by
  induction cs with
  | nil => intro h qs c _; cases qs <;> rfl
  | cons c0 cs ih =>
      intro h qs c hc
      cases qs with
      | nil => rfl
      | cons q qs =>
          show cupdSeq (cupd h c0 q) cs qs c = h c
          rw [ih _ _ _ (fun hmem => hc (List.mem_cons_of_mem _ hmem))]
          exact cupd_ne _ _ _ _ (fun he => hc (he ▸ List.mem_cons_self _ _))

theorem cupdSeq_map_mem (f : CellMap) (cs : List Cell) :
    ∀ (h : CellMap) (c : Cell), c ∈ cs → cupdSeq h cs (cs.map f) c = f c := by
  induction cs with
  | nil => intro h c hc; cases hc
  | cons c0 cs ih =>
      intro h c hc
      show cupdSeq (cupd h c0 (f c0)) cs (cs.map f) c = f c
      by_cases hm : c ∈ cs
      · exact ih _ _ hm
      · have hc0 : c = c0 := by
          rcases List.mem_cons.mp hc with h1 | h1
          · exact h1
          · exact absurd h1 hm
        rw [cupdSeq_not_mem _ _ _ _ hm, hc0, cupd_at, if_pos rfl]

theorem cupdSeq_self (cs : List Cell) :
    ∀ h : CellMap, cupdSeq h cs (cs.map h) = h := by
  induction cs with
  | nil => intro h; rfl
  | cons c0 cs ih =>
      intro h
      show cupdSeq (cupd h c0 (h c0)) cs (cs.map h) = h
      rw [cupd_self]
      exact ih h

theorem arun_append (env : FuncEnv) (P Q : List Cmd) :
    ∀ s, arun env (P ++ Q) s = arun env Q (arun env P s) := by
  induction P with
  | nil => intro s; rfl
  | cons c P ih => intro s; exact ih (astep env c s)

theorem astep_shift (env : FuncEnv) (c : Cmd) (h : CellMap) (K : Nat)
    (A : List AAct) :
    astep env c (h, K, A) =
      ((astep env c (h, K, [])).1, (astep env c (h, K, [])).2.1,
        A ++ (astep env c (h, K, [])).2.2) := by
  cases c <;> simp [astep]

theorem arun_shift (env : FuncEnv) (P : List Cmd) :
    ∀ (h : CellMap) (K : Nat) (A : List AAct),
      arun env P (h, K, A) =
        ((arun env P (h, K, [])).1, (arun env P (h, K, [])).2.1,
          A ++ (arun env P (h, K, [])).2.2) := by
  induction P with
  | nil => intro h K A; simp [arun]
  | cons c P ih =>
      intro h K A
      show arun env P (astep env c (h, K, A)) =
        ((arun env P (astep env c (h, K, []))).1,
          (arun env P (astep env c (h, K, []))).2.1,
          A ++ (arun env P (astep env c (h, K, []))).2.2)
      rcases hS : astep env c (h, K, []) with ⟨h1, K1, D1⟩
      rw [astep_shift env c h K A, hS]
      show arun env P (h1, K1, A ++ D1) = _
      rw [ih h1 K1 (A ++ D1), ih h1 K1 D1]
      simp [List.append_assoc]

theorem arun_K (env : FuncEnv) (P : List Cmd) :
    ∀ s : CellMap × Nat × List AAct,
      (arun env P s).2.1 = s.2.1 + numResults P := by
  induction P with
  | nil => intro s; rfl
  | cons c P ih =>
      intro s
      show (arun env P (astep env c s)).2.1 = s.2.1 + numResults (c :: P)
      rw [ih, astep_K]
      show s.2.1 + results c + numResults P
        = s.2.1 + (results c + numResults P)
      omega

theorem numResults_append (P Q : List Cmd) :
    numResults (P ++ Q) = numResults P + numResults Q := by
  induction P with
  | nil =>
      show numResults Q = 0 + numResults Q
      omega
  | cons c P ih =>
      show results c + numResults (P ++ Q)
        = results c + numResults P + numResults Q
      rw [ih]
      omega

theorem progWF_append (env : FuncEnv) (n : Nat) (P Q : List Cmd) :
    ∀ K, progWF env n K (P ++ Q) ↔
      progWF env n K P ∧ progWF env n (K + numResults P) Q := by
  induction P with
  | nil =>
      intro K
      show progWF env n K Q ↔ True ∧ progWF env n (K + 0) Q
      simp
  | cons c P ih =>
      intro K
      show cmdWF env n K c ∧ progWF env n (K + results c) (P ++ Q) ↔
        (cmdWF env n K c ∧ progWF env n (K + results c) P) ∧
          progWF env n (K + numResults (c :: P)) Q
      rw [ih]
      have he : K + results c + numResults P = K + numResults (c :: P) := by
        show _ = K + (results c + numResults P)
        omega
      rw [he]
      tauto

theorem aback1_arith_fst (op : Nat) (rc : Cell) (args : List Cell)
    (s : CellMap × CellMap) : (aback1 (.aarith op rc args) s).1 = s.1 := by
  rcases s with ⟨h, ad⟩
  simp only [aback1]
  split_ifs <;> rfl

theorem aback1_elem_fst (g : EGrad) (rc : Cell) (args : List Cell)
    (saved : List ℚ) (s : CellMap × CellMap) :
    (aback1 (.aelem g rc args saved) s).1 = s.1 := by
  rcases s with ⟨h, ad⟩
  rfl

theorem aback1_assign_fst (tgts srcs : List Cell) (saved : List ℚ)
    (s : CellMap × CellMap) :
    (aback1 (.aassign tgts srcs saved) s).1 = cupdSeq s.1 tgts saved := by
  rcases s with ⟨h, ad⟩
  rfl

theorem aback_restore (env : FuncEnv) (n : Nat) (P : List Cmd) :
    ∀ (h : CellMap) (K : Nat), progWF env n K P →
    ∀ (ad : CellMap) (c : Cell), validCell n K c →
      (aback (arun env P (h, K, [])).2.2.reverse
        ((arun env P (h, K, [])).1, ad)).1 c = h c := by
  induction P with
  | nil => intro h K _ ad c _; rfl
  | cons c0 P ih =>
      intro h K hwf ad c hc
      obtain ⟨hc0, hrest⟩ := hwf
      cases c0 with
      | cvalue q =>
          show (aback (arun env P (cupd h (.rcell K) q, K + 1, [])).2.2.reverse
            ((arun env P (cupd h (.rcell K) q, K + 1, [])).1, ad)).1 c = h c
          rw [ih (cupd h (.rcell K) q) (K + 1) hrest ad c
            (validCell_mono n K (K + 1) (Nat.le_succ K) c hc)]
          exact cupd_ne _ _ _ _ (validCell_ne_rcell n K c hc)
      | carith op args =>
          show (aback (arun env P
              (cupd h (.rcell K)
                (opFwd op (h ((args.map toCell).getD 0 (.rcell 0)))
                  (h ((args.map toCell).getD 1 (.rcell 0)))),
               K + 1,
               [.aarith op (.rcell K) (args.map toCell)])).2.2.reverse
            ((arun env P
              (cupd h (.rcell K)
                (opFwd op (h ((args.map toCell).getD 0 (.rcell 0)))
                  (h ((args.map toCell).getD 1 (.rcell 0)))),
               K + 1,
               [.aarith op (.rcell K) (args.map toCell)])).1, ad)).1 c = h c
          rw [arun_shift env P _ _ [.aarith op (.rcell K) (args.map toCell)]]
          rw [List.reverse_append, aback_append, List.reverse_singleton]
          show (aback1 (.aarith op (.rcell K) (args.map toCell)) _).1 c = h c
          rw [aback1_arith_fst]
          rw [ih _ (K + 1) hrest ad c
            (validCell_mono n K (K + 1) (Nat.le_succ K) c hc)]
          exact cupd_ne _ _ _ _ (validCell_ne_rcell n K c hc)
      | celem f args =>
          show (aback (arun env P
              (cupd h (.rcell K)
                (env.impl f ((args.map toCell).map h)),
               K + 1,
               [.aelem ((env.grad f).getD (fun _ _ => [])) (.rcell K)
                  (args.map toCell) ((args.map toCell).map h)])).2.2.reverse
            ((arun env P
              (cupd h (.rcell K)
                (env.impl f ((args.map toCell).map h)),
               K + 1,
               [.aelem ((env.grad f).getD (fun _ _ => [])) (.rcell K)
                  (args.map toCell) ((args.map toCell).map h)])).1, ad)).1 c
            = h c
          rw [arun_shift env P _ _
            [.aelem ((env.grad f).getD (fun _ _ => [])) (.rcell K)
              (args.map toCell) ((args.map toCell).map h)]]
          rw [List.reverse_append, aback_append, List.reverse_singleton]
          show (aback1 (.aelem ((env.grad f).getD (fun _ _ => [])) (.rcell K)
            (args.map toCell) ((args.map toCell).map h)) _).1 c = h c
          rw [aback1_elem_fst]
          rw [ih _ (K + 1) hrest ad c
            (validCell_mono n K (K + 1) (Nat.le_succ K) c hc)]
          exact cupd_ne _ _ _ _ (validCell_ne_rcell n K c hc)
      | cassign tgt src =>
          show (aback (arun env P
              (cupd h (toCell tgt) (h (toCell src)), K,
               [.aassign [toCell tgt] [toCell src]
                  [h (toCell tgt)]])).2.2.reverse
            ((arun env P
              (cupd h (toCell tgt) (h (toCell src)), K,
               [.aassign [toCell tgt] [toCell src] [h (toCell tgt)]])).1,
             ad)).1 c = h c
          rw [arun_shift env P _ _
            [.aassign [toCell tgt] [toCell src] [h (toCell tgt)]]]
          rw [List.reverse_append, aback_append, List.reverse_singleton]
          show (aback1 (.aassign [toCell tgt] [toCell src] [h (toCell tgt)])
            (aback (arun env P (cupd h (toCell tgt) (h (toCell src)), K,
              [])).2.2.reverse
              ((arun env P (cupd h (toCell tgt) (h (toCell src)), K, [])).1,
               ad))).1 c = h c
          rw [aback1_assign_fst]
          have hb := ih (cupd h (toCell tgt) (h (toCell src))) K hrest ad c hc
          by_cases hct : c = toCell tgt
          · rw [hct]
            show cupd _ (toCell tgt) (h (toCell tgt)) (toCell tgt)
              = h (toCell tgt)
            rw [cupd_at, if_pos rfl]
          · show cupd _ (toCell tgt) (h (toCell tgt)) c = h c
            rw [cupd_ne _ _ _ _ hct, hb, cupd_ne _ _ _ _ hct]
      | cpassign tgts srcs =>
          show (aback (arun env P
              (cupdSeq h (tgts.map toCell) ((srcs.map toCell).map h), K,
               [.aassign (tgts.map toCell) (srcs.map toCell)
                  ((tgts.map toCell).map h)])).2.2.reverse
            ((arun env P
              (cupdSeq h (tgts.map toCell) ((srcs.map toCell).map h), K,
               [.aassign (tgts.map toCell) (srcs.map toCell)
                  ((tgts.map toCell).map h)])).1, ad)).1 c = h c
          rw [arun_shift env P _ _
            [.aassign (tgts.map toCell) (srcs.map toCell)
              ((tgts.map toCell).map h)]]
          rw [List.reverse_append, aback_append, List.reverse_singleton]
          show (aback1 (.aassign (tgts.map toCell) (srcs.map toCell)
            ((tgts.map toCell).map h))
            (aback (arun env P
              (cupdSeq h (tgts.map toCell) ((srcs.map toCell).map h), K,
               [])).2.2.reverse
              ((arun env P (cupdSeq h (tgts.map toCell)
                ((srcs.map toCell).map h), K, [])).1, ad))).1 c = h c
          rw [aback1_assign_fst]
          have hb := ih (cupdSeq h (tgts.map toCell) ((srcs.map toCell).map h))
            K hrest ad c hc
          by_cases hct : c ∈ tgts.map toCell
          · exact cupdSeq_map_mem h (tgts.map toCell) _ c hct
          · rw [cupdSeq_not_mem _ _ _ _ hct, hb,
              cupdSeq_not_mem _ _ _ _ hct]

/-- C10: on every well-formed forward sequence, Gradient() succeeds and the
backward walk restores each cell overwritten by a recorded assignment, so
the parameter vector registered by Setup again holds its original contents
xs after the gradient is taken. -/
theorem gradient_restores_parameters (env : FuncEnv) (xs : List ℚ)
    (P : List Cmd) (r : Ref) (hwf : progWF env xs.length 0 P)
    (hr : refWF xs.length (absRun env xs P).2.1 r) :
    ∃ t4, evalProg env xs P r = .ok (t4, absGrad env xs P r) ∧
      ∀ i, i < xs.length → readMem t4.heap i = xs.getD i 0 := by
  obtain ⟨t4, hok, -, -, -, -, -, -, -, hheap⟩ :=
    evalProg_spec env xs P r hwf hr
  refine ⟨t4, hok, ?_⟩
  intro i hi
  rw [hheap i hi]
  exact aback_restore env xs.length P (initCells xs) 0 hwf
    (fun c => if c = toCell r then 1 else 0) (.pcell i) hi

/-- C3 (amended): after Setup, a well-formed forward evaluation and
Gradient(), the arrays records, places, values, elementals and the frame
stack are back at the lengths they had before Setup, but the adjoint index
keeps the high-water length of the place log (xs.length + 1 parameter and
result places plus one slot per place of each record) and the adjoint
buffer stays nonempty: adj and adv are not truncated on pop. -/
theorem pop_truncates_tape_but_not_adjoints (env : FuncEnv) (xs : List ℚ)
    (P : List Cmd) (r : Ref) (hwf : progWF env xs.length 0 P)
    (hr : refWF xs.length (absRun env xs P).2.1 r) :
    ∃ t4, evalProg env xs P r = .ok (t4, absGrad env xs P r) ∧
      t4.records.length = ({ initTape with heap := xs } : Tape).records.length ∧
      t4.places.length = ({ initTape with heap := xs } : Tape).places.length ∧
      t4.values.length = ({ initTape with heap := xs } : Tape).values.length ∧
      t4.elementals.length
        = ({ initTape with heap := xs } : Tape).elementals.length ∧
      t4.cstack.length = ({ initTape with heap := xs } : Tape).cstack.length ∧
      t4.adj.length = xs.length + 1 + pwA (absRun env xs P).2.2 ∧
      1 ≤ t4.adv.length := by
  obtain ⟨t4, hok, h1, h2, h3, h4, h5, h6, h7, -⟩ :=
    evalProg_spec env xs P r hwf hr
  exact ⟨t4, hok, h1, h2, h3, h4, h5, h6, h7⟩

/-- C5: recording a self-assignment Assignment(x, x) at any point of a
well-formed forward sequence yields the same gradient as omitting it: the
backward walk's clear-then-accumulate order makes the adjoint step a no-op
on the aliased cell, and the saved pre-value rewrite restores the heap the
walk had already restored. -/
theorem assignment_identity (env : FuncEnv) (xs : List ℚ) (P1 P2 : List Cmd)
    (x r : Ref)
    (hwf : progWF env xs.length 0 (P1 ++ .cassign x x :: P2))
    (hr : refWF xs.length
      (absRun env xs (P1 ++ .cassign x x :: P2)).2.1 r) :
    evalGrad env xs (P1 ++ .cassign x x :: P2) r
      = evalGrad env xs (P1 ++ P2) r := by
  obtain ⟨hP1, hca, hP2⟩ := (progWF_append env xs.length P1
    (.cassign x x :: P2) 0).mp hwf
  have hwf2 : progWF env xs.length 0 (P1 ++ P2) :=
    (progWF_append env xs.length P1 P2 0).mpr ⟨hP1, hP2⟩
  rcases hs1 : arun env P1 (initCells xs, 0, []) with ⟨h1, K1, A1⟩
  have hK1 : K1 = 0 + numResults P1 := by
    have hh := arun_K env P1 (initCells xs, 0, [])
    rw [hs1] at hh
    exact hh
  rcases hsD : arun env P2 (h1, K1, []) with ⟨Hf, K2, D⟩
  have hP2K : progWF env xs.length K1 P2 := by
    rw [hK1]
    exact hP2
  have hxcv : validCell xs.length K1 (toCell x) := by
    rw [hK1]
    exact toCell_refWF _ _ x hca.1
  have hwith : absRun env xs (P1 ++ .cassign x x :: P2)
      = (Hf, K2, A1 ++ .aassign [toCell x] [toCell x] [h1 (toCell x)] :: D)
      := by
    show arun env (P1 ++ .cassign x x :: P2) (initCells xs, 0, []) = _
    rw [arun_append, hs1]
    show arun env P2 (cupd h1 (toCell x) (h1 (toCell x)), K1,
      A1 ++ [.aassign [toCell x] [toCell x] [h1 (toCell x)]]) = _
    rw [cupd_self, arun_shift, hsD]
    simp [List.append_assoc]
  have hwithout : absRun env xs (P1 ++ P2) = (Hf, K2, A1 ++ D) := by
    show arun env (P1 ++ P2) (initCells xs, 0, []) = _
    rw [arun_append, hs1, arun_shift env P2 h1 K1 A1, hsD]
  have hback : absBack env xs (P1 ++ .cassign x x :: P2) r
      = absBack env xs (P1 ++ P2) r := by
    show aback (absRun env xs (P1 ++ .cassign x x :: P2)).2.2.reverse
      ((absRun env xs (P1 ++ .cassign x x :: P2)).1,
        fun c => if c = toCell r then 1 else 0)
      = aback (absRun env xs (P1 ++ P2)).2.2.reverse
        ((absRun env xs (P1 ++ P2)).1,
          fun c => if c = toCell r then 1 else 0)
    rw [hwith, hwithout]
    show aback (A1 ++ .aassign [toCell x] [toCell x] [h1 (toCell x)]
        :: D).reverse
      (Hf, fun c => if c = toCell r then 1 else 0)
      = aback (A1 ++ D).reverse
        (Hf, fun c => if c = toCell r then 1 else 0)
    rw [List.reverse_append, List.reverse_cons, List.reverse_append,
      aback_append, aback_append, aback_append]
    congr 1
    rcases hB : aback D.reverse
      (Hf, fun c => if c = toCell r then 1 else 0) with ⟨Hb, adb⟩
    have hrest0 : Hb (toCell x) = h1 (toCell x) := by
      have hres := aback_restore env xs.length P2 h1 K1 hP2K
        (fun c => if c = toCell r then 1 else 0) (toCell x) hxcv
      rw [hsD] at hres
      dsimp only at hres
      rw [hB] at hres
      exact hres
    show aback1 (.aassign [toCell x] [toCell x] [h1 (toCell x)]) (Hb, adb)
      = (Hb, adb)
    show (cupd Hb (toCell x) (h1 (toCell x)),
      cupd (cupd adb (toCell x) 0) (toCell x)
        (cupd adb (toCell x) 0 (toCell x) + adb (toCell x))) = (Hb, adb)
    have h0 : cupd adb (toCell x) 0 (toCell x) = (0 : ℚ) := by
      rw [cupd_at, if_pos rfl]
    rw [h0, zero_add, cupd_overwrite, cupd_self, ← hrest0, cupd_self]
  have hKeq : (absRun env xs (P1 ++ P2)).2.1
      = (absRun env xs (P1 ++ .cassign x x :: P2)).2.1 := by
    rw [hwith, hwithout]
  have hr2 : refWF xs.length (absRun env xs (P1 ++ P2)).2.1 r := by
    rw [hKeq]
    exact hr
  obtain ⟨t4, hok, -, -, -, -, -, -, -, -⟩ :=
    evalProg_spec env xs (P1 ++ .cassign x x :: P2) r hwf hr
  obtain ⟨t4b, hokb, -, -, -, -, -, -, -, -⟩ :=
    evalProg_spec env xs (P1 ++ P2) r hwf2 hr2
  have hgr : absGrad env xs (P1 ++ .cassign x x :: P2) r
      = absGrad env xs (P1 ++ P2) r := by
    show (List.range xs.length).map
        (fun i => (absBack env xs (P1 ++ .cassign x x :: P2) r).2 (.pcell i))
      = (List.range xs.length).map
        (fun i => (absBack env xs (P1 ++ P2) r).2 (.pcell i))
    rw [hback]
  show (evalProg env xs (P1 ++ .cassign x x :: P2) r).map (fun pr => pr.2)
    = (evalProg env xs (P1 ++ P2) r).map (fun pr => pr.2)
  rw [hok, hokb]
  show Except.ok (absGrad env xs (P1 ++ .cassign x x :: P2) r)
    = Except.ok (absGrad env xs (P1 ++ P2) r)
  rw [hgr]

/-- C7: Assignment(t, s) is semantically identical to the one-target
ParallelAssignment(t, s): after either call the target cell holds the value
the source cell held, and on every well-formed forward sequence the
gradient returned by Gradient() is the same whether the assignment was
recorded through the fast path or through the parallel form. -/
theorem assignment_matches_parallel_singleton :
    (∀ (p px : Nat) (tp : Tape), p < tp.heap.length → px < tp.heap.length →
      readMem (Assignment p px tp).heap p = readMem tp.heap px ∧
      readMem (ParallelAssignment [p, px] tp).heap p = readMem tp.heap px) ∧
    (∀ (env : FuncEnv) (xs : List ℚ) (P1 P2 : List Cmd) (t s r : Ref),
      progWF env xs.length 0 (P1 ++ .cassign t s :: P2) →
      refWF xs.length (absRun env xs (P1 ++ .cassign t s :: P2)).2.1 r →
      evalGrad env xs (P1 ++ .cassign t s :: P2) r
        = evalGrad env xs (P1 ++ .cpassign [t] [s] :: P2) r) := by
  constructor
  · intro p px tp hp hpx
    constructor
    · show readMem (writeMem (tp.heap ++ [readMem tp.heap p]) p
        (readMem (tp.heap ++ [readMem tp.heap p]) px)) p
        = readMem tp.heap px
      rw [readMem_append_lt _ _ _ hpx]
      exact readMem_writeMem_self _ _ _
        (by rw [List.length_append]; omega)
    · have hva : ∀ q ∈ [p] ++ [px], q < tp.heap.length := by
        intro q hq
        rcases List.mem_append.mp hq with h1 | h1 <;>
          rw [List.mem_singleton] at h1 <;> rw [h1]
        · exact hp
        · exact hpx
      have h5 := (parallel_assignment_spec_aux [p] [px] tp rfl hva
        (by simp)).2.2.2.2 0 (by norm_num)
      exact h5
  · intro env xs P1 P2 t s r hwf hr
    obtain ⟨hP1, hca, hP2⟩ := (progWF_append env xs.length P1
      (.cassign t s :: P2) 0).mp hwf
    have hstep : astep env (.cassign t s) = astep env (.cpassign [t] [s])
        := by
      funext s0
      rcases s0 with ⟨h, K, A⟩
      rfl
    have hrunEq : absRun env xs (P1 ++ .cassign t s :: P2)
        = absRun env xs (P1 ++ .cpassign [t] [s] :: P2) := by
      show arun env (P1 ++ .cassign t s :: P2) (initCells xs, 0, [])
        = arun env (P1 ++ .cpassign [t] [s] :: P2) (initCells xs, 0, [])
      rw [arun_append, arun_append]
      show arun env P2 (astep env (.cassign t s)
          (arun env P1 (initCells xs, 0, [])))
        = arun env P2 (astep env (.cpassign [t] [s])
          (arun env P1 (initCells xs, 0, [])))
      rw [hstep]
    have hwf2 : progWF env xs.length 0 (P1 ++ .cpassign [t] [s] :: P2) := by
      refine (progWF_append env xs.length P1 (.cpassign [t] [s] :: P2) 0).mpr
        ⟨hP1, ⟨rfl, ?_⟩, hP2⟩
      intro a ha
      rcases List.mem_append.mp ha with h1 | h1 <;>
        rw [List.mem_singleton] at h1 <;> rw [h1]
      · exact hca.1
      · exact hca.2
    have hr2 : refWF xs.length
        (absRun env xs (P1 ++ .cpassign [t] [s] :: P2)).2.1 r := by
      rw [← hrunEq]
      exact hr
    have hback : absBack env xs (P1 ++ .cassign t s :: P2) r
        = absBack env xs (P1 ++ .cpassign [t] [s] :: P2) r := by
      show aback (absRun env xs (P1 ++ .cassign t s :: P2)).2.2.reverse
        ((absRun env xs (P1 ++ .cassign t s :: P2)).1,
          fun c => if c = toCell r then 1 else 0)
        = absBack env xs (P1 ++ .cpassign [t] [s] :: P2) r
      rw [hrunEq]
      rfl
    have hgr : absGrad env xs (P1 ++ .cassign t s :: P2) r
        = absGrad env xs (P1 ++ .cpassign [t] [s] :: P2) r := by
      show (List.range xs.length).map
          (fun i => (absBack env xs (P1 ++ .cassign t s :: P2) r).2
            (.pcell i))
        = (List.range xs.length).map
          (fun i => (absBack env xs (P1 ++ .cpassign [t] [s] :: P2) r).2
            (.pcell i))
      rw [hback]
    obtain ⟨t4, hok, -, -, -, -, -, -, -, -⟩ :=
      evalProg_spec env xs (P1 ++ .cassign t s :: P2) r hwf hr
    obtain ⟨t4b, hokb, -, -, -, -, -, -, -, -⟩ :=
      evalProg_spec env xs (P1 ++ .cpassign [t] [s] :: P2) r hwf2 hr2
    show (evalProg env xs (P1 ++ .cassign t s :: P2) r).map (fun pr => pr.2)
      = (evalProg env xs (P1 ++ .cpassign [t] [s] :: P2) r).map
        (fun pr => pr.2)
    rw [hok, hokb]
    show Except.ok (absGrad env xs (P1 ++ .cassign t s :: P2) r)
      = Except.ok (absGrad env xs (P1 ++ .cpassign [t] [s] :: P2) r)
    rw [hgr]

/-- Witness for C10: one parameter 3, the squaring program, result cell;
after the gradient the parameter cell holds 3 again. -/
theorem gradient_restores_parameters_witness :
    ∃ t4, evalProg ⟨fun _ _ => 0, fun _ => none⟩ [3]
        [.carith OpMul [.rpar 0, .rpar 0]] (.rres 0)
      = .ok (t4, absGrad ⟨fun _ _ => 0, fun _ => none⟩ [3]
          [.carith OpMul [.rpar 0, .rpar 0]] (.rres 0)) ∧
      ∀ i, i < [(3 : ℚ)].length → readMem t4.heap i = [(3 : ℚ)].getD i 0 :=
  gradient_restores_parameters ⟨fun _ _ => 0, fun _ => none⟩ [3]
    [.carith OpMul [.rpar 0, .rpar 0]] (.rres 0)
    (by simp [progWF, cmdWF, refWF, OpMul, OpNeg, OpAdd, OpSub, OpDiv])
    (by show (0 : Nat) < 1; decide)

/-- Witness for C3 (amended): same squaring program; the shape facts are
delivered at a concrete input. -/
theorem pop_truncates_tape_but_not_adjoints_witness :
    ∃ t4, evalProg ⟨fun _ _ => 0, fun _ => none⟩ [3]
        [.carith OpMul [.rpar 0, .rpar 0]] (.rres 0)
      = .ok (t4, absGrad ⟨fun _ _ => 0, fun _ => none⟩ [3]
          [.carith OpMul [.rpar 0, .rpar 0]] (.rres 0)) ∧
      t4.records.length
        = ({ initTape with heap := [(3 : ℚ)] } : Tape).records.length ∧
      t4.places.length
        = ({ initTape with heap := [(3 : ℚ)] } : Tape).places.length ∧
      t4.values.length
        = ({ initTape with heap := [(3 : ℚ)] } : Tape).values.length ∧
      t4.elementals.length
        = ({ initTape with heap := [(3 : ℚ)] } : Tape).elementals.length ∧
      t4.cstack.length
        = ({ initTape with heap := [(3 : ℚ)] } : Tape).cstack.length ∧
      t4.adj.length = [(3 : ℚ)].length + 1
        + pwA (absRun ⟨fun _ _ => 0, fun _ => none⟩ [3]
            [.carith OpMul [.rpar 0, .rpar 0]]).2.2 ∧
      1 ≤ t4.adv.length :=
  pop_truncates_tape_but_not_adjoints ⟨fun _ _ => 0, fun _ => none⟩ [3]
    [.carith OpMul [.rpar 0, .rpar 0]] (.rres 0)
    (by simp [progWF, cmdWF, refWF, OpMul, OpNeg, OpAdd, OpSub, OpDiv])
    (by show (0 : Nat) < 1; decide)

/-- Witness for C5: squaring then a self-assignment of the parameter is
the same gradient as squaring alone. -/
theorem assignment_identity_witness :
    evalGrad ⟨fun _ _ => 0, fun _ => none⟩ [3]
        ([.carith OpMul [.rpar 0, .rpar 0]]
          ++ .cassign (.rpar 0) (.rpar 0) :: []) (.rres 0)
      = evalGrad ⟨fun _ _ => 0, fun _ => none⟩ [3]
        ([.carith OpMul [.rpar 0, .rpar 0]] ++ []) (.rres 0) :=
  assignment_identity ⟨fun _ _ => 0, fun _ => none⟩ [3]
    [.carith OpMul [.rpar 0, .rpar 0]] [] (.rpar 0) (.rres 0)
    (by simp [progWF, cmdWF, refWF, OpMul, OpNeg, OpAdd, OpSub, OpDiv])
    (by show (0 : Nat) < 1; decide)

/-- Witness for C7: concrete heap [10, 20] for the value facts, and the
two-parameter copy program for the gradient equivalence. -/
theorem assignment_matches_parallel_singleton_witness :
    (readMem (Assignment 0 1 { initTape with heap := [10, 20] }).heap 0
        = readMem ({ initTape with heap := [10, 20] } : Tape).heap 1 ∧
      readMem (ParallelAssignment [0, 1]
          { initTape with heap := [10, 20] }).heap 0
        = readMem ({ initTape with heap := [10, 20] } : Tape).heap 1) ∧
    evalGrad ⟨fun _ _ => 0, fun _ => none⟩ [3, 4]
        ([] ++ .cassign (.rpar 0) (.rpar 1) :: []) (.rpar 0)
      = evalGrad ⟨fun _ _ => 0, fun _ => none⟩ [3, 4]
        ([] ++ .cpassign [.rpar 0] [.rpar 1] :: []) (.rpar 0) :=
  ⟨assignment_matches_parallel_singleton.1 0 1
      { initTape with heap := [10, 20] } (by norm_num) (by norm_num),
    assignment_matches_parallel_singleton.2 ⟨fun _ _ => 0, fun _ => none⟩
      [3, 4] [] [] (.rpar 0) (.rpar 1) (.rpar 0)
      (by simp [progWF, cmdWF, refWF])
      (by show (0 : Nat) < 2; decide)⟩

end AD
